import Mathlib

/-!
# IPv4 prefix trie (Smoggi/test-tree): shallow embedding and verified properties

The Go sources `tree.go`, `utils.go`, `cidr.go` and `special.go` are embedded as pure
functions.

Modelling conventions
* A `*IPv4TreeNode` is a value of `IPv4TreeNode`; the constructor `nil` is the nil pointer.
  The `Parent` back pointer is a handle: the `Prefix` of the node pointed to, which
  tells the nodes of one tree apart. The `Info` map is never read and not carried.
* The characters '0' and '1' of keys, prefixes and bit paths are `false` and `true`;
  strings over them are `List Bool`.
* Go `int` is the 64-bit two's-complement integer (`wrapInt`).
* A parsed `*net.IPNet` is `IPNet` (32-bit network address and the number of mask ones);
  canonical CIDR strings are `CIDRString` values, equal exactly when the rendered
  strings are equal.
* A runtime panic (nil dereference) is the result `none` of the mutating operations.
  `Root` is allocated by `NewIPv4Tree` and never reassigned; the read-only walks
  (`Supernet`, `Sizeof`, `Intree`) are modelled for a tree whose `Root` is not nil.
-/

namespace IpTrees

/-! ## Machine integers -/

/-- Two's-complement wrap of a mathematical integer to Go's 64-bit `int`. -/
def wrapInt (x : ℤ) : ℤ := (x + 2 ^ 63) % 2 ^ 64 - 2 ^ 63

/-! ## Networks and canonical strings -/

/-- The `*net.IPNet` returned by `net.ParseCIDR`: the masked network address as a
32-bit number and the number of leading ones of the mask. -/
structure IPNet where
  IP : Nat
  ones : Nat
  deriving DecidableEq, Repr

/-- What `net.ParseCIDR` can return for an IPv4 CIDR string: prefix length at most 32
and all host bits of the address cleared. -/
def IPNet.Valid (n : IPNet) : Prop :=
  n.ones ≤ 32 ∧ n.IP < 2 ^ 32 ∧ n.IP % 2 ^ (32 - n.ones) = 0

instance (n : IPNet) : Decidable n.Valid := by
  unfold IPNet.Valid; infer_instance

/-- Canonical strings produced by `IPv4TreeNode.String` and `net.IPNet.String`:
either the literal "root" or "a.b.c.d/len". -/
inductive CIDRString where
  | root : CIDRString
  | cidr (addr : Nat) (len : Nat) : CIDRString
  deriving DecidableEq, Repr

/-- Rendering of `network.String()`. -/
def IPNet.String (n : IPNet) : CIDRString := CIDRString.cidr n.IP n.ones

/-! ## utils.go -/

/-- The digits of `fmt.Sprintf("%0*b", w, v)` when `v` fits in `w` digits, most
significant first. -/
def binaryDigits : Nat → Nat → List Bool
  | 0, _ => []
  | w + 1, v => (v / 2 ^ w % 2 == 1) :: binaryDigits w v

/-- Source `GetBinaryPathFromIPv4Addr` on a `*net.IPNet`: the 32 binary digits of
the network address. -/
def GetBinaryPathFromIPv4Addr (n : IPNet) : List Bool := binaryDigits 32 n.IP

/-- Source `GetBinaryPathFromIPv4Addr` on a `net.IP`: the 32 binary digits of the
four address bytes read as one number. -/
def GetBinaryPathFromIP (ip : Nat) : List Bool := binaryDigits 32 ip

/-- Value of a binary digit string (`strconv.ParseUint(s, 2, _)` before the range check). -/
def binaryValue (s : List Bool) : Nat := s.foldl (fun acc b => 2 * acc + (if b then 1 else 0)) 0

/-- Source `GetIPv4FromBinaryString`: `strconv.ParseUint(s, 2, 32)` with the error
dropped (a value out of range yields the maximum), as the address it denotes. -/
def GetIPv4FromBinaryString (s : List Bool) : Nat :=
  if binaryValue s < 2 ^ 32 then binaryValue s else 2 ^ 32 - 1

/-- Source `PrefixSize`: `1 << (32 - n)`. It is only called with the depth of a
node being created, between 1 and 32, where the shift count is not negative. -/
def PrefixSize (n : Nat) : ℤ := 2 ^ (32 - n)

/-- Source `CalculateTotalHosts`: two to the number of host bits. -/
def CalculateTotalHosts (n : IPNet) : ℤ := 2 ^ (32 - n.ones)

/-! ## tree.go: nodes -/

/-- Source `IPv4TreeNode` behind a pointer; `nil` is the nil pointer. -/
inductive IPv4TreeNode where
  | nil : IPv4TreeNode
  | mk (Key : List Bool) (PrefixLen : Nat) (Size : ℤ) (IsLast : Bool)
      (Child0 Child1 : IPv4TreeNode) (Prefix : List Bool) (Parent : Option (List Bool)) :
      IPv4TreeNode
  deriving DecidableEq, Repr

namespace IPv4TreeNode

/-- Whether the pointer is nil. -/
def isNil : IPv4TreeNode → Bool
  | nil => true
  | mk .. => false

/-- Field `Key` (empty for nil). -/
def Key : IPv4TreeNode → List Bool
  | nil => []
  | mk k _ _ _ _ _ _ _ => k

/-- Field `PrefixLen`. -/
def PrefixLen : IPv4TreeNode → Nat
  | nil => 0
  | mk _ l _ _ _ _ _ _ => l

/-- Field `Size`. -/
def Size : IPv4TreeNode → ℤ
  | nil => 0
  | mk _ _ s _ _ _ _ _ => s

/-- Field `IsLast`. -/
def IsLast : IPv4TreeNode → Bool
  | nil => false
  | mk _ _ _ t _ _ _ _ => t

/-- Field `Prefix`. -/
def Prefix : IPv4TreeNode → List Bool
  | nil => []
  | mk _ _ _ _ _ _ p _ => p

/-- Field `Parent`: `none` is the nil pointer, `some p` points to the node of the
tree whose `Prefix` is `p`. -/
def Parent : IPv4TreeNode → Option (List Bool)
  | nil => none
  | mk _ _ _ _ _ _ _ par => par

/-- Source `Child`: the child stored under the key. -/
def Child : IPv4TreeNode → Bool → IPv4TreeNode
  | nil, _ => nil
  | mk _ _ _ _ c0 _ _ _, false => c0
  | mk _ _ _ _ _ c1 _ _, true => c1

/-- Source `NewChild`: store a child under the key. -/
def NewChild : IPv4TreeNode → Bool → IPv4TreeNode → IPv4TreeNode
  | nil, _, _ => nil
  | mk k l s t _ c1 p par, false, c => mk k l s t c c1 p par
  | mk k l s t c0 _ p par, true, c => mk k l s t c0 c p par

/-- Assignment `n.IsLast = b`. -/
def setIsLast : IPv4TreeNode → Bool → IPv4TreeNode
  | nil, _ => nil
  | mk k l s _ c0 c1 p par, b => mk k l s b c0 c1 p par

/-- Source `Update`: raise the terminal flag when the given length exceeds the
node's, and add to the size. -/
def Update : IPv4TreeNode → ℤ → ℤ → IPv4TreeNode
  | nil, _, _ => nil
  | mk k l s t c0 c1 p par, prefixLen, size =>
    mk k l (wrapInt (s + size)) (if prefixLen > (l : ℤ) then true else t) c0 c1 p par

/-- Source `TrueLastNode`: both child pointers are nil. -/
def TrueLastNode (n : IPv4TreeNode) : Bool := (n.Child false).isNil && (n.Child true).isNil

/-- Source `Int`: the prefix padded with zeros to 32 digits, read as a binary number. -/
def Int (n : IPv4TreeNode) : Nat :=
  binaryValue (n.Prefix ++ List.replicate (32 - n.Prefix.length) false)

/-- Source `String`: "root" at prefix length 0, otherwise address and length. The
padding `strings.Repeat("0", 32-n.PrefixLen)` is for prefix lengths up to 32, the
depth of the trie. -/
def String (n : IPv4TreeNode) : CIDRString :=
  if n.PrefixLen > 0 then
    CIDRString.cidr
      (GetIPv4FromBinaryString (n.Prefix ++ List.replicate (32 - n.PrefixLen) false)) n.PrefixLen
  else CIDRString.root

/-- Source `Sizeof` on a node: a terminal node reports its size, or its capacity when
the size is not positive (`1 << uint(32-n.PrefixLen)`, which is 0 once the shift
count wraps); any other node sums its children. -/
def Sizeof : IPv4TreeNode → ℤ
  | nil => 0
  | mk _ l s t c0 c1 _ _ =>
    if t then (if s > 0 then s else if l ≤ 32 then 2 ^ (32 - l) else 0)
    else wrapInt (wrapInt (0 + c0.Sizeof) + c1.Sizeof)

/-- Source `IteratorIPv4Tree` driven to the end: the copies it yields, or `none`
when it dereferences a nil child. -/
def IteratorIPv4Tree (n : IPv4TreeNode) : Option (List IPv4TreeNode) :=
  if n.IsLast then some []
  else if (n.Child false).isNil || (n.Child true).isNil then none
  else some [n.Child false, n.Child true]

/-- Source `NewIPv4TreeNode` for a node with a parent: the fresh child, whose
prefix is the parent's prefix with the key appended and whose `Parent` is that
parent. -/
def newChildOf (parent : IPv4TreeNode) (key : Bool) (size : ℤ) (isLast : Bool) : IPv4TreeNode :=
  mk [key] (parent.PrefixLen + 1) size isLast nil nil (parent.Prefix ++ [key])
    (some parent.Prefix)

end IPv4TreeNode

/-! ## tree.go: the tree -/

/-- Source `IPv4Tree`; `nodesMap` maps canonical strings to the prefix of the node
registered under them. -/
structure IPv4Tree where
  Root : IPv4TreeNode
  nodes : Nat
  nodesMap : List (CIDRString × List Bool)
  deriving DecidableEq, Repr

/-- Source `NewIPv4Tree`. -/
def NewIPv4Tree : IPv4Tree :=
  { Root := IPv4TreeNode.mk [] 0 0 false IPv4TreeNode.nil IPv4TreeNode.nil [] none,
    nodes := 1, nodesMap := [] }

/-- Map assignment `m[k] = v`. -/
def mapSet (m : List (CIDRString × List Bool)) (k : CIDRString) (v : List Bool) :
    List (CIDRString × List Bool) :=
  (k, v) :: m.filter (fun e => e.1 ≠ k)

/-- The depth-first collection inside source `Subnets`: terminal nodes, not
descending below a terminal node. -/
def subnetsDfs : IPv4TreeNode → List IPv4TreeNode
  | IPv4TreeNode.nil => []
  | IPv4TreeNode.mk k l s t c0 c1 p par =>
    if t then [IPv4TreeNode.mk k l s t c0 c1 p par] else subnetsDfs c0 ++ subnetsDfs c1

/-- Source `Subnets`: the collected nodes ordered by `Int`. -/
def IPv4Tree.Subnets (t : IPv4Tree) : List IPv4TreeNode :=
  (subnetsDfs t.Root).insertionSort (fun a b => a.Int ≤ b.Int)

/-- The loop of source `IPv4Tree.Sizeof`: descend along the path until the prefix
length is met; a missing child gives 0. -/
def sizeofLoop (prefixLen : Nat) : List Bool → IPv4TreeNode → ℤ
  | [], node => node.Sizeof
  | bit :: rest, node =>
    if (node.Child bit).isNil then 0
    else if (node.Child bit).PrefixLen = prefixLen then (node.Child bit).Sizeof
    else sizeofLoop prefixLen rest (node.Child bit)

/-- Source `IPv4Tree.Sizeof`. -/
def IPv4Tree.Sizeof (t : IPv4Tree) (network : IPNet) : ℤ :=
  sizeofLoop network.ones (GetBinaryPathFromIPv4Addr network) t.Root

/-- The loop of source `Supernet`: the first node on the path that is terminal or
has the wanted prefix length, nil when a child is missing. -/
def supernetLoop (prefixLen : Nat) : List Bool → IPv4TreeNode → IPv4TreeNode
  | [], node => node
  | bit :: rest, node =>
    if (node.Child bit).isNil then IPv4TreeNode.nil
    else if (node.Child bit).IsLast || (node.Child bit).PrefixLen = prefixLen then node.Child bit
    else supernetLoop prefixLen rest (node.Child bit)

/-- Source `Supernet`. -/
def IPv4Tree.Supernet (t : IPv4Tree) (netw : IPNet) : IPv4TreeNode :=
  supernetLoop netw.ones (GetBinaryPathFromIPv4Addr netw) t.Root

/-- The walk of source `Intree`. -/
def intreeLoop (prefixLen : Nat) : List Bool → IPv4TreeNode → Bool
  | [], _ => true
  | bit :: rest, node =>
    if (node.Child bit).isNil then false
    else if (node.Child bit).IsLast || (node.Child bit).PrefixLen = prefixLen then true
    else intreeLoop prefixLen rest (node.Child bit)

/-- Source `Intree`: a string match among `Subnets`, else the walk. -/
def IPv4Tree.Intree (t : IPv4Tree) (network : IPNet) : Bool :=
  if t.Subnets.any (fun n => n.String = network.String) then true
  else intreeLoop network.ones (GetBinaryPathFromIPv4Addr network) t.Root

/-- Result of the walk of `Insert`: the node walked from with its subtree updated,
the node the walk stopped at, the flag `wasInsert`, and how many nodes
`insertNode` created. -/
structure InsertWalk where
  node : IPv4TreeNode
  stop : IPv4TreeNode
  wasInsert : Bool
  created : Nat
  deriving DecidableEq, Repr

/-- The loop of source `Insert` followed by `node.IsLast = true`: from `prev`,
fetch or create the child for each bit, add the size to an existing child, stop at
a terminal node or at the wanted prefix length, and mark the stopping node. -/
def insertLoop (size : ℤ) (prefixLen : Nat) : List Bool → IPv4TreeNode → InsertWalk
  | [], node =>
    { node := node.setIsLast true, stop := node.setIsLast true, wasInsert := false, created := 0 }
  | bit :: rest, prev =>
    if (prev.Child bit).isNil then
      let node := IPv4TreeNode.newChildOf prev bit size false
      if node.IsLast || node.PrefixLen = prefixLen then
        { node := prev.NewChild bit (node.setIsLast true), stop := node.setIsLast true,
          wasInsert := true, created := 1 }
      else
        let r := insertLoop size prefixLen rest node
        { node := prev.NewChild bit r.node, stop := r.stop, wasInsert := true,
          created := r.created + 1 }
    else
      let node := (prev.Child bit).Update (prev.Child bit).PrefixLen size
      if node.IsLast || node.PrefixLen = prefixLen then
        { node := prev.NewChild bit (node.setIsLast true), stop := node.setIsLast true,
          wasInsert := false, created := 0 }
      else
        let r := insertLoop size prefixLen rest node
        { node := prev.NewChild bit r.node, stop := r.stop, wasInsert := r.wasInsert,
          created := r.created }

/-- The loop `for n := range node.IteratorIPv4Tree() { n.Update(-1, d); n = *n.Parent }`:
each `n` is a copy of a child, so `Update` and the assignment change no node of the
tree; what is left of the loop is whether it dereferences a nil pointer, in the
iterator (a nil child) or in the body (a nil `Parent`). -/
def updateCopiesLoop (node : IPv4TreeNode) (_d : ℤ) : Option Unit :=
  match node.IteratorIPv4Tree with
  | none => none
  | some copies => if copies.all (fun n => n.Parent.isSome) then some () else none

/-- Source `IPv4Tree.Insert` on a parsed network. -/
def IPv4Tree.Insert (t : IPv4Tree) (network : IPNet) : Option IPv4Tree :=
  if t.Subnets.any (fun n => n.String = network.String) then some t
  else if t.Root.isNil then none
  else
    let size := CalculateTotalHosts network
    let r := insertLoop size network.ones (GetBinaryPathFromIPv4Addr network)
      (t.Root.Update (-1) size)
    if !r.wasInsert then
      let excess :=
        if r.stop.PrefixLen ≠ network.ones then size else wrapInt (r.stop.Size - size)
      (updateCopiesLoop r.stop excess).map
        (fun _ => { Root := r.node, nodes := t.nodes + r.created, nodesMap := t.nodesMap })
    else
      some { Root := r.node, nodes := t.nodes + r.created,
             nodesMap := mapSet t.nodesMap network.String r.stop.Prefix }

/-- Result of the walk of `Delete`: the node walked from as it is linked in the
tree afterwards, whether the code after the loop hit a nil dereference, and how
many nodes `insertNode` created. -/
structure DeleteWalk where
  node : IPv4TreeNode
  failed : Bool
  created : Nat
  deriving DecidableEq, Repr

/-- The code after the loop of source `Delete`, on the `prev` of the last
iteration: a childless `prev` becomes terminal, then the size loop over the
iterator runs on copies. -/
def deleteAfterLoop (prev : IPv4TreeNode) (size : ℤ) : IPv4TreeNode × Bool :=
  let prev1 := if prev.TrueLastNode then prev.setIsLast true else prev
  (prev1, (updateCopiesLoop prev1 size).isNone)

/-- The loop of source `Delete` with the code after it. In the source the test
`bit == 0` compares the rune with the number 0 and never holds, so `invKey` is
always "0". `node` and `invNode` are both fetched before either is created; when
the bit is '0' and the child is missing, the node created for `node` is replaced
in `prev` by the one created for `invNode`, and the walk goes on in the detached
node, out of the tree. -/
def deleteLoop (size : ℤ) (prefixLen : Nat) : Bool → List Bool → IPv4TreeNode → DeleteWalk
  | _, [], prev =>
    { node := (deleteAfterLoop prev size).1, failed := (deleteAfterLoop prev size).2, created := 0 }
  | inLast, bit :: rest, prev =>
    let node0 := prev.Child bit
    let invKey := false
    let invNode0 := prev.Child invKey
    let inLast1 := if prev.IsLast && !inLast then true else inLast
    let node :=
      if node0.isNil then
        IPv4TreeNode.newChildOf prev bit (PrefixSize (prev.PrefixLen + 1)) false
      else node0
    let prevA := if node0.isNil then prev.NewChild bit node else prev
    let prevB :=
      if invNode0.isNil then
        prevA.NewChild invKey
          ((IPv4TreeNode.newChildOf prevA invKey
            (PrefixSize (prevA.PrefixLen + 1)) false).setIsLast inLast1)
      else prevA
    let created := (if node0.isNil then 1 else 0) + (if invNode0.isNil then 1 else 0)
    let prevC := prevB.setIsLast false
    let detached := node0.isNil && bit == invKey
    if node.PrefixLen = prefixLen then
      { node := prevC, failed := false, created := created }
    else
      match rest with
      | [] =>
        { node := (deleteAfterLoop prevC size).1, failed := (deleteAfterLoop prevC size).2,
          created := created }
      | _ :: _ =>
        let r := deleteLoop size prefixLen inLast1 rest node
        { node := if detached then prevC else prevC.NewChild bit r.node,
          failed := r.failed, created := created + r.created }

/-- Source `IPv4Tree.Delete` on a parsed network: nothing is done unless `Intree`
holds (which dereferences the root first). -/
def IPv4Tree.Delete (t : IPv4Tree) (netw : IPNet) : Option IPv4Tree :=
  if t.Root.isNil then none
  else if !t.Intree netw then some t
  else
    let size := t.Sizeof netw
    let r := deleteLoop size netw.ones false (GetBinaryPathFromIPv4Addr netw) t.Root
    if r.failed then none
    else some { Root := r.node, nodes := t.nodes + r.created, nodesMap := t.nodesMap }

/-! ## tree.go: Aggregate and Add -/

/-- A `float64` value as far as the code distinguishes it: a number, an infinity or
NaN. A quotient of an `int` by a power of two is the exact number while the `int` is
below 2^53 in absolute value, its nearest `float64` otherwise; no property below
depends on sizes that large. -/
inductive Float64 where
  | finite (q : ℚ) : Float64
  | posInf : Float64
  | negInf : Float64
  | nan : Float64

/-- The comparison `a >= b` of Go on `float64`: false as soon as one side is NaN. -/
def Float64.ge : Float64 → Float64 → Bool
  | Float64.nan, _ => false
  | _, Float64.nan => false
  | Float64.posInf, _ => true
  | _, Float64.negInf => true
  | Float64.negInf, _ => false
  | _, Float64.posInf => false
  | Float64.finite a, Float64.finite b => decide (b ≤ a)

/-- The quotient `float64(x) / float64(c)` for a capacity `c` that is 0 or a power of
two. -/
def Float64.quot (x : ℤ) (c : Nat) : Float64 :=
  if c = 0 then
    (if x > 0 then Float64.posInf else if x < 0 then Float64.negInf else Float64.nan)
  else Float64.finite ((x : ℚ) / (c : ℚ))

namespace IPv4TreeNode

/-- Source `Fullness`: 1 at /32, half the size at /31, else the size over
`uint32(1)<<uint(32-n.PrefixLen)`, a shift that gives 0 at prefix length 0 and above
32. -/
def Fullness (n : IPv4TreeNode) : Float64 :=
  if n.PrefixLen = 32 then Float64.finite 1
  else if n.PrefixLen = 31 then Float64.quot n.Size 2
  else Float64.quot n.Size (if 1 ≤ n.PrefixLen ∧ n.PrefixLen ≤ 32 then 2 ^ (32 - n.PrefixLen) else 0)

/-- Source `Aggregate` on a node: a childless node that is full enough becomes
terminal. -/
def Aggregate (n : IPv4TreeNode) (fullness : Float64) : IPv4TreeNode :=
  if n.Fullness.ge fullness && n.TrueLastNode then n.setIsLast true else n

end IPv4TreeNode

/-- The tree after `node.Aggregate(fullness)` has been called on every pointer that
`Subnets` returns: these are the terminal nodes its depth-first collection reaches,
each call changes only its own node, so the order of the calls is immaterial. -/
def aggregateSubnets (fullness : Float64) : IPv4TreeNode → IPv4TreeNode
  | IPv4TreeNode.nil => IPv4TreeNode.nil
  | IPv4TreeNode.mk k l s t c0 c1 p par =>
    if t then (IPv4TreeNode.mk k l s t c0 c1 p par).Aggregate fullness
    else IPv4TreeNode.mk k l s t (aggregateSubnets fullness c0) (aggregateSubnets fullness c1)
      p par

/-- Source `IPv4Tree.Aggregate`. -/
def IPv4Tree.Aggregate (t : IPv4Tree) (fullness : Float64) : IPv4Tree :=
  { Root := aggregateSubnets fullness t.Root, nodes := t.nodes, nodesMap := t.nodesMap }

/-- The texts handed to `net.ParseCIDR`: a string over '0' and '1' (a node key), or a
canonical string as rendered by `String`. -/
inductive Text where
  | bits (s : List Bool) : Text
  | cidr (c : CIDRString) : Text
  deriving DecidableEq, Repr

/-- What `net.ParseCIDR` makes of such a text: a key and "root" have no '/' and give
an error (a nil network); "a.b.c.d/len" gives the address masked to `len` bits. -/
def ParseCIDR : Text → Option IPNet
  | Text.bits _ => none
  | Text.cidr CIDRString.root => none
  | Text.cidr (CIDRString.cidr a l) =>
    if l ≤ 32 ∧ a < 2 ^ 32 then some { IP := a / 2 ^ (32 - l) * 2 ^ (32 - l), ones := l }
    else none

/-- Source `IPv4Tree.Insert` on the text it is given. With a nil network no node
string matches in the duplicate scan and `CalculateTotalHosts` dereferences nil. -/
def IPv4Tree.InsertString (t : IPv4Tree) (ip : Text) : Option IPv4Tree :=
  match ParseCIDR ip with
  | some network => t.Insert network
  | none => none

/-- The loop of source `Add` over the nodes of the other tree: every terminal node
has its `Key` inserted. -/
def addLoop : List IPv4TreeNode → IPv4Tree → Option IPv4Tree
  | [], t => some t
  | node :: rest, t =>
    if node.IsLast then
      match t.InsertString (Text.bits node.Key) with
      | none => none
      | some t1 => addLoop rest t1
    else addLoop rest t

/-- Source `IPv4Tree.Add`. -/
def IPv4Tree.Add (t other : IPv4Tree) : Option IPv4Tree := addLoop other.Subnets t

/-! ## cidr.go -/

/-- Source `CIDRTree`. -/
structure CIDRTree where
  Root : IPv4TreeNode
  nodes : Nat
  nodesMap : List (CIDRString × List Bool)
  deriving DecidableEq, Repr

/-- Source `NewCIDRTree`. -/
def NewCIDRTree : CIDRTree :=
  { Root := IPv4TreeNode.mk [] 0 0 false IPv4TreeNode.nil IPv4TreeNode.nil [] none,
    nodes := 1, nodesMap := [] }

/-- The first loop of source `CIDRTree.Insert`, over `t.Root.IteratorIPv4Tree()`: the
children of a non-terminal root are dereferenced one after the other and compared
with the network string. `none` is a nil dereference, `some true` the early return. -/
def cidrListed (root : IPv4TreeNode) (s : CIDRString) : Option Bool :=
  if root.isNil then none
  else if root.IsLast then some false
  else if (root.Child false).isNil then none
  else if (root.Child false).String = s then some true
  else if (root.Child true).isNil then none
  else if (root.Child true).String = s then some true
  else some false

/-- The walk of source `CIDRTree.Insert` followed by `node.IsLast = true`: as in
`IPv4Tree.Insert`, but only the prefix length stops it. -/
def cidrInsertLoop (size : ℤ) (prefixLen : Nat) : List Bool → IPv4TreeNode → InsertWalk
  | [], node =>
    { node := node.setIsLast true, stop := node.setIsLast true, wasInsert := false, created := 0 }
  | bit :: rest, prev =>
    if (prev.Child bit).isNil then
      let node := IPv4TreeNode.newChildOf prev bit size false
      if node.PrefixLen = prefixLen then
        { node := prev.NewChild bit (node.setIsLast true), stop := node.setIsLast true,
          wasInsert := true, created := 1 }
      else
        let r := cidrInsertLoop size prefixLen rest node
        { node := prev.NewChild bit r.node, stop := r.stop, wasInsert := true,
          created := r.created + 1 }
    else
      let node := (prev.Child bit).Update (prev.Child bit).PrefixLen size
      if node.PrefixLen = prefixLen then
        { node := prev.NewChild bit (node.setIsLast true), stop := node.setIsLast true,
          wasInsert := false, created := 0 }
      else
        let r := cidrInsertLoop size prefixLen rest node
        { node := prev.NewChild bit r.node, stop := r.stop, wasInsert := r.wasInsert,
          created := r.created }

/-- Source `CIDRTree.Insert` on a parsed network (the `attrs` argument is unused). -/
def CIDRTree.Insert (t : CIDRTree) (network : IPNet) : Option CIDRTree :=
  match cidrListed t.Root network.String with
  | none => none
  | some true => some t
  | some false =>
    let size := CalculateTotalHosts network
    let r := cidrInsertLoop size network.ones (GetBinaryPathFromIPv4Addr network)
      (t.Root.Update (-1) size)
    if !r.wasInsert then
      let excess :=
        if r.stop.PrefixLen ≠ network.ones then size else wrapInt (r.stop.Size - size)
      (updateCopiesLoop r.stop (wrapInt (-excess))).map
        (fun _ => { Root := r.node, nodes := t.nodes + r.created, nodesMap := t.nodesMap })
    else
      some { Root := r.node, nodes := t.nodes + r.created,
             nodesMap := mapSet t.nodesMap network.String r.stop.Prefix }

/-- The loop of source `CIDRTree.Supernet` and `SpecialTree.Supernet`: the list
`lastNodes` of the terminal nodes met on the path, closed by the node of the wanted
prefix length. -/
def lastNodesLoop (prefixLen : Nat) : List Bool → IPv4TreeNode → List IPv4TreeNode
  | [], _ => []
  | bit :: rest, node =>
    if (node.Child bit).isNil then []
    else
      (if (node.Child bit).IsLast then [node.Child bit] else []) ++
        (if (node.Child bit).PrefixLen = prefixLen then [node.Child bit]
         else lastNodesLoop prefixLen rest (node.Child bit))

/-- Source `CIDRTree.Supernet`: the last entry of `lastNodes`, nil when there is none. -/
def CIDRTree.Supernet (t : CIDRTree) (netw : IPNet) : IPv4TreeNode :=
  (lastNodesLoop netw.ones (GetBinaryPathFromIPv4Addr netw) t.Root).getLastD IPv4TreeNode.nil

/-! ## special.go -/

/-- Source `SpecialTree`. -/
structure SpecialTree where
  Root : IPv4TreeNode
  nodes : Nat
  nodesMap : List (CIDRString × List Bool)
  deriving DecidableEq, Repr

/-- Source `NewSpecialTree`. -/
def NewSpecialTree : SpecialTree :=
  { Root := IPv4TreeNode.mk [] 0 0 false IPv4TreeNode.nil IPv4TreeNode.nil [] none,
    nodes := 1, nodesMap := [] }

/-- The walk of source `SpecialTree.Insert` followed by `node.IsLast = true`: the node
walked from with its subtree updated, and the number of nodes created. -/
def specialInsertLoop (size : ℤ) (prefixLen : Nat) :
    List Bool → IPv4TreeNode → IPv4TreeNode × Nat
  | [], node => (node.setIsLast true, 0)
  | bit :: rest, prev =>
    if (prev.Child bit).isNil then
      let node := IPv4TreeNode.newChildOf prev bit size false
      if node.PrefixLen = prefixLen then (prev.NewChild bit (node.setIsLast true), 1)
      else
        (prev.NewChild bit (specialInsertLoop size prefixLen rest node).1,
          (specialInsertLoop size prefixLen rest node).2 + 1)
    else
      let node := (prev.Child bit).Update (prev.Child bit).PrefixLen size
      if node.PrefixLen = prefixLen then (prev.NewChild bit (node.setIsLast true), 0)
      else
        (prev.NewChild bit (specialInsertLoop size prefixLen rest node).1,
          (specialInsertLoop size prefixLen rest node).2)

/-- Source `SpecialTree.Insert` on a parsed network (the `info` argument is unused). -/
def SpecialTree.Insert (t : SpecialTree) (network : IPNet) : Option SpecialTree :=
  if t.Root.isNil then none
  else
    let r := specialInsertLoop (CalculateTotalHosts network) network.ones
      (GetBinaryPathFromIPv4Addr network) t.Root
    some { Root := r.1, nodes := t.nodes + r.2, nodesMap := t.nodesMap }

/-- Source `SpecialTree.Insert` on the text it is given: a nil network is dereferenced
by `network.Mask.Size()`. -/
def SpecialTree.InsertString (t : SpecialTree) (cidr : Text) : Option SpecialTree :=
  match ParseCIDR cidr with
  | some network => t.Insert network
  | none => none

/-- Source `SpecialTree.Supernet`. -/
def SpecialTree.Supernet (t : SpecialTree) (network : IPNet) : IPv4TreeNode :=
  (lastNodesLoop network.ones (GetBinaryPathFromIPv4Addr network) t.Root).getLastD
    IPv4TreeNode.nil

/-- The depth-first collection inside source `SpecialTree.Subnets`: every node, the
children before their parent. -/
def specialDfs : IPv4TreeNode → List IPv4TreeNode
  | IPv4TreeNode.nil => []
  | IPv4TreeNode.mk k l s t c0 c1 p par =>
    specialDfs c0 ++ specialDfs c1 ++ [IPv4TreeNode.mk k l s t c0 c1 p par]

/-- Source `SpecialTree.Subnets`: the collected nodes after `sort.Slice` by `Int`.
Nodes on one zero path share their `Int`, and `sort.Slice` is not stable, so the
sorting is a parameter `sortSlice`; the properties ask of it only that it permutes
its input. -/
def SpecialTree.Subnets (sortSlice : List IPv4TreeNode → List IPv4TreeNode) (t : SpecialTree) :
    List IPv4TreeNode :=
  sortSlice (specialDfs t.Root)

/-! ## utils.go: set operations -/

/-- Source `difference`: the entries of `a` that do not occur in `b`. -/
def difference (a b : List CIDRString) : List CIDRString :=
  a.filter (fun v => !(b.contains v))

/-- The strings of the terminal nodes of a list of nodes, as collected at the start of
`TreeSub`. -/
def terminalStrings (nodes : List IPv4TreeNode) : List CIDRString :=
  (nodes.filter (fun n => n.IsLast)).map (fun n => n.String)

/-- The loop that inserts a list of strings into a `SpecialTree`. -/
def insertStrings : List CIDRString → SpecialTree → Option SpecialTree
  | [], t => some t
  | c :: rest, t =>
    match t.InsertString (Text.cidr c) with
    | none => none
    | some t1 => insertStrings rest t1

/-- Source `TreeSub`: a new tree holding the terminal strings of `treeA` that are not
terminal strings of `treeB`. -/
def TreeSub (sortSlice : List IPv4TreeNode → List IPv4TreeNode) (treeA treeB : SpecialTree) :
    Option SpecialTree :=
  insertStrings
    (difference (terminalStrings (treeA.Subnets sortSlice))
      (terminalStrings (treeB.Subnets sortSlice)))
    NewSpecialTree

/-- Source `TreeMerge`: the terminal strings of `treeB` inserted into `treeA`. -/
def TreeMerge (sortSlice : List IPv4TreeNode → List IPv4TreeNode) (treeA treeB : SpecialTree) :
    Option SpecialTree :=
  insertStrings (terminalStrings (treeB.Subnets sortSlice)) treeA

/-! ## Notions used by the properties -/

/-- The address a.b.c.d as a 32-bit number. -/
def ipv4 (a b c d : Nat) : Nat := ((a * 256 + b) * 256 + c) * 256 + d

/-- The parsed network a.b.c.d/len. -/
def cidr (a b c d len : Nat) : IPNet := { IP := ipv4 a b c d, ones := len }

/-- Network `a` contains (or equals) network `b`: its prefix is no longer than
that of `b` and the bit path of `b` starts with the prefix of `a` (on the addresses:
`Contains_iff`). -/
def IPNet.Contains (a b : IPNet) : Prop :=
  a.ones ≤ b.ones ∧
    (GetBinaryPathFromIPv4Addr b).take a.ones = (GetBinaryPathFromIPv4Addr a).take a.ones

instance (a b : IPNet) : Decidable (a.Contains b) := by
  unfold IPNet.Contains; infer_instance

/-- Neither network contains the other. -/
def IPNet.Disjoint (a b : IPNet) : Prop := ¬ a.Contains b ∧ ¬ b.Contains a

instance (a b : IPNet) : Decidable (a.Disjoint b) := by
  unfold IPNet.Disjoint; infer_instance

/-- The network a node stands for, as rendered by `String`: its prefix padded with
zeros, and its prefix length. -/
def IPv4TreeNode.Network (n : IPv4TreeNode) : IPNet :=
  { IP := GetIPv4FromBinaryString (n.Prefix ++ List.replicate (32 - n.PrefixLen) false),
    ones := n.PrefixLen }

/-- The pointer is a node whose network contains or equals `q`. -/
def IPv4TreeNode.Covers (n : IPv4TreeNode) (q : IPNet) : Prop :=
  n.isNil = false ∧ n.Network.Contains q

instance (n : IPv4TreeNode) (q : IPNet) : Decidable (n.Covers q) := by
  unfold IPv4TreeNode.Covers; infer_instance

/-- Network `p` is the smallest block containing both `a` and `b`. -/
def IPNet.SmallestCover (p a b : IPNet) : Prop :=
  p.Valid ∧ p.Contains a ∧ p.Contains b ∧
    ∀ q : IPNet, q.Valid → q.Contains a → q.Contains b → q.ones ≤ p.ones

/-- Structural well-formedness of the subtree behind a pointer that is reached from
the root along `path`: every node records the length of its path as `PrefixLen`
and the path itself as `Prefix`. -/
def WFAt : IPv4TreeNode → List Bool → Prop
  | IPv4TreeNode.nil, _ => True
  | IPv4TreeNode.mk _ l _ _ c0 c1 p _, path =>
    l = path.length ∧ p = path ∧ WFAt c0 (path ++ [false]) ∧ WFAt c1 (path ++ [true])

/-- The tree `Insert` produces when the network is not already listed. -/
def insertFresh (t : IPv4Tree) (network : IPNet) : IPv4Tree :=
  let size := CalculateTotalHosts network
  let r := insertLoop size network.ones (GetBinaryPathFromIPv4Addr network)
    (t.Root.Update (-1) size)
  if r.wasInsert then
    { Root := r.node, nodes := t.nodes + r.created,
      nodesMap := mapSet t.nodesMap network.String r.stop.Prefix }
  else { Root := r.node, nodes := t.nodes + r.created, nodesMap := t.nodesMap }

/-- The pointer is a terminal node of prefix length at most `L` lying on the given
bit path. -/
def TerminalOnPath (L : Nat) (path : List Bool) (r : IPv4TreeNode) : Prop :=
  r.isNil = false ∧ r.IsLast = true ∧ r.PrefixLen ≤ L ∧ r.Prefix.length = r.PrefixLen ∧
    r.Prefix <+: path

/-- The subtree behind a pointer with every `Size` replaced by 0: what is left is
the structure with the keys, prefix lengths, prefixes and terminal flags. -/
def eraseSizes : IPv4TreeNode → IPv4TreeNode
  | IPv4TreeNode.nil => IPv4TreeNode.nil
  | IPv4TreeNode.mk k l _ t c0 c1 p par =>
    IPv4TreeNode.mk k l 0 t (eraseSizes c0) (eraseSizes c1) p par

/-- The pointer reached by following `Children` along the bits; nil once a child is
missing. -/
def nodeAt : IPv4TreeNode → List Bool → IPv4TreeNode
  | n, [] => n
  | n, b :: rest => nodeAt (n.Child b) rest

/-- The fields that tie a child stored under key `b` to its parent: one more bit of
prefix length, the key `b`, the parent's prefix with `b` appended, and the parent
as `Parent`. -/
def ChildLinked (parent : IPv4TreeNode) (b : Bool) (child : IPv4TreeNode) : Prop :=
  child.PrefixLen = parent.PrefixLen + 1 ∧ child.Key = [b] ∧
    child.Prefix = parent.Prefix ++ [b] ∧ child.Parent = some parent.Prefix

/-- Bookkeeping of the subtree behind a pointer reached along `path`, with at most `h`
levels below it: every child is stored under its own `Key`, has the node it hangs
from as `Parent`, and the subtree is no deeper than `h`. -/
def Tidy : Nat → List Bool → IPv4TreeNode → Prop
  | _, _, IPv4TreeNode.nil => True
  | h, path, IPv4TreeNode.mk _ _ _ _ c0 c1 _ _ =>
    (c0.isNil = false → 0 < h ∧ c0.Key = [false] ∧ c0.Parent = some path) ∧
    (c1.isNil = false → 0 < h ∧ c1.Key = [true] ∧ c1.Parent = some path) ∧
    Tidy (h - 1) (path ++ [false]) c0 ∧ Tidy (h - 1) (path ++ [true]) c1

/-- The path `p` leads to a terminal node that has no terminal node strictly above
it on the way from `root`. -/
def Topmost (root : IPv4TreeNode) (p : List Bool) : Prop :=
  (nodeAt root p).isNil = false ∧ (nodeAt root p).IsLast = true ∧
    ∀ q, q <+: p → q ≠ p → (nodeAt root q).IsLast = false

/-- One iteration of the loop of `Delete`: the value of `inLast` after it. -/
def deleteStepInLast (prev : IPv4TreeNode) (inLast : Bool) : Bool :=
  if prev.IsLast && !inLast then true else inLast

/-- One iteration of the loop of `Delete`: the node the walk steps to. -/
def deleteStepNode (prev : IPv4TreeNode) (bit : Bool) : IPv4TreeNode :=
  if (prev.Child bit).isNil then
    IPv4TreeNode.newChildOf prev bit (PrefixSize (prev.PrefixLen + 1)) false
  else prev.Child bit

/-- One iteration of the loop of `Delete`: the node walked from, as the iteration
leaves it. -/
def deleteStepPrev (prev : IPv4TreeNode) (bit : Bool) (inLast : Bool) : IPv4TreeNode :=
  (if (prev.Child false).isNil then
    (if (prev.Child bit).isNil then prev.NewChild bit (deleteStepNode prev bit)
      else prev).NewChild false
      ((IPv4TreeNode.newChildOf
        (if (prev.Child bit).isNil then prev.NewChild bit (deleteStepNode prev bit) else prev)
        false
        (PrefixSize ((if (prev.Child bit).isNil then prev.NewChild bit (deleteStepNode prev bit)
          else prev).PrefixLen + 1)) false).setIsLast (deleteStepInLast prev inLast))
  else (if (prev.Child bit).isNil then prev.NewChild bit (deleteStepNode prev bit)
    else prev)).setIsLast false

/-- Trees reached from the empty tree by `Insert`, `Delete` and `Aggregate` calls
that return, with valid networks. -/
inductive Reachable : IPv4Tree → Prop
  | empty : Reachable NewIPv4Tree
  | insert {t t1 : IPv4Tree} (n : IPNet) :
      Reachable t → n.Valid → t.Insert n = some t1 → Reachable t1
  | delete {t t1 : IPv4Tree} (n : IPNet) :
      Reachable t → n.Valid → t.Delete n = some t1 → Reachable t1
  | aggregate {t : IPv4Tree} (fullness : Float64) :
      Reachable t → Reachable (t.Aggregate fullness)

/-- Special trees built from the empty one by `SpecialTree.Insert` calls with valid
networks. -/
inductive SpecialBuilt : SpecialTree → Prop
  | empty : SpecialBuilt NewSpecialTree
  | insert {t t1 : SpecialTree} (n : IPNet) :
      SpecialBuilt t → n.Valid → t.Insert n = some t1 → SpecialBuilt t1

/-- The position, below a node `k` levels above prefix length `prefixLen`, of the node
that the walk of `SpecialTree.Insert` along `bs` marks terminal: `k` bits down when
the prefix length is met on the way, the end of the path otherwise. -/
def insertTarget (k : Nat) (bs : List Bool) : List Bool :=
  if 1 ≤ k ∧ k ≤ bs.length then bs.take k else bs

/-- The string that `String` renders for a node whose prefix is the non-empty bit
string `s`. -/
def bitsString (s : List Bool) : CIDRString :=
  CIDRString.cidr (GetIPv4FromBinaryString (s ++ List.replicate (32 - s.length) false)) s.length

/-- Well-formedness of a special tree: the root is a node that is not terminal, the
fields of every node fit its position, and no node lies deeper than 32 levels. -/
def SpecialTree.Good (t : SpecialTree) : Prop :=
  t.Root.isNil = false ∧ WFAt t.Root [] ∧ Tidy 32 [] t.Root ∧ t.Root.IsLast = false

/-- The string `c` is the string of a terminal node of the tree. -/
def SpecialTree.HasTerminal (t : SpecialTree) (c : CIDRString) : Prop :=
  ∃ s, (nodeAt t.Root s).IsLast = true ∧ c = bitsString s

/-- Trees built from the empty tree by `Insert` calls with valid networks, with
the list of the networks inserted (latest first). -/
inductive Built : List IPNet → IPv4Tree → Prop
  | empty : Built [] NewIPv4Tree
  | insert {ns : List IPNet} {t t1 : IPv4Tree} (n : IPNet) :
      Built ns t → n.Valid → t.Insert n = some t1 → Built (n :: ns) t1

/-! ## The bit-path codec -/

theorem binaryDigits_length (w v : Nat) : (binaryDigits w v).length = w := by
  induction w with
  | zero => rfl
  | succ w ih => simp [binaryDigits, ih]

theorem binaryValue_foldl (s : List Bool) (a : Nat) :
    s.foldl (fun acc b => 2 * acc + (if b then 1 else 0)) a = a * 2 ^ s.length + binaryValue s := by
  induction s generalizing a with
  | nil => simp [binaryValue]
  | cons b s ih =>
    simp only [List.foldl_cons, List.length_cons, binaryValue]
    rw [ih, ih (2 * 0 + _)]
    ring

theorem binaryValue_nil : binaryValue [] = 0 := rfl

theorem binaryValue_cons (b : Bool) (s : List Bool) :
    binaryValue (b :: s) = (if b then 1 else 0) * 2 ^ s.length + binaryValue s := by
  simp only [binaryValue, List.foldl_cons]
  rw [binaryValue_foldl]
  simp [binaryValue]

theorem binaryValue_lt (s : List Bool) : binaryValue s < 2 ^ s.length := by
  induction s with
  | nil => simp [binaryValue_nil]
  | cons b s ih =>
    rw [binaryValue_cons, List.length_cons, pow_succ]
    cases b <;> simp <;> omega

theorem binaryDigits_mod (w v : Nat) : binaryDigits w (v % 2 ^ w) = binaryDigits w v := by
  induction w generalizing v with
  | zero => rfl
  | succ w ih =>
    simp only [binaryDigits]
    congr 1
    · rw [pow_succ, Nat.mod_mul_right_div_self, Nat.mod_mod]
    · rw [← ih (v % 2 ^ (w + 1)), ← ih v, Nat.mod_mod_of_dvd _ (pow_dvd_pow 2 (Nat.le_succ w))]

theorem binaryDigits_binaryValue (s : List Bool) : binaryDigits s.length (binaryValue s) = s := by
  induction s with
  | nil => rfl
  | cons b s ih =>
    have hlt := binaryValue_lt s
    simp only [List.length_cons, binaryDigits, binaryValue_cons]
    congr 1
    · have : ((if b = true then 1 else 0) * 2 ^ s.length + binaryValue s) / 2 ^ s.length
          = (if b = true then 1 else 0) := by
        rw [Nat.add_comm, Nat.add_mul_div_right _ _ (by positivity), Nat.div_eq_of_lt hlt]
        simp
      rw [this]
      cases b <;> simp
    · rw [← binaryDigits_mod, Nat.add_comm, Nat.add_mul_mod_self_right, Nat.mod_eq_of_lt hlt, ih]

theorem binaryValue_binaryDigits (w v : Nat) : binaryValue (binaryDigits w v) = v % 2 ^ w := by
  induction w generalizing v with
  | zero => simp [binaryDigits, binaryValue_nil, Nat.mod_one]
  | succ w ih =>
    simp only [binaryDigits, binaryValue_cons, binaryDigits_length, ih]
    have h1 : v % 2 ^ (w + 1) = 2 ^ w * (v / 2 ^ w % 2) + v % 2 ^ w := by
      rw [pow_succ, Nat.mod_mul]
      ring
    rw [h1]
    rcases Nat.mod_two_eq_zero_or_one (v / 2 ^ w) with h | h <;> simp [h]

theorem binaryDigits_drop (w k v : Nat) :
    (binaryDigits w v).drop k = binaryDigits (w - k) v := by
  induction w generalizing k with
  | zero => simp [binaryDigits]
  | succ w ih =>
    cases k with
    | zero => simp
    | succ k =>
      simp only [binaryDigits, List.drop_succ_cons, ih]
      congr 1
      omega

theorem binaryDigits_of_mod_eq_zero (m v : Nat) (h : v % 2 ^ m = 0) :
    binaryDigits m v = List.replicate m false := by
  rw [← binaryDigits_mod, h]
  clear h
  induction m with
  | zero => rfl
  | succ m ih => simp [binaryDigits, List.replicate_succ, ih]

theorem path_length (n : IPNet) : (GetBinaryPathFromIPv4Addr n).length = 32 :=
  binaryDigits_length 32 n.IP

/-- The bit path of a valid network is its prefix followed by zeros. -/
theorem path_eq_take_append_zeros (n : IPNet) (h : n.Valid) :
    (GetBinaryPathFromIPv4Addr n).take n.ones ++ List.replicate (32 - n.ones) false
      = GetBinaryPathFromIPv4Addr n := by
  have hd : (GetBinaryPathFromIPv4Addr n).drop n.ones = List.replicate (32 - n.ones) false := by
    unfold GetBinaryPathFromIPv4Addr
    rw [binaryDigits_drop, binaryDigits_of_mod_eq_zero _ _ h.2.2]
  rw [← hd, List.take_append_drop]

theorem GetIPv4FromBinaryString_path (n : IPNet) (h : n.Valid) :
    GetIPv4FromBinaryString (GetBinaryPathFromIPv4Addr n) = n.IP := by
  unfold GetIPv4FromBinaryString GetBinaryPathFromIPv4Addr
  rw [binaryValue_binaryDigits, Nat.mod_eq_of_lt h.2.1, if_pos h.2.1]

theorem path_of_binaryString (s : List Bool) (h : s.length = 32) :
    binaryDigits 32 (GetIPv4FromBinaryString s) = s := by
  unfold GetIPv4FromBinaryString
  have hlt := binaryValue_lt s
  rw [h] at hlt
  rw [if_pos hlt, ← h, binaryDigits_binaryValue]

/-! ## Containment in terms of addresses -/

theorem binaryDigits_add (k m v : Nat) :
    binaryDigits (k + m) v = binaryDigits k (v / 2 ^ m) ++ binaryDigits m v := by
  induction k with
  | zero => simp [binaryDigits]
  | succ k ih =>
    rw [Nat.add_right_comm]
    simp only [binaryDigits, ih, List.cons_append]
    rw [Nat.div_div_eq_div_mul, ← pow_add, Nat.add_comm m k]

theorem take_binaryDigits (k v : Nat) (hk : k ≤ 32) :
    (binaryDigits 32 v).take k = binaryDigits k (v / 2 ^ (32 - k)) := by
  have h32 : 32 = k + (32 - k) := by omega
  conv_lhs => rw [h32, binaryDigits_add]
  rw [List.take_left']
  exact binaryDigits_length _ _

theorem binaryDigits_inj (k x y : Nat) (hx : x < 2 ^ k) (hy : y < 2 ^ k)
    (h : binaryDigits k x = binaryDigits k y) : x = y := by
  have := congrArg binaryValue h
  rwa [binaryValue_binaryDigits, binaryValue_binaryDigits, Nat.mod_eq_of_lt hx,
    Nat.mod_eq_of_lt hy] at this

/-- Containment read on the addresses: the prefix of `a` is no longer than that of `b`
and both addresses agree once the host bits of `a` are shifted out. -/
theorem Contains_iff (a b : IPNet) (ha : a.ones ≤ 32) (haIP : a.IP < 2 ^ 32)
    (hbIP : b.IP < 2 ^ 32) :
    a.Contains b ↔
      a.ones ≤ b.ones ∧ b.IP / 2 ^ (32 - a.ones) = a.IP / 2 ^ (32 - a.ones) := by
  unfold IPNet.Contains GetBinaryPathFromIPv4Addr
  rw [take_binaryDigits _ _ ha, take_binaryDigits _ _ ha]
  have hpow : (2 : Nat) ^ 32 = 2 ^ (32 - a.ones) * 2 ^ a.ones := by
    rw [← pow_add]; congr 1; omega
  have hlt : ∀ v : Nat, v < 2 ^ 32 → v / 2 ^ (32 - a.ones) < 2 ^ a.ones := by
    intro v hv
    rw [Nat.div_lt_iff_lt_mul (by positivity), Nat.mul_comm, ← hpow]
    exact hv
  constructor
  · rintro ⟨h1, h2⟩
    exact ⟨h1, binaryDigits_inj _ _ _ (hlt _ hbIP) (hlt _ haIP) h2⟩
  · rintro ⟨h1, h2⟩
    exact ⟨h1, by rw [h2]⟩

/-! ## Nodes: field lemmas -/

namespace IPv4TreeNode

@[simp] theorem isNil_nil : isNil nil = true := rfl
@[simp] theorem isNil_mk (k l s t c0 c1 p par) : isNil (mk k l s t c0 c1 p par) = false := rfl
@[simp] theorem isNil_newChildOf (n b s t) : isNil (newChildOf n b s t) = false := rfl
@[simp] theorem IsLast_newChildOf (n b s t) : IsLast (newChildOf n b s t) = t := rfl
@[simp] theorem PrefixLen_newChildOf (n b s t) :
    PrefixLen (newChildOf n b s t) = n.PrefixLen + 1 := rfl
@[simp] theorem Prefix_newChildOf (n b s t) :
    Prefix (newChildOf n b s t) = n.Prefix ++ [b] := rfl
@[simp] theorem Size_newChildOf (n b s t) : Size (newChildOf n b s t) = s := rfl
@[simp] theorem Child_newChildOf (n b s t c) : Child (newChildOf n b s t) c = nil := by
  cases c <;> rfl

@[simp] theorem isNil_setIsLast (n b) : isNil (setIsLast n b) = isNil n := by cases n <;> rfl
@[simp] theorem PrefixLen_setIsLast (n b) : PrefixLen (setIsLast n b) = PrefixLen n := by
  cases n <;> rfl
@[simp] theorem Prefix_setIsLast (n b) : Prefix (setIsLast n b) = Prefix n := by cases n <;> rfl
@[simp] theorem Size_setIsLast (n b) : Size (setIsLast n b) = Size n := by cases n <;> rfl
@[simp] theorem Child_setIsLast (n b c) : Child (setIsLast n b) c = Child n c := by
  cases n <;> cases c <;> rfl
theorem IsLast_setIsLast (n b) (h : isNil n = false) : IsLast (setIsLast n b) = b := by
  cases n
  · simp at h
  · rfl

@[simp] theorem isNil_Update (n l s) : isNil (Update n l s) = isNil n := by cases n <;> rfl
@[simp] theorem PrefixLen_Update (n l s) : PrefixLen (Update n l s) = PrefixLen n := by
  cases n <;> rfl
@[simp] theorem Prefix_Update (n l s) : Prefix (Update n l s) = Prefix n := by cases n <;> rfl
@[simp] theorem Child_Update (n l s c) : Child (Update n l s) c = Child n c := by
  cases n <;> cases c <;> rfl
theorem IsLast_Update_of_le (n : IPv4TreeNode) (l s : ℤ) (h : l ≤ (n.PrefixLen : ℤ)) :
    IsLast (Update n l s) = IsLast n := by
  cases n with
  | nil => rfl
  | mk k pl sz t c0 c1 p par =>
    simp only [Update, IsLast, PrefixLen] at h ⊢
    rw [if_neg (by omega)]
@[simp] theorem IsLast_Update_self (n : IPv4TreeNode) (s : ℤ) :
    IsLast (Update n n.PrefixLen s) = IsLast n := IsLast_Update_of_le n _ s le_rfl
@[simp] theorem IsLast_Update_neg (n : IPv4TreeNode) (s : ℤ) :
    IsLast (Update n (-1) s) = IsLast n := IsLast_Update_of_le n _ s (by omega)
theorem Size_Update (n : IPv4TreeNode) (l s : ℤ) (h : isNil n = false) :
    Size (Update n l s) = wrapInt (Size n + s) := by
  cases n
  · simp at h
  · rfl

@[simp] theorem isNil_NewChild (n b c) : isNil (NewChild n b c) = isNil n := by
  cases n <;> cases b <;> rfl
@[simp] theorem PrefixLen_NewChild (n b c) : PrefixLen (NewChild n b c) = PrefixLen n := by
  cases n <;> cases b <;> rfl
@[simp] theorem Prefix_NewChild (n b c) : Prefix (NewChild n b c) = Prefix n := by
  cases n <;> cases b <;> rfl
@[simp] theorem IsLast_NewChild (n b c) : IsLast (NewChild n b c) = IsLast n := by
  cases n <;> cases b <;> rfl
@[simp] theorem Size_NewChild (n b c) : Size (NewChild n b c) = Size n := by
  cases n <;> cases b <;> rfl
theorem Child_NewChild_same (n b c) (h : isNil n = false) : Child (NewChild n b c) b = c := by
  cases n
  · simp at h
  · cases b <;> rfl
theorem Child_NewChild_other (n b c) : Child (NewChild n b c) (!b) = Child n (!b) := by
  cases n <;> cases b <;> rfl
theorem Child_NewChild_ne (n : IPv4TreeNode) (b b1 : Bool) (c) (h : b1 ≠ b) :
    Child (NewChild n b c) b1 = Child n b1 := by
  cases n <;> cases b <;> cases b1 <;> first | rfl | exact absurd rfl h

end IPv4TreeNode

/-! ## Well-formedness is kept by the walk of Insert -/

theorem WFAt_setIsLast (n : IPv4TreeNode) (p : List Bool) (b : Bool) (h : WFAt n p) :
    WFAt (n.setIsLast b) p := by
  cases n with
  | nil => trivial
  | mk => exact h

theorem WFAt_Update (n : IPv4TreeNode) (p : List Bool) (l s : ℤ) (h : WFAt n p) :
    WFAt (n.Update l s) p := by
  cases n with
  | nil => trivial
  | mk => exact h

theorem WFAt_Child (n : IPv4TreeNode) (p : List Bool) (b : Bool) (h : WFAt n p) :
    WFAt (n.Child b) (p ++ [b]) := by
  cases n with
  | nil => trivial
  | mk k l s t c0 c1 q par =>
    cases b
    · exact h.2.2.1
    · exact h.2.2.2

theorem WFAt_NewChild (n c : IPv4TreeNode) (p : List Bool) (b : Bool) (h : WFAt n p)
    (hc : WFAt c (p ++ [b])) : WFAt (n.NewChild b c) p := by
  cases n with
  | nil => trivial
  | mk k l s t c0 c1 q par =>
    cases b
    · exact ⟨h.1, h.2.1, hc, h.2.2.2⟩
    · exact ⟨h.1, h.2.1, h.2.2.1, hc⟩

theorem WFAt_PrefixLen (n : IPv4TreeNode) (p : List Bool) (h : WFAt n p)
    (hn : n.isNil = false) : n.PrefixLen = p.length := by
  cases n with
  | nil => simp at hn
  | mk => exact h.1

theorem WFAt_Prefix (n : IPv4TreeNode) (p : List Bool) (h : WFAt n p)
    (hn : n.isNil = false) : n.Prefix = p := by
  cases n with
  | nil => simp at hn
  | mk => exact h.2.1

theorem WFAt_newChildOf (n : IPv4TreeNode) (p : List Bool) (b : Bool) (s : ℤ) (t : Bool)
    (h : WFAt n p) (hn : n.isNil = false) :
    WFAt (IPv4TreeNode.newChildOf n b s t) (p ++ [b]) := by
  refine ⟨?_, ?_, trivial, trivial⟩
  · simp [WFAt_PrefixLen n p h hn]
  · simp [WFAt_Prefix n p h hn]

theorem insertLoop_node_isNil (size : ℤ) (L : Nat) (bs : List Bool) (n : IPv4TreeNode) :
    (insertLoop size L bs n).node.isNil = n.isNil := by
  cases bs with
  | nil => simp [insertLoop]
  | cons bit rest =>
    simp only [insertLoop]
    split_ifs <;> simp

theorem insertLoop_wf (size : ℤ) (L : Nat) (bs : List Bool) :
    ∀ (n : IPv4TreeNode) (p : List Bool), WFAt n p → n.isNil = false →
      WFAt (insertLoop size L bs n).node p := by
  induction bs with
  | nil =>
    intro n p h _
    simpa [insertLoop] using WFAt_setIsLast n p true h
  | cons bit rest ih =>
    intro n p h hn
    have hnew := WFAt_newChildOf n p bit size false h hn
    have hupd := WFAt_Update (n.Child bit) (p ++ [bit]) (n.Child bit).PrefixLen size
      (WFAt_Child n p bit h)
    simp only [insertLoop]
    split_ifs with h1 h2 h3
    · exact WFAt_NewChild _ _ _ _ h (WFAt_setIsLast _ _ _ hnew)
    · exact WFAt_NewChild _ _ _ _ h (ih _ _ hnew rfl)
    · exact WFAt_NewChild _ _ _ _ h (WFAt_setIsLast _ _ _ hupd)
    · exact WFAt_NewChild _ _ _ _ h (ih _ _ hupd (by simpa using h1))

theorem insertLoop_stop_isNil (size : ℤ) (L : Nat) (bs : List Bool) :
    ∀ (n : IPv4TreeNode), n.isNil = false → (insertLoop size L bs n).stop.isNil = false := by
  induction bs with
  | nil => intro n hn; simpa [insertLoop] using hn
  | cons bit rest ih =>
    intro n hn
    simp only [insertLoop]
    split_ifs with h1 h2 h3
    · simp
    · exact ih _ rfl
    · simpa using h1
    · exact ih _ (by simpa using h1)

theorem insertLoop_stop_IsLast (size : ℤ) (L : Nat) (bs : List Bool) :
    ∀ (n : IPv4TreeNode), n.isNil = false → (insertLoop size L bs n).stop.IsLast = true := by
  induction bs with
  | nil => intro n hn; simpa [insertLoop] using IPv4TreeNode.IsLast_setIsLast n true hn
  | cons bit rest ih =>
    intro n hn
    simp only [insertLoop]
    split_ifs with h1 h2 h3
    · exact IPv4TreeNode.IsLast_setIsLast (IPv4TreeNode.newChildOf n bit size false) true rfl
    · exact ih _ rfl
    · exact IPv4TreeNode.IsLast_setIsLast _ _ (by simpa using h1)
    · exact ih _ (by simpa using h1)

theorem updateCopiesLoop_of_IsLast (n : IPv4TreeNode) (d : ℤ) (h : n.IsLast = true) :
    updateCopiesLoop n d = some () := by
  simp [updateCopiesLoop, IPv4TreeNode.IteratorIPv4Tree, h]

theorem any_insertionSort {α : Type} (r : α → α → Prop) [DecidableRel r] (f : α → Bool)
    (l : List α) : (l.insertionSort r).any f = l.any f := by
  rw [Bool.eq_iff_iff]
  simp only [List.any_eq_true]
  constructor
  · rintro ⟨x, hx, hf⟩
    exact ⟨x, (List.perm_insertionSort r l).mem_iff.mp hx, hf⟩
  · rintro ⟨x, hx, hf⟩
    exact ⟨x, (List.perm_insertionSort r l).mem_iff.mpr hx, hf⟩

theorem Insert_eq (t : IPv4Tree) (network : IPNet) (hroot : t.Root.isNil = false) :
    t.Insert network =
      if (subnetsDfs t.Root).any (fun n => n.String = network.String) then some t
      else some (insertFresh t network) := by
  have hstop := updateCopiesLoop_of_IsLast _
    (if (insertLoop (CalculateTotalHosts network) network.ones
          (GetBinaryPathFromIPv4Addr network)
          (t.Root.Update (-1) (CalculateTotalHosts network))).stop.PrefixLen ≠ network.ones
      then CalculateTotalHosts network
      else wrapInt ((insertLoop (CalculateTotalHosts network) network.ones
          (GetBinaryPathFromIPv4Addr network)
          (t.Root.Update (-1) (CalculateTotalHosts network))).stop.Size
            - CalculateTotalHosts network))
    (insertLoop_stop_IsLast (CalculateTotalHosts network) network.ones
      (GetBinaryPathFromIPv4Addr network) (t.Root.Update (-1) (CalculateTotalHosts network))
      (by simpa using hroot))
  unfold IPv4Tree.Insert IPv4Tree.Subnets insertFresh
  rw [any_insertionSort]
  by_cases h1 : (subnetsDfs t.Root).any (fun n => n.String = network.String) = true
  · simp only [h1, if_true]
  · simp only [h1, hroot, if_false, Bool.false_eq_true]
    cases hw : (insertLoop (CalculateTotalHosts network) network.ones
        (GetBinaryPathFromIPv4Addr network)
        (t.Root.Update (-1) (CalculateTotalHosts network))).wasInsert
    · simp only [Bool.not_false, if_true, Bool.false_eq_true, if_false]
      rw [hstop]
      rfl
    · simp only [Bool.not_true, Bool.false_eq_true, if_false, if_true]

/-! ## Trees built by Insert -/

theorem insertFresh_Root (t : IPv4Tree) (network : IPNet) :
    (insertFresh t network).Root =
      (insertLoop (CalculateTotalHosts network) network.ones (GetBinaryPathFromIPv4Addr network)
        (t.Root.Update (-1) (CalculateTotalHosts network))).node := by
  unfold insertFresh
  simp only []
  split_ifs <;> rfl

theorem Insert_isSome (t : IPv4Tree) (network : IPNet) (hroot : t.Root.isNil = false) :
    ∃ t1, t.Insert network = some t1 := by
  rw [Insert_eq t network hroot]
  split_ifs
  · exact ⟨_, rfl⟩
  · exact ⟨_, rfl⟩

theorem Insert_inv (t t1 : IPv4Tree) (network : IPNet) (hroot : t.Root.isNil = false)
    (hwf : WFAt t.Root []) (h : t.Insert network = some t1) :
    t1.Root.isNil = false ∧ WFAt t1.Root [] := by
  rw [Insert_eq t network hroot] at h
  split_ifs at h
  · cases h; exact ⟨hroot, hwf⟩
  · cases h
    rw [insertFresh_Root]
    exact ⟨by rw [insertLoop_node_isNil]; simpa using hroot,
      insertLoop_wf _ _ _ _ _ (WFAt_Update _ _ _ _ hwf) (by simpa using hroot)⟩

theorem Built_inv {ns : List IPNet} {t : IPv4Tree} (h : Built ns t) :
    t.Root.isNil = false ∧ WFAt t.Root [] := by
  induction h with
  | empty => exact ⟨rfl, rfl, rfl, trivial, trivial⟩
  | insert n _ _ hins ih => exact Insert_inv _ _ n ih.1 ih.2 hins

/-! ## Supernet after the walk of Insert -/

theorem insertLoop_cons_node (size : ℤ) (L : Nat) (bit : Bool) (rest : List Bool)
    (n : IPv4TreeNode) :
    ∃ c, (insertLoop size L (bit :: rest) n).node = n.NewChild bit c := by
  simp only [insertLoop]
  split_ifs <;> exact ⟨_, rfl⟩

theorem Contains_refl (a : IPNet) : a.Contains a := ⟨le_rfl, rfl⟩

theorem Network_path (n : IPv4TreeNode) (h1 : n.Prefix.length = n.PrefixLen)
    (h2 : n.PrefixLen ≤ 32) :
    GetBinaryPathFromIPv4Addr n.Network
      = n.Prefix ++ List.replicate (32 - n.PrefixLen) false := by
  unfold GetBinaryPathFromIPv4Addr IPv4TreeNode.Network
  apply path_of_binaryString
  simp [h1]
  omega

theorem Covers_of_Prefix (n : IPv4TreeNode) (q : IPNet) (hn : n.isNil = false)
    (h1 : n.Prefix.length = n.PrefixLen) (h2 : n.PrefixLen ≤ q.ones) (h3 : q.ones ≤ 32)
    (h4 : n.Prefix <+: GetBinaryPathFromIPv4Addr q) : n.Covers q := by
  refine ⟨hn, h2, ?_⟩
  rw [Network_path n h1 (le_trans h2 h3)]
  show List.take n.PrefixLen _ = List.take n.PrefixLen _
  rw [← h1, List.take_left']
  · exact (List.prefix_iff_eq_take.mp h4).symm
  · rfl

theorem supernetLoop_insertLoop (size : ℤ) (L : Nat) (bs : List Bool) :
    ∀ (n : IPv4TreeNode) (p : List Bool), n.isNil = false → WFAt n p → p.length < L →
      bs ≠ [] → TerminalOnPath L (p ++ bs) (supernetLoop L bs (insertLoop size L bs n).node) := by
  induction bs with
  | nil => intro n p _ _ _ h; exact absurd rfl h
  | cons bit rest ih =>
    intro n p hn hwf hlt _
    -- `m` is the node the walk steps to, before the stop test
    have key : ∀ m : IPv4TreeNode, m.isNil = false → WFAt m (p ++ [bit]) →
        ((m.IsLast || decide (m.PrefixLen = L)) = true →
          TerminalOnPath L (p ++ bit :: rest)
            (supernetLoop L (bit :: rest) (n.NewChild bit (m.setIsLast true)))) ∧
        (¬ (m.IsLast || decide (m.PrefixLen = L)) = true →
          TerminalOnPath L (p ++ bit :: rest)
            (supernetLoop L (bit :: rest)
              (n.NewChild bit (insertLoop size L rest m).node))) := by
      intro m hm hmwf
      have hpl : m.PrefixLen = p.length + 1 := by
        rw [WFAt_PrefixLen m _ hmwf hm]; simp
      have hpx : m.Prefix = p ++ [bit] := WFAt_Prefix m _ hmwf hm
      have hstopped : ∀ m1 : IPv4TreeNode, m1.isNil = false → m1.IsLast = true →
          m1.PrefixLen = m.PrefixLen → m1.Prefix = m.Prefix →
          TerminalOnPath L (p ++ bit :: rest)
            (supernetLoop L (bit :: rest) (n.NewChild bit m1)) := by
        intro m1 hm1 hlast hl1 hp1
        have : supernetLoop L (bit :: rest) (n.NewChild bit m1) = m1 := by
          simp [supernetLoop, IPv4TreeNode.Child_NewChild_same n bit m1 hn, hm1, hlast]
        rw [this]
        refine ⟨hm1, hlast, by omega, by rw [hp1, hpx, hl1, hpl]; simp, ?_⟩
        rw [hp1, hpx]
        exact ⟨rest, by simp⟩
      constructor
      · intro _
        exact hstopped _ (by simpa using hm) (IPv4TreeNode.IsLast_setIsLast m true hm)
          (by simp) (by simp)
      · intro hnot
        simp only [Bool.or_eq_true, decide_eq_true_eq, not_or, Bool.not_eq_true] at hnot
        cases rest with
        | nil =>
          exact hstopped _ (by simpa [insertLoop] using hm)
            (by simpa [insertLoop] using IPv4TreeNode.IsLast_setIsLast m true hm)
            (by simp [insertLoop]) (by simp [insertLoop])
        | cons b1 rest1 =>
          obtain ⟨c, hc⟩ := insertLoop_cons_node size L b1 rest1 m
          have hstep : supernetLoop L (bit :: b1 :: rest1)
              (n.NewChild bit (insertLoop size L (b1 :: rest1) m).node)
              = supernetLoop L (b1 :: rest1) (insertLoop size L (b1 :: rest1) m).node := by
            conv_lhs => rw [supernetLoop]
            rw [IPv4TreeNode.Child_NewChild_same n bit _ hn]
            have e1 : (insertLoop size L (b1 :: rest1) m).node.isNil = false := by
              rw [insertLoop_node_isNil]; exact hm
            have e2 : (insertLoop size L (b1 :: rest1) m).node.IsLast = false := by
              rw [hc]; simpa using hnot.1
            have e3 : (insertLoop size L (b1 :: rest1) m).node.PrefixLen ≠ L := by
              rw [hc]; simpa using hnot.2
            simp [e1, e2, e3]
          rw [hstep]
          have := ih m (p ++ [bit]) hm hmwf (by simp; omega) (by simp)
          simpa using this
    have hnew := WFAt_newChildOf n p bit size false hwf hn
    have hupd := WFAt_Update (n.Child bit) (p ++ [bit]) (n.Child bit).PrefixLen size
      (WFAt_Child n p bit hwf)
    simp only [insertLoop]
    split_ifs with h1 h2 h3
    · exact (key (IPv4TreeNode.newChildOf n bit size false) rfl hnew).1 h2
    · exact (key (IPv4TreeNode.newChildOf n bit size false) rfl hnew).2 h2
    · exact (key _ (by simpa using h1) hupd).1 h3
    · exact (key _ (by simpa using h1) hupd).2 h3

/-! ## Nodes listed by Subnets are found by Supernet -/

theorem subnetsDfs_nil : subnetsDfs IPv4TreeNode.nil = [] := rfl

theorem subnetsDfs_supernetLoop :
    ∀ (m : IPv4TreeNode) (p : List Bool), WFAt m p → ∀ n ∈ subnetsDfs m,
      n.isNil = false ∧ n.IsLast = true ∧
      ∃ bs, n.Prefix = p ++ bs ∧ n.PrefixLen = (p ++ bs).length ∧
        ((bs = [] ∧ n = m) ∨
         (bs ≠ [] ∧ ∀ rest, supernetLoop n.PrefixLen (bs ++ rest) m = n)) := by
  intro m
  induction m with
  | nil => intro p _ n hn; simp [subnetsDfs] at hn
  | mk k l s t c0 c1 q par ih0 ih1 =>
    intro p hwf n hn
    obtain ⟨hl, hq, hw0, hw1⟩ := hwf
    cases t with
    | true =>
      simp only [subnetsDfs, if_true, List.mem_singleton] at hn
      subst hn
      exact ⟨rfl, rfl, [], by simp [IPv4TreeNode.Prefix, hq], by simp [IPv4TreeNode.PrefixLen, hl],
        Or.inl ⟨rfl, rfl⟩⟩
    | false =>
      simp only [subnetsDfs, Bool.false_eq_true, if_false, List.mem_append] at hn
      -- the same argument below either child
      have below : ∀ (b : Bool) (c : IPv4TreeNode),
          (IPv4TreeNode.mk k l s false c0 c1 q par).Child b = c → WFAt c (p ++ [b]) →
          (∀ n ∈ subnetsDfs c, n.isNil = false ∧ n.IsLast = true ∧
            ∃ bs, n.Prefix = (p ++ [b]) ++ bs ∧ n.PrefixLen = ((p ++ [b]) ++ bs).length ∧
              ((bs = [] ∧ n = c) ∨
               (bs ≠ [] ∧ ∀ rest, supernetLoop n.PrefixLen (bs ++ rest) c = n))) →
          n ∈ subnetsDfs c →
          n.isNil = false ∧ n.IsLast = true ∧
            ∃ bs, n.Prefix = p ++ bs ∧ n.PrefixLen = (p ++ bs).length ∧
              ((bs = [] ∧ n = IPv4TreeNode.mk k l s false c0 c1 q par) ∨
               (bs ≠ [] ∧ ∀ rest, supernetLoop n.PrefixLen (bs ++ rest)
                  (IPv4TreeNode.mk k l s false c0 c1 q par) = n)) := by
        intro b c hc hwc ihc hmem
        obtain ⟨h1, h2, bs, h3, h4, h5⟩ := ihc n hmem
        have hcnil : c.isNil = false := by
          cases c with
          | nil => simp [subnetsDfs] at hmem
          | mk => rfl
        have hcl : c.PrefixLen = p.length + 1 := by
          rw [WFAt_PrefixLen c _ hwc hcnil]; simp
        refine ⟨h1, h2, b :: bs, by simpa using h3, by simpa using h4, Or.inr ⟨by simp, ?_⟩⟩
        intro rest
        simp only [List.cons_append, supernetLoop, hc, hcnil, Bool.false_eq_true, if_false]
        rcases h5 with ⟨hbs, hnc⟩ | ⟨hbs, hrec⟩
        · subst hnc
          simp [h2]
        · have hne : c.PrefixLen ≠ n.PrefixLen := by
            have : 0 < bs.length := List.length_pos.mpr hbs
            rw [hcl, h4]
            simp only [List.length_append, List.length_singleton]
            omega
          by_cases hlast : c.IsLast = true
          · cases c with
            | nil => simp at hcnil
            | mk k1 l1 s1 t1 d0 d1 q1 par =>
              simp only [IPv4TreeNode.IsLast] at hlast
              subst hlast
              simp only [subnetsDfs, if_true, List.mem_singleton] at hmem
              subst hmem
              simp [IPv4TreeNode.IsLast]
          · simp only [Bool.not_eq_true] at hlast
            simp [hlast, hne, hrec rest]
      rcases hn with hn | hn
      · exact below false c0 rfl hw0 (ih0 (p ++ [false]) hw0) hn
      · exact below true c1 rfl hw1 (ih1 (p ++ [true]) hw1) hn

theorem String_eq_iff (n : IPv4TreeNode) (q : IPNet) :
    n.String = q.String ↔ 0 < n.PrefixLen ∧ n.Network = q := by
  unfold IPv4TreeNode.String IPNet.String IPv4TreeNode.Network
  cases q with
  | mk ip ones =>
    by_cases h : n.PrefixLen > 0
    · simp [h]
    · simp [h]

/-- A network listed by `Subnets` under its own string is what `Supernet` returns for it. -/
theorem supernet_of_listed (t : IPv4Tree) (q : IPNet) (hq : q.Valid) (hwf : WFAt t.Root [])
    (n : IPv4TreeNode) (hn : n ∈ subnetsDfs t.Root) (hs : n.String = q.String) :
    t.Supernet q = n ∧ n.IsLast = true ∧ n.isNil = false ∧ n.Network = q := by
  obtain ⟨h1, h2, bs, h3, h4, h5⟩ := subnetsDfs_supernetLoop t.Root [] hwf n hn
  obtain ⟨hpos, hnet⟩ := (String_eq_iff n q).mp hs
  simp only [List.nil_append] at h3 h4
  have hones : n.PrefixLen = q.ones := by rw [← hnet]; rfl
  have hpath : GetBinaryPathFromIPv4Addr q = bs ++ List.replicate (32 - n.PrefixLen) false := by
    rw [← h3, ← Network_path n (by rw [h3, h4]) (by rw [hones]; exact hq.1), hnet]
  refine ⟨?_, h2, h1, hnet⟩
  rcases h5 with ⟨hbs, _⟩ | ⟨_, hrec⟩
  · subst hbs
    simp at h4
    omega
  · unfold IPv4Tree.Supernet
    rw [hpath, ← hones]
    exact hrec _

/-! ## Supernet away from the inserted networks -/

theorem supernetLoop_cons_congr (LQ : Nat) (q : Bool) (qs : List Bool) (n m : IPv4TreeNode)
    (h : m.Child q = n.Child q) :
    supernetLoop LQ (q :: qs) m = supernetLoop LQ (q :: qs) n := by
  simp only [supernetLoop, h]

theorem supernetLoop_fresh (LQ : Nat) (q : Bool) (qs : List Bool) (n : IPv4TreeNode) (b : Bool)
    (s : ℤ) (t : Bool) :
    supernetLoop LQ (q :: qs) (IPv4TreeNode.newChildOf n b s t) = IPv4TreeNode.nil := by
  simp [supernetLoop]

theorem take_ne_of_Disjoint (a q : IPNet) (h : a.Disjoint q) :
    (GetBinaryPathFromIPv4Addr a).take (min a.ones q.ones)
      ≠ (GetBinaryPathFromIPv4Addr q).take (min a.ones q.ones) := by
  intro heq
  rcases Nat.le_total a.ones q.ones with hle | hle
  · rw [Nat.min_eq_left hle] at heq
    exact h.1 ⟨hle, heq.symm⟩
  · rw [Nat.min_eq_right hle] at heq
    exact h.2 ⟨hle, heq⟩

theorem supernetLoop_insertLoop_disjoint (size : ℤ) (L LQ : Nat) (bs : List Bool) :
    ∀ (qs : List Bool) (n : IPv4TreeNode) (p : List Bool), n.isNil = false → WFAt n p →
      bs.length = qs.length →
      bs.take (min L LQ - p.length) ≠ qs.take (min L LQ - p.length) →
      supernetLoop LQ qs n = IPv4TreeNode.nil →
      supernetLoop LQ qs (insertLoop size L bs n).node = IPv4TreeNode.nil := by
  induction bs with
  | nil =>
    intro qs n p _ _ hlen hdiff _
    cases qs with
    | nil => exact absurd rfl hdiff
    | cons q qs => simp at hlen
  | cons bit rest ih =>
    intro qs n p hn hwf hlen hdiff hnil
    cases qs with
    | nil => simp at hlen
    | cons q qrest =>
      obtain ⟨c, hc⟩ := insertLoop_cons_node size L bit rest n
      by_cases hq : q = bit
      · subst hq
        -- both paths take the same child: the remaining prefixes still differ
        have hk : 2 ≤ min L LQ - p.length := by
          by_contra hlt
          have : min L LQ - p.length = 0 ∨ min L LQ - p.length = 1 := by omega
          rcases this with h0 | h1
          · rw [h0] at hdiff; exact hdiff rfl
          · rw [h1] at hdiff; exact hdiff rfl
        have hdiff1 : rest.take (min L LQ - (p ++ [q]).length)
            ≠ qrest.take (min L LQ - (p ++ [q]).length) := by
          intro heq
          apply hdiff
          have e : min L LQ - p.length = (min L LQ - (p ++ [q]).length) + 1 := by
            simp only [List.length_append, List.length_singleton]; omega
          rw [e, List.take_succ_cons, List.take_succ_cons, heq]
        have hlen1 : rest.length = qrest.length := by simpa using hlen
        have hrest : rest ≠ [] := by
          intro h
          subst h
          have : qrest = [] := List.length_eq_zero.mp hlen1.symm
          subst this
          exact hdiff1 rfl
        obtain ⟨b1, rest1, hr⟩ := List.exists_cons_of_ne_nil hrest
        obtain ⟨q1, qrest1, hqr⟩ : ∃ q1 qrest1, qrest = q1 :: qrest1 := by
          cases qrest with
          | nil => subst hr; simp at hlen1
          | cons a l => exact ⟨a, l, rfl⟩
        have hmL : min L LQ ≤ L := Nat.min_le_left L LQ
        have hmQ : min L LQ ≤ LQ := Nat.min_le_right L LQ
        have hL1 : p.length + 1 ≠ L := by omega
        have hLQ1 : p.length + 1 ≠ LQ := by omega
        -- `m` is the node the walk of Insert steps to
        have key : ∀ m : IPv4TreeNode, m.isNil = false → WFAt m (p ++ [q]) →
            m.IsLast = false → supernetLoop LQ qrest m = IPv4TreeNode.nil →
            supernetLoop LQ (q :: qrest) (n.NewChild q (insertLoop size L rest m).node)
              = IPv4TreeNode.nil := by
          intro m hm hmwf hmlast hmnil
          have hpl : m.PrefixLen = p.length + 1 := by
            rw [WFAt_PrefixLen m _ hmwf hm]; simp
          obtain ⟨c1, hc1⟩ := insertLoop_cons_node size L b1 rest1 m
          have e1 : (insertLoop size L rest m).node.isNil = false := by
            rw [insertLoop_node_isNil]; exact hm
          have e2 : (insertLoop size L rest m).node.IsLast = false := by
            rw [hr, hc1]; simpa using hmlast
          have e3 : (insertLoop size L rest m).node.PrefixLen ≠ LQ := by
            rw [hr, hc1]; simp; omega
          conv_lhs => rw [supernetLoop]
          rw [IPv4TreeNode.Child_NewChild_same n q _ hn]
          simp only [e1, e2, e3, Bool.false_eq_true, if_false, decide_False, Bool.or_self]
          exact ih qrest m (p ++ [q]) hm hmwf hlen1 hdiff1 hmnil
        have hnew := WFAt_newChildOf n p q size false hwf hn
        have hupd := WFAt_Update (n.Child q) (p ++ [q]) (n.Child q).PrefixLen size
          (WFAt_Child n p q hwf)
        simp only [insertLoop]
        by_cases h1 : (n.Child q).isNil = true
        · have hnl : n.PrefixLen = p.length := WFAt_PrefixLen n p hwf hn
          rw [if_pos h1, if_neg (by
            rw [IPv4TreeNode.IsLast_newChildOf, IPv4TreeNode.PrefixLen_newChildOf, hnl]
            simpa using hL1)]
          exact key (IPv4TreeNode.newChildOf n q size false) rfl hnew rfl
            (by rw [hqr]; exact supernetLoop_fresh _ _ _ _ _ _ _)
        · simp only [Bool.not_eq_true] at h1
          have hcl : (n.Child q).PrefixLen = p.length + 1 := by
            rw [WFAt_PrefixLen _ _ (WFAt_Child n p q hwf) h1]; simp
          -- the old walk of Supernet went through this child
          have hold : (n.Child q).IsLast = false ∧
              supernetLoop LQ qrest (n.Child q) = IPv4TreeNode.nil := by
            rw [supernetLoop] at hnil
            simp only [h1, Bool.false_eq_true, if_false] at hnil
            by_cases hst : ((n.Child q).IsLast || decide ((n.Child q).PrefixLen = LQ)) = true
            · rw [if_pos hst] at hnil
              rw [hnil] at h1
              simp at h1
            · rw [if_neg hst] at hnil
              simp only [Bool.or_eq_true, decide_eq_true_eq, not_or, Bool.not_eq_true] at hst
              exact ⟨hst.1, hnil⟩
          rw [if_neg (by simp [h1]), if_neg (by
            rw [IPv4TreeNode.IsLast_Update_self, IPv4TreeNode.PrefixLen_Update, hold.1, hcl]
            simpa using hL1)]
          refine key _ (by simpa using h1) hupd (by simpa using hold.1) ?_
          rw [hqr]
          rw [supernetLoop_cons_congr LQ q1 qrest1 (n.Child q) _ (by simp)]
          rw [← hqr]
          exact hold.2
      · rw [hc, supernetLoop_cons_congr LQ q qrest n _
          (IPv4TreeNode.Child_NewChild_ne n bit q c hq)]
        exact hnil

theorem path_cons (n : IPNet) : ∃ b rest, GetBinaryPathFromIPv4Addr n = b :: rest := by
  have h := path_length n
  cases hp : GetBinaryPathFromIPv4Addr n with
  | nil => rw [hp] at h; simp at h
  | cons b rest => exact ⟨b, rest, rfl⟩

theorem Insert_keeps_supernet_nil (t t1 : IPv4Tree) (N Q : IPNet) (hroot : t.Root.isNil = false)
    (hwf : WFAt t.Root []) (hins : t.Insert N = some t1) (hd : N.Disjoint Q)
    (hnil : t.Supernet Q = IPv4TreeNode.nil) : t1.Supernet Q = IPv4TreeNode.nil := by
  rw [Insert_eq t N hroot] at hins
  split_ifs at hins
  · cases hins; exact hnil
  · cases hins
    unfold IPv4Tree.Supernet at hnil ⊢
    rw [insertFresh_Root]
    obtain ⟨b, rest, hp⟩ := path_cons Q
    refine supernetLoop_insertLoop_disjoint (CalculateTotalHosts N) N.ones Q.ones
      (GetBinaryPathFromIPv4Addr N) (GetBinaryPathFromIPv4Addr Q)
      (t.Root.Update (-1) (CalculateTotalHosts N)) [] (by simpa using hroot)
      (WFAt_Update _ _ _ _ hwf) (by rw [path_length, path_length])
      (by simpa using take_ne_of_Disjoint N Q hd) ?_
    rw [hp] at hnil ⊢
    rw [supernetLoop_cons_congr Q.ones b rest t.Root _ (by simp)]
    exact hnil

/-! ## A second Insert of a listed network -/

theorem subnetsDfs_of_not_last (n : IPv4TreeNode) (h : n.IsLast = false) :
    subnetsDfs n = subnetsDfs (n.Child false) ++ subnetsDfs (n.Child true) := by
  cases n with
  | nil => rfl
  | mk k l s t c0 c1 p par =>
    simp only [IPv4TreeNode.IsLast] at h
    subst h
    rfl

theorem subnetsDfs_of_last (n : IPv4TreeNode) (hn : n.isNil = false) (h : n.IsLast = true) :
    subnetsDfs n = [n] := by
  cases n with
  | nil => simp at hn
  | mk k l s t c0 c1 p par =>
    simp only [IPv4TreeNode.IsLast] at h
    subst h
    rfl

theorem mem_subnetsDfs_of_child (n x : IPv4TreeNode) (b : Bool) (h : n.IsLast = false)
    (hx : x ∈ subnetsDfs (n.Child b)) : x ∈ subnetsDfs n := by
  rw [subnetsDfs_of_not_last n h, List.mem_append]
  cases b
  · exact Or.inl hx
  · exact Or.inr hx

theorem insertLoop_lists_target (size : ℤ) (L : Nat) (bs : List Bool) :
    ∀ (n : IPv4TreeNode) (p : List Bool), n.isNil = false → WFAt n p → n.IsLast = false →
      p.length < L → L ≤ p.length + bs.length →
      ((supernetLoop L bs n).isNil = true ∨ (supernetLoop L bs n).PrefixLen = L) →
      ∃ x ∈ subnetsDfs (insertLoop size L bs n).node,
        x.PrefixLen = L ∧ x.Prefix = p ++ bs.take (L - p.length) := by
  induction bs with
  | nil => intro n p _ _ _ h1 h2 _; simp at h2; omega
  | cons bit rest ih =>
    intro n p hn hwf hlast hlt hle hfree
    have hnl : n.PrefixLen = p.length := WFAt_PrefixLen n p hwf hn
    have hnp : n.Prefix = p := WFAt_Prefix n p hwf hn
    have hLp : L - p.length = (L - (p ++ [bit]).length) + 1 := by
      simp only [List.length_append, List.length_singleton]; omega
    -- the walk stops at the node `m` it steps to
    have stopAt : ∀ m : IPv4TreeNode, m.isNil = false → WFAt m (p ++ [bit]) →
        m.PrefixLen = L →
        ∃ x ∈ subnetsDfs (n.NewChild bit (m.setIsLast true)),
          x.PrefixLen = L ∧ x.Prefix = p ++ (bit :: rest).take (L - p.length) := by
      intro m hm hmwf hmL
      refine ⟨m.setIsLast true, ?_, by simpa using hmL, ?_⟩
      · apply mem_subnetsDfs_of_child _ _ bit (by simpa using hlast)
        rw [IPv4TreeNode.Child_NewChild_same n bit _ hn,
          subnetsDfs_of_last _ (by simpa using hm) (IPv4TreeNode.IsLast_setIsLast m true hm)]
        exact List.mem_singleton_self _
      · have hml : m.PrefixLen = p.length + 1 := by
          rw [WFAt_PrefixLen m _ hmwf hm]; simp
        have : L - p.length = 1 := by omega
        rw [this, IPv4TreeNode.Prefix_setIsLast, WFAt_Prefix m _ hmwf hm]
        simp
    -- the walk goes on below the node `m` it steps to
    have goOn : ∀ m : IPv4TreeNode, m.isNil = false → WFAt m (p ++ [bit]) →
        m.IsLast = false → m.PrefixLen ≠ L →
        ((supernetLoop L rest m).isNil = true ∨ (supernetLoop L rest m).PrefixLen = L) →
        ∃ x ∈ subnetsDfs (n.NewChild bit (insertLoop size L rest m).node),
          x.PrefixLen = L ∧ x.Prefix = p ++ (bit :: rest).take (L - p.length) := by
      intro m hm hmwf hmlast hmL hmfree
      have hml : m.PrefixLen = p.length + 1 := by
        rw [WFAt_PrefixLen m _ hmwf hm]; simp
      obtain ⟨x, hx, hx1, hx2⟩ := ih m (p ++ [bit]) hm hmwf hmlast
        (by simp only [List.length_append, List.length_singleton]; omega)
        (by simp only [List.length_append, List.length_singleton, List.length_cons] at hle ⊢
            omega) hmfree
      refine ⟨x, ?_, hx1, ?_⟩
      · apply mem_subnetsDfs_of_child _ _ bit (by simpa using hlast)
        rw [IPv4TreeNode.Child_NewChild_same n bit _ hn]
        exact hx
      · rw [hx2, hLp, List.take_succ_cons]
        simp
    have hnew := WFAt_newChildOf n p bit size false hwf hn
    have hupd := WFAt_Update (n.Child bit) (p ++ [bit]) (n.Child bit).PrefixLen size
      (WFAt_Child n p bit hwf)
    simp only [insertLoop]
    by_cases h1 : (n.Child bit).isNil = true
    · rw [if_pos h1]
      by_cases h2 : p.length + 1 = L
      · rw [if_pos (by simp [hnl, h2])]
        exact stopAt (IPv4TreeNode.newChildOf n bit size false) rfl hnew (by simp [hnl, h2])
      · rw [if_neg (by simp [hnl, h2])]
        refine goOn (IPv4TreeNode.newChildOf n bit size false) rfl hnew rfl (by simp [hnl, h2]) ?_
        cases rest with
        | nil => simp at hle; omega
        | cons b1 rest1 => left; simp [supernetLoop]
    · simp only [Bool.not_eq_true] at h1
      rw [if_neg (by simp [h1])]
      have hcl : (n.Child bit).PrefixLen = p.length + 1 := by
        rw [WFAt_PrefixLen _ _ (WFAt_Child n p bit hwf) h1]; simp
      rw [supernetLoop] at hfree
      simp only [h1, Bool.false_eq_true, if_false] at hfree
      by_cases hst : ((n.Child bit).IsLast || decide ((n.Child bit).PrefixLen = L)) = true
      · rw [if_pos hst] at hfree
        have hcL : (n.Child bit).PrefixLen = L := by
          rcases hfree with h | h
          · rw [h1] at h; simp at h
          · exact h
        rw [if_pos (by simp [hcL])]
        exact stopAt _ (by simpa using h1) hupd (by simpa using hcL)
      · rw [if_neg hst] at hfree
        rw [if_neg (by simpa using hst)]
        simp only [Bool.or_eq_true, decide_eq_true_eq, not_or, Bool.not_eq_true] at hst
        refine goOn _ (by simpa using h1) hupd (by simpa using hst.1) (by simpa using hst.2) ?_
        cases rest with
        | nil => simp at hle; omega
        | cons b1 rest1 =>
          rw [supernetLoop_cons_congr L b1 rest1 (n.Child bit) _ (by simp)]
          exact hfree

theorem Built_root_not_last {ns : List IPNet} {t : IPv4Tree} (h : Built ns t) :
    t.Root.IsLast = false := by
  induction h with
  | empty => rfl
  | @insert ns t t1 n hbt _ hins ih =>
    obtain ⟨hroot, _⟩ := Built_inv hbt
    rw [Insert_eq t n hroot] at hins
    split_ifs at hins
    · cases hins; exact ih
    · cases hins
      obtain ⟨b, rest, hp⟩ := path_cons n
      obtain ⟨c, hc⟩ := insertLoop_cons_node (CalculateTotalHosts n) n.ones b rest
        (t.Root.Update (-1) (CalculateTotalHosts n))
      rw [insertFresh_Root, hp, hc]
      simpa using ih

theorem String_of_target (x : IPv4TreeNode) (c : IPNet) (hv : c.Valid) (hL : 1 ≤ c.ones)
    (h1 : x.PrefixLen = c.ones)
    (h2 : x.Prefix = (GetBinaryPathFromIPv4Addr c).take c.ones) : x.String = c.String := by
  rw [String_eq_iff]
  refine ⟨by omega, ?_⟩
  unfold IPv4TreeNode.Network
  rw [h1, h2, path_eq_take_append_zeros c hv, GetIPv4FromBinaryString_path c hv]

/-! ## A second Insert changes sizes only -/

theorem eraseSizes_isNil (n : IPv4TreeNode) : (eraseSizes n).isNil = n.isNil := by
  cases n <;> rfl

theorem eraseSizes_IsLast (n : IPv4TreeNode) : (eraseSizes n).IsLast = n.IsLast := by
  cases n <;> rfl

theorem eraseSizes_Update (n : IPv4TreeNode) (l s : ℤ) (h : l ≤ (n.PrefixLen : ℤ)) :
    eraseSizes (n.Update l s) = eraseSizes n := by
  cases n with
  | nil => rfl
  | mk k pl sz t c0 c1 p par =>
    simp only [IPv4TreeNode.PrefixLen] at h
    simp only [IPv4TreeNode.Update, eraseSizes]
    rw [if_neg (by omega)]

theorem eraseSizes_setIsLast (n : IPv4TreeNode) (h : n.IsLast = true) :
    eraseSizes (n.setIsLast true) = eraseSizes n := by
  cases n with
  | nil => rfl
  | mk k pl sz t c0 c1 p par =>
    simp only [IPv4TreeNode.IsLast] at h
    subst h
    rfl

theorem eraseSizes_NewChild (n c : IPv4TreeNode) (b : Bool)
    (h : eraseSizes c = eraseSizes (n.Child b)) :
    eraseSizes (n.NewChild b c) = eraseSizes n := by
  cases n with
  | nil => rfl
  | mk k pl sz t c0 c1 p par =>
    cases b
    · simp only [IPv4TreeNode.Child] at h
      simp only [IPv4TreeNode.NewChild, eraseSizes, h]
    · simp only [IPv4TreeNode.Child] at h
      simp only [IPv4TreeNode.NewChild, eraseSizes, h]

theorem eraseSizes_String (n : IPv4TreeNode) : (eraseSizes n).String = n.String := by
  cases n <;> rfl

theorem eraseSizes_Int (n : IPv4TreeNode) : (eraseSizes n).Int = n.Int := by
  cases n <;> rfl

theorem subnetsDfs_eraseSizes (n : IPv4TreeNode) :
    subnetsDfs (eraseSizes n) = (subnetsDfs n).map eraseSizes := by
  induction n with
  | nil => rfl
  | mk k l s t c0 c1 p par ih0 ih1 =>
    cases t
    · simp [subnetsDfs, eraseSizes, ih0, ih1]
    · simp [subnetsDfs, eraseSizes]

theorem Subnets_map_String_of_eraseSizes (t1 t2 : IPv4Tree)
    (h : eraseSizes t2.Root = eraseSizes t1.Root) :
    t2.Subnets.map IPv4TreeNode.String = t1.Subnets.map IPv4TreeNode.String := by
  have key : ∀ t : IPv4Tree, t.Subnets.map IPv4TreeNode.String
      = ((subnetsDfs (eraseSizes t.Root)).insertionSort (fun a b => a.Int ≤ b.Int)).map
          IPv4TreeNode.String := by
    intro t
    unfold IPv4Tree.Subnets
    rw [subnetsDfs_eraseSizes,
      ← List.map_insertionSort (fun a b => a.Int ≤ b.Int) (fun a b => a.Int ≤ b.Int)
        eraseSizes (subnetsDfs t.Root)
        (by intro a _ b _; simp only [eraseSizes_Int]),
      List.map_map]
    apply List.map_congr_left
    intro a _
    exact (eraseSizes_String a).symm
  rw [key t1, key t2, h]

/-- After the walk of Insert, Supernet finds a terminal node for the same path. -/
theorem supernetLoop_insertLoop_last (size : ℤ) (L : Nat) (bs : List Bool) :
    ∀ (n : IPv4TreeNode), n.isNil = false → bs ≠ [] →
      (supernetLoop L bs (insertLoop size L bs n).node).isNil = false ∧
      (supernetLoop L bs (insertLoop size L bs n).node).IsLast = true := by
  induction bs with
  | nil => intro n _ h; exact absurd rfl h
  | cons bit rest ih =>
    intro n hn _
    have key : ∀ m : IPv4TreeNode, m.isNil = false →
        ((m.IsLast || decide (m.PrefixLen = L)) = true →
          (supernetLoop L (bit :: rest) (n.NewChild bit (m.setIsLast true))).isNil = false ∧
          (supernetLoop L (bit :: rest) (n.NewChild bit (m.setIsLast true))).IsLast = true) ∧
        (¬ (m.IsLast || decide (m.PrefixLen = L)) = true →
          (supernetLoop L (bit :: rest)
            (n.NewChild bit (insertLoop size L rest m).node)).isNil = false ∧
          (supernetLoop L (bit :: rest)
            (n.NewChild bit (insertLoop size L rest m).node)).IsLast = true) := by
      intro m hm
      have hstopped : ∀ m1 : IPv4TreeNode, m1.isNil = false → m1.IsLast = true →
          (supernetLoop L (bit :: rest) (n.NewChild bit m1)).isNil = false ∧
          (supernetLoop L (bit :: rest) (n.NewChild bit m1)).IsLast = true := by
        intro m1 hm1 hlast
        have : supernetLoop L (bit :: rest) (n.NewChild bit m1) = m1 := by
          simp [supernetLoop, IPv4TreeNode.Child_NewChild_same n bit m1 hn, hm1, hlast]
        rw [this]
        exact ⟨hm1, hlast⟩
      constructor
      · intro _
        exact hstopped _ (by simpa using hm) (IPv4TreeNode.IsLast_setIsLast m true hm)
      · intro hnot
        simp only [Bool.or_eq_true, decide_eq_true_eq, not_or, Bool.not_eq_true] at hnot
        cases rest with
        | nil =>
          exact hstopped _ (by simpa [insertLoop] using hm)
            (by simpa [insertLoop] using IPv4TreeNode.IsLast_setIsLast m true hm)
        | cons b1 rest1 =>
          obtain ⟨c, hc⟩ := insertLoop_cons_node size L b1 rest1 m
          have hstep : supernetLoop L (bit :: b1 :: rest1)
              (n.NewChild bit (insertLoop size L (b1 :: rest1) m).node)
              = supernetLoop L (b1 :: rest1) (insertLoop size L (b1 :: rest1) m).node := by
            conv_lhs => rw [supernetLoop]
            rw [IPv4TreeNode.Child_NewChild_same n bit _ hn]
            have e1 : (insertLoop size L (b1 :: rest1) m).node.isNil = false := by
              rw [insertLoop_node_isNil]; exact hm
            have e2 : (insertLoop size L (b1 :: rest1) m).node.IsLast = false := by
              rw [hc]; simpa using hnot.1
            have e3 : (insertLoop size L (b1 :: rest1) m).node.PrefixLen ≠ L := by
              rw [hc]; simpa using hnot.2
            simp [e1, e2, e3]
          rw [hstep]
          exact ih m hm (by simp)
    simp only [insertLoop]
    split_ifs with h1 h2 h3
    · exact (key (IPv4TreeNode.newChildOf n bit size false) rfl).1 h2
    · exact (key (IPv4TreeNode.newChildOf n bit size false) rfl).2 h2
    · exact (key _ (by simpa using h1)).1 h3
    · exact (key _ (by simpa using h1)).2 h3

/-- Where Supernet already finds a terminal node, the walk of Insert creates no node
and raises no flag. -/
theorem eraseSizes_insertLoop (size : ℤ) (L : Nat) (bs : List Bool) :
    ∀ (n : IPv4TreeNode), bs ≠ [] → (supernetLoop L bs n).isNil = false →
      (supernetLoop L bs n).IsLast = true →
      eraseSizes (insertLoop size L bs n).node = eraseSizes n := by
  induction bs with
  | nil => intro n h; exact absurd rfl h
  | cons bit rest ih =>
    intro n _ hnil hlast
    rw [supernetLoop] at hnil hlast
    by_cases h1 : (n.Child bit).isNil = true
    · rw [if_pos h1] at hnil
      simp at hnil
    · rw [if_neg h1] at hnil hlast
      simp only [insertLoop, if_neg h1]
      simp only [IPv4TreeNode.IsLast_Update_self, IPv4TreeNode.PrefixLen_Update]
      by_cases hst : ((n.Child bit).IsLast || decide ((n.Child bit).PrefixLen = L)) = true
      · rw [if_pos hst] at hnil hlast
        rw [if_pos hst]
        apply eraseSizes_NewChild
        rw [eraseSizes_setIsLast _ (by simpa using hlast), eraseSizes_Update _ _ _ le_rfl]
      · rw [if_neg hst] at hnil hlast
        rw [if_neg hst]
        apply eraseSizes_NewChild
        simp only [Bool.or_eq_true, decide_eq_true_eq, not_or, Bool.not_eq_true] at hst
        cases rest with
        | nil =>
          simp only [supernetLoop] at hlast
          rw [hst.1] at hlast
          simp at hlast
        | cons b1 rest1 =>
          rw [ih _ (by simp)
            (by rw [supernetLoop_cons_congr L b1 rest1 (n.Child bit) _ (by simp)]; exact hnil)
            (by rw [supernetLoop_cons_congr L b1 rest1 (n.Child bit) _ (by simp)]; exact hlast),
            eraseSizes_Update _ _ _ le_rfl]

theorem eraseSizes_Insert_again (t t1 t2 : IPv4Tree) (c : IPNet) (hroot : t.Root.isNil = false)
    (h1 : t.Insert c = some t1) (hroot1 : t1.Root.isNil = false) (h2 : t1.Insert c = some t2) :
    eraseSizes t2.Root = eraseSizes t1.Root := by
  obtain ⟨b, rest, hp⟩ := path_cons c
  rw [Insert_eq t c hroot] at h1
  split_ifs at h1 with hany
  · cases h1
    rw [Insert_eq t c hroot, if_pos hany] at h2
    cases h2
    rfl
  · rw [Insert_eq t1 c hroot1] at h2
    split_ifs at h2
    · cases h2; rfl
    · cases h2
      cases h1
      have hs := supernetLoop_insertLoop_last (CalculateTotalHosts c) c.ones
        (GetBinaryPathFromIPv4Addr c) (t.Root.Update (-1) (CalculateTotalHosts c))
        (by simpa using hroot) (by rw [hp]; simp)
      rw [← insertFresh_Root] at hs
      rw [insertFresh_Root (insertFresh t c) c, hp,
        eraseSizes_insertLoop _ _ _ _ (by simp)
          (by rw [supernetLoop_cons_congr c.ones b rest (insertFresh t c).Root _ (by simp),
                ← hp]; exact hs.1)
          (by rw [supernetLoop_cons_congr c.ones b rest (insertFresh t c).Root _ (by simp),
                ← hp]; exact hs.2),
        eraseSizes_Update _ _ _ (by omega)]

theorem Insert_again_same {ns : List IPNet} {t : IPv4Tree} (hb : Built ns t)
    (c : IPNet) (hv : c.Valid) (hL : 1 ≤ c.ones)
    (hfree : (t.Supernet c).isNil = true ∨ (t.Supernet c).PrefixLen = c.ones)
    (t1 : IPv4Tree) (ht1 : t.Insert c = some t1) : t1.Insert c = some t1 := by
  obtain ⟨hroot, hwf⟩ := Built_inv hb
  have hkeep := ht1
  rw [Insert_eq t c hroot] at ht1
  split_ifs at ht1 with hany
  · cases ht1; exact hkeep
  · obtain ⟨hroot1, _⟩ := Insert_inv t t1 c hroot hwf hkeep
    cases ht1
    rw [Insert_eq _ c hroot1, if_pos]
    obtain ⟨b, rest, hp⟩ := path_cons c
    obtain ⟨x, hx, hx1, hx2⟩ := insertLoop_lists_target (CalculateTotalHosts c) c.ones
      (GetBinaryPathFromIPv4Addr c) (t.Root.Update (-1) (CalculateTotalHosts c)) []
      (by simpa using hroot) (WFAt_Update _ _ _ _ hwf) (by simpa using Built_root_not_last hb)
      (by simpa using hL) (by rw [path_length]; simpa using hv.1)
      (by
        unfold IPv4Tree.Supernet at hfree
        rw [hp] at hfree ⊢
        rw [supernetLoop_cons_congr c.ones b rest t.Root _ (by simp)]
        exact hfree)
    rw [List.any_eq_true]
    refine ⟨x, by rw [insertFresh_Root]; exact hx, ?_⟩
    simpa using String_of_target x c hv hL hx1 (by simpa using hx2)

/-! ## Sizes after two disjoint inserts -/

theorem wrapInt_of_bounds (x : ℤ) (h1 : -(2 ^ 63) ≤ x) (h2 : x < 2 ^ 63) : wrapInt x = x := by
  unfold wrapInt
  norm_num at h1 h2 ⊢
  omega

theorem hosts_pos (m : Nat) : (0 : ℤ) < 2 ^ (32 - m) := by positivity

theorem hosts_le (m : Nat) : (2 : ℤ) ^ (32 - m) ≤ 2 ^ 32 :=
  pow_le_pow_right₀ (by norm_num) (Nat.sub_le 32 m)

theorem Sizeof_of_last (n : IPv4TreeNode) (hn : n.isNil = false) (hl : n.IsLast = true)
    (hs : 0 < n.Size) : n.Sizeof = n.Size := by
  cases n with
  | nil => simp at hn
  | mk k l s t c0 c1 p par =>
    simp only [IPv4TreeNode.IsLast] at hl
    simp only [IPv4TreeNode.Size] at hs
    subst hl
    simp [IPv4TreeNode.Sizeof, IPv4TreeNode.Size, hs]

theorem Sizeof_of_not_last (n : IPv4TreeNode) (hl : n.IsLast = false) :
    n.Sizeof = wrapInt (wrapInt (0 + (n.Child false).Sizeof) + (n.Child true).Sizeof) := by
  cases n with
  | nil => rfl
  | mk k l s t c0 c1 p par =>
    simp only [IPv4TreeNode.IsLast] at hl
    subst hl
    rfl

theorem Sizeof_nil : IPv4TreeNode.nil.Sizeof = 0 := rfl

theorem isNil_eq_true (n : IPv4TreeNode) (h : n.isNil = true) : n = IPv4TreeNode.nil := by
  cases n with
  | nil => rfl
  | mk => simp at h

/-- A node with a single child that reports `size` reports `size` itself, whether it is
terminal with that size or not. -/
theorem Sizeof_single (n x : IPv4TreeNode) (b : Bool) (size : ℤ) (hn : n.isNil = false)
    (h0 : 0 < size) (h1 : size < 2 ^ 63) (hsz : n.IsLast = true → n.Size = size)
    (hx : x.Sizeof = size) (hother : (n.Child (!b)).isNil = true) :
    (n.NewChild b x).Sizeof = size := by
  by_cases hl : n.IsLast = true
  · rw [Sizeof_of_last _ (by simpa using hn) (by simpa using hl) (by simp [hsz hl, h0])]
    simp [hsz hl]
  · simp only [Bool.not_eq_true] at hl
    rw [Sizeof_of_not_last _ (by simpa using hl)]
    have hnil := isNil_eq_true _ hother
    cases b
    · rw [IPv4TreeNode.Child_NewChild_same n false x hn,
        IPv4TreeNode.Child_NewChild_ne n false true x (by simp)]
      simp only [Bool.not_false] at hnil
      rw [hnil, Sizeof_nil, hx, zero_add, add_zero,
        wrapInt_of_bounds size (by norm_num at h1 ⊢; omega) h1,
        wrapInt_of_bounds size (by norm_num at h1 ⊢; omega) h1]
    · rw [IPv4TreeNode.Child_NewChild_same n true x hn,
        IPv4TreeNode.Child_NewChild_ne n true false x (by simp)]
      simp only [Bool.not_true] at hnil
      rw [hnil, Sizeof_nil, hx, zero_add, wrapInt_of_bounds 0 (by norm_num) (by norm_num),
        zero_add, wrapInt_of_bounds size (by norm_num at h1 ⊢; omega) h1]

/-- The chain the walk of Insert creates below a childless node reports the inserted
size. -/
theorem Sizeof_insertLoop_fresh (size : ℤ) (L : Nat) (h0 : 0 < size) (h1 : size < 2 ^ 63)
    (bs : List Bool) :
    ∀ (m : IPv4TreeNode), m.isNil = false → m.Size = size →
      (∀ b, (m.Child b).isNil = true) → (insertLoop size L bs m).node.Sizeof = size := by
  induction bs with
  | nil =>
    intro m hm hsz _
    simp only [insertLoop]
    rw [Sizeof_of_last _ (by simpa using hm) (IPv4TreeNode.IsLast_setIsLast m true hm)
      (by simp [hsz, h0])]
    simp [hsz]
  | cons bit rest ih =>
    intro m hm hsz hch
    simp only [insertLoop, if_pos (hch bit)]
    have hx : (IPv4TreeNode.setIsLast (IPv4TreeNode.newChildOf m bit size false) true).Sizeof
        = size := by
      rw [Sizeof_of_last (IPv4TreeNode.setIsLast (IPv4TreeNode.newChildOf m bit size false) true)
        rfl rfl (by simpa using h0)]
      rfl
    split_ifs
    · exact Sizeof_single m _ bit size hm h0 h1 (fun _ => hsz) hx (hch _)
    · exact Sizeof_single m _ bit size hm h0 h1 (fun _ => hsz)
        (ih _ rfl rfl (by intro b; simp)) (hch _)

theorem insertLoop_step_new (size : ℤ) (L : Nat) (bit : Bool) (rest : List Bool)
    (n : IPv4TreeNode) (h1 : (n.Child bit).isNil = true) (h2 : n.PrefixLen + 1 ≠ L) :
    (insertLoop size L (bit :: rest) n).node
      = n.NewChild bit (insertLoop size L rest (IPv4TreeNode.newChildOf n bit size false)).node := by
  simp only [insertLoop, if_pos h1]
  rw [if_neg (by simpa using h2)]

theorem insertLoop_step_old (size : ℤ) (L : Nat) (bit : Bool) (rest : List Bool)
    (n : IPv4TreeNode) (h1 : (n.Child bit).isNil = false) (h2 : (n.Child bit).IsLast = false)
    (h3 : (n.Child bit).PrefixLen ≠ L) :
    (insertLoop size L (bit :: rest) n).node
      = n.NewChild bit
          (insertLoop size L rest ((n.Child bit).Update (n.Child bit).PrefixLen size)).node := by
  simp only [insertLoop]
  rw [if_neg (by simp [h1]), if_neg (by simp [h2, h3])]

theorem insertLoop_node_top (size : ℤ) (L : Nat) (bs : List Bool) (hbs : bs ≠ [])
    (m : IPv4TreeNode) :
    (insertLoop size L bs m).node.IsLast = m.IsLast ∧
      (insertLoop size L bs m).node.PrefixLen = m.PrefixLen := by
  obtain ⟨x, xs, rfl⟩ := List.exists_cons_of_ne_nil hbs
  obtain ⟨c, hc⟩ := insertLoop_cons_node size L x xs m
  rw [hc]
  simp

theorem insertLoop_fresh_child (size : ℤ) (L : Nat) (h0 : 0 < size) (h1 : size < 2 ^ 63)
    (bit : Bool) (rest : List Bool) (n : IPv4TreeNode) (hc : (n.Child bit).isNil = true) :
    ∃ x, (insertLoop size L (bit :: rest) n).node = n.NewChild bit x ∧ x.Sizeof = size := by
  simp only [insertLoop, if_pos hc]
  split_ifs
  · refine ⟨_, rfl, ?_⟩
    rw [Sizeof_of_last (IPv4TreeNode.setIsLast (IPv4TreeNode.newChildOf n bit size false) true)
      rfl rfl (by simpa using h0)]
    rfl
  · exact ⟨_, rfl, Sizeof_insertLoop_fresh size L h0 h1 rest _ rfl rfl (by intro b; simp)⟩

/-- Two networks that part right below a childless node: after both walks the node
reports the sum of the two sizes. -/
theorem Sizeof_split (sA sB : ℤ) (LA LB : Nat) (hA0 : 0 < sA) (hA1 : sA ≤ 2 ^ 32)
    (hB0 : 0 < sB) (hB1 : sB ≤ 2 ^ 32) (a b : Bool) (hab : a ≠ b) (restA restB : List Bool)
    (n : IPv4TreeNode) (l : ℤ) (hn : n.isNil = false) (hl : l ≤ (n.PrefixLen : ℤ))
    (hlast : n.IsLast = false) (hch : ∀ c, (n.Child c).isNil = true) :
    (insertLoop sB LB (b :: restB)
      ((insertLoop sA LA (a :: restA) n).node.Update l sB)).node.Sizeof = sA + sB := by
  obtain ⟨xA, hxA, hsA⟩ := insertLoop_fresh_child sA LA hA0 (by norm_num at hA1 ⊢; omega)
    a restA n (hch a)
  rw [hxA]
  have hcb : (((n.NewChild a xA).Update l sB).Child b).isNil = true := by
    rw [IPv4TreeNode.Child_Update, IPv4TreeNode.Child_NewChild_ne n a b xA (Ne.symm hab)]
    exact hch b
  obtain ⟨xB, hxB, hsB⟩ := insertLoop_fresh_child sB LB hB0 (by norm_num at hB1 ⊢; omega)
    b restB ((n.NewChild a xA).Update l sB) hcb
  rw [hxB]
  have hnn : ((n.NewChild a xA).Update l sB).isNil = false := by simpa using hn
  rw [Sizeof_of_not_last _ (by
    rw [IPv4TreeNode.IsLast_NewChild, IPv4TreeNode.IsLast_Update_of_le _ _ _ (by simpa using hl)]
    simpa using hlast)]
  have hw : ∀ x y : ℤ, 0 < x → x ≤ 2 ^ 32 → 0 < y → y ≤ 2 ^ 32 →
      wrapInt (wrapInt (0 + x) + y) = x + y := by
    intro x y hx0 hx1 hy0 hy1
    rw [zero_add, wrapInt_of_bounds x (by norm_num at hx1 ⊢; omega) (by norm_num at hx1 ⊢; omega),
      wrapInt_of_bounds (x + y) (by norm_num at hx1 hy1 ⊢; omega)
        (by norm_num at hx1 hy1 ⊢; omega)]
  cases a <;> cases b
  · exact absurd rfl hab
  · rw [IPv4TreeNode.Child_NewChild_same _ true xB hnn,
      IPv4TreeNode.Child_NewChild_ne _ true false xB (by simp), IPv4TreeNode.Child_Update,
      IPv4TreeNode.Child_NewChild_same n false xA hn, hsA, hsB]
    exact hw sA sB hA0 hA1 hB0 hB1
  · rw [IPv4TreeNode.Child_NewChild_same _ false xB hnn,
      IPv4TreeNode.Child_NewChild_ne _ false true xB (by simp), IPv4TreeNode.Child_Update,
      IPv4TreeNode.Child_NewChild_same n true xA hn, hsA, hsB, add_comm sA sB]
    exact hw sB sA hB0 hB1 hA0 hA1
  · exact absurd rfl hab

/-- Two networks that share `common` below a childless node and part after it: the walk
of Sizeof to the end of `common` finds the sum of the two sizes. -/
theorem sizeofLoop_two_inserts (sA sB : ℤ) (LA LB k : Nat) (hA0 : 0 < sA) (hA1 : sA ≤ 2 ^ 32)
    (hB0 : 0 < sB) (hB1 : sB ≤ 2 ^ 32) (a b : Bool) (hab : a ≠ b)
    (restA restB restP : List Bool) (hkA : k < LA) (hkB : k < LB) :
    ∀ (common : List Bool) (n : IPv4TreeNode) (l : ℤ), common ≠ [] → n.isNil = false →
      l ≤ (n.PrefixLen : ℤ) → n.IsLast = false → (∀ c, (n.Child c).isNil = true) →
      n.PrefixLen + common.length = k →
      sizeofLoop k (common ++ restP)
        (insertLoop sB LB (common ++ b :: restB)
          ((insertLoop sA LA (common ++ a :: restA) n).node.Update l sB)).node = sA + sB := by
  intro common
  induction common with
  | nil => intro n l h; exact absurd rfl h
  | cons c common1 ih =>
    intro n l _ hn hl hlast hch hk
    simp only [List.length_cons] at hk
    simp only [List.cons_append]
    have hneA : common1 ++ a :: restA ≠ [] := by simp
    have hneB : common1 ++ b :: restB ≠ [] := by simp
    -- first walk: a new child for `c`
    rw [insertLoop_step_new sA LA c _ n (hch c) (by omega)]
    have hRA := insertLoop_node_top sA LA (common1 ++ a :: restA) hneA
      (IPv4TreeNode.newChildOf n c sA false)
    have hRAnil : (insertLoop sA LA (common1 ++ a :: restA)
        (IPv4TreeNode.newChildOf n c sA false)).node.isNil = false := by
      rw [insertLoop_node_isNil]; rfl
    have hchild : ((n.NewChild c (insertLoop sA LA (common1 ++ a :: restA)
        (IPv4TreeNode.newChildOf n c sA false)).node).Update l sB).Child c
        = (insertLoop sA LA (common1 ++ a :: restA)
            (IPv4TreeNode.newChildOf n c sA false)).node := by
      rw [IPv4TreeNode.Child_Update, IPv4TreeNode.Child_NewChild_same n c _ hn]
    -- second walk: through that child
    rw [insertLoop_step_old sB LB c _ _ (by rw [hchild]; exact hRAnil)
      (by rw [hchild, hRA.1]; rfl) (by rw [hchild, hRA.2]; simp; omega), hchild]
    have hD := insertLoop_node_top sB LB (common1 ++ b :: restB) hneB
      ((insertLoop sA LA (common1 ++ a :: restA) (IPv4TreeNode.newChildOf n c sA false)).node.Update
        ((insertLoop sA LA (common1 ++ a :: restA)
          (IPv4TreeNode.newChildOf n c sA false)).node.PrefixLen : ℤ) sB)
    have hDnil : (insertLoop sB LB (common1 ++ b :: restB)
        ((insertLoop sA LA (common1 ++ a :: restA)
          (IPv4TreeNode.newChildOf n c sA false)).node.Update
          ((insertLoop sA LA (common1 ++ a :: restA)
            (IPv4TreeNode.newChildOf n c sA false)).node.PrefixLen : ℤ) sB)).node.isNil
        = false := by
      rw [insertLoop_node_isNil, IPv4TreeNode.isNil_Update]; exact hRAnil
    have hDlen : (insertLoop sB LB (common1 ++ b :: restB)
        ((insertLoop sA LA (common1 ++ a :: restA)
          (IPv4TreeNode.newChildOf n c sA false)).node.Update
          ((insertLoop sA LA (common1 ++ a :: restA)
            (IPv4TreeNode.newChildOf n c sA false)).node.PrefixLen : ℤ) sB)).node.PrefixLen
        = n.PrefixLen + 1 := by
      rw [hD.2, IPv4TreeNode.PrefixLen_Update, hRA.2]; rfl
    have hlen : ((insertLoop sA LA (common1 ++ a :: restA)
        (IPv4TreeNode.newChildOf n c sA false)).node.PrefixLen : ℤ)
        ≤ ((IPv4TreeNode.newChildOf n c sA false).PrefixLen : ℤ) := by
      rw [hRA.2]
    -- the walk of Sizeof
    rw [sizeofLoop]
    rw [IPv4TreeNode.Child_NewChild_same _ c _ (by simpa using hn), if_neg (by simp [hDnil]),
      hDlen]
    cases common1 with
    | nil =>
      simp only [List.length_nil, add_zero] at hk
      rw [if_pos hk]
      exact Sizeof_split sA sB LA LB hA0 hA1 hB0 hB1 a b hab restA restB
        (IPv4TreeNode.newChildOf n c sA false) _ rfl hlen rfl (by intro d; simp)
    | cons c1 common2 =>
      simp only [List.length_cons] at hk
      rw [if_neg (by omega)]
      exact ih (IPv4TreeNode.newChildOf n c sA false) _ (by simp) rfl hlen rfl
        (by intro d; simp) (by simp; omega)

theorem binaryValue_append (s t : List Bool) :
    binaryValue (s ++ t) = binaryValue s * 2 ^ t.length + binaryValue t := by
  induction s with
  | nil => simp [binaryValue_nil]
  | cons b s ih =>
    rw [List.cons_append, binaryValue_cons, binaryValue_cons, ih, List.length_append]
    ring

theorem binaryValue_replicate_false (m : Nat) : binaryValue (List.replicate m false) = 0 := by
  induction m with
  | zero => rfl
  | succ m ih => rw [List.replicate_succ, binaryValue_cons, ih]; simp

/-- The network of prefix `s`: valid, and its bit path is `s` followed by zeros. -/
theorem network_of_bits (s : List Bool) (hs : s.length ≤ 32) :
    (IPNet.mk (binaryValue (s ++ List.replicate (32 - s.length) false)) s.length).Valid ∧
    GetBinaryPathFromIPv4Addr
        (IPNet.mk (binaryValue (s ++ List.replicate (32 - s.length) false)) s.length)
      = s ++ List.replicate (32 - s.length) false := by
  have hlen : (s ++ List.replicate (32 - s.length) false).length = 32 := by
    simp only [List.length_append, List.length_replicate]; omega
  refine ⟨⟨hs, ?_, ?_⟩, ?_⟩
  · have := binaryValue_lt (s ++ List.replicate (32 - s.length) false)
    rwa [hlen] at this
  · show binaryValue _ % 2 ^ (32 - s.length) = 0
    rw [binaryValue_append, binaryValue_replicate_false, List.length_replicate, add_zero]
    exact Nat.mul_mod_left _ _
  · unfold GetBinaryPathFromIPv4Addr
    show binaryDigits 32 (binaryValue _) = _
    have := binaryDigits_binaryValue (s ++ List.replicate (32 - s.length) false)
    rwa [hlen] at this

theorem paths_of_SmallestCover (A B P : IPNet) (hA : A.Valid) (hB : B.Valid)
    (hd : A.Disjoint B) (hP : P.SmallestCover A B) :
    ∃ common a b restA restB restP, a ≠ b ∧
      GetBinaryPathFromIPv4Addr A = common ++ a :: restA ∧
      GetBinaryPathFromIPv4Addr B = common ++ b :: restB ∧
      GetBinaryPathFromIPv4Addr P = common ++ restP ∧
      common.length = P.ones ∧ P.ones < A.ones ∧ P.ones < B.ones := by
  obtain ⟨hPv, ⟨hPA1, hPA2⟩, ⟨hPB1, hPB2⟩, hmin⟩ := hP
  have hkA : P.ones < A.ones := by
    rcases Nat.lt_or_ge P.ones A.ones with h | h
    · exact h
    · have e : A.ones = P.ones := le_antisymm h hPA1
      exact absurd ⟨by omega, by rw [e, hPB2, hPA2]⟩ hd.1
  have hkB : P.ones < B.ones := by
    rcases Nat.lt_or_ge P.ones B.ones with h | h
    · exact h
    · have e : B.ones = P.ones := le_antisymm h hPB1
      exact absurd ⟨by omega, by rw [e, hPB2, hPA2]⟩ hd.2
  have hlA := path_length A
  have hlB := path_length B
  have hlP := path_length P
  -- the bit right after the common prefix
  have next : ∀ X : IPNet, (GetBinaryPathFromIPv4Addr X).length = 32 → P.ones < X.ones →
      X.Valid → ∃ x rest, (GetBinaryPathFromIPv4Addr X).drop P.ones = x :: rest := by
    intro X hl hk hX
    cases hdrop : (GetBinaryPathFromIPv4Addr X).drop P.ones with
    | nil =>
      have := congrArg List.length hdrop
      rw [List.length_drop, hl] at this
      have := hX.1
      simp at *
      omega
    | cons x rest => exact ⟨x, rest, rfl⟩
  obtain ⟨a, restA, hdA⟩ := next A hlA hkA hA
  obtain ⟨b, restB, hdB⟩ := next B hlB hkB hB
  have eA : GetBinaryPathFromIPv4Addr A
      = (GetBinaryPathFromIPv4Addr P).take P.ones ++ a :: restA := by
    rw [← hPA2, ← hdA, List.take_append_drop]
  have eB : GetBinaryPathFromIPv4Addr B
      = (GetBinaryPathFromIPv4Addr P).take P.ones ++ b :: restB := by
    rw [← hPB2, ← hdB, List.take_append_drop]
  have hclen : ((GetBinaryPathFromIPv4Addr P).take P.ones).length = P.ones := by
    rw [List.length_take, hlP]
    have := hPv.1
    omega
  refine ⟨(GetBinaryPathFromIPv4Addr P).take P.ones, a, b, restA, restB,
    (GetBinaryPathFromIPv4Addr P).drop P.ones, ?_, eA, eB,
    (List.take_append_drop _ _).symm, hclen, hkA, hkB⟩
  intro hab
  subst hab
  -- otherwise the block one bit longer would contain both
  have hs : ((GetBinaryPathFromIPv4Addr P).take P.ones ++ [a]).length = P.ones + 1 := by
    rw [List.length_append, hclen]; rfl
  have hA32 := hA.1
  obtain ⟨hQv, hQp⟩ := network_of_bits ((GetBinaryPathFromIPv4Addr P).take P.ones ++ [a])
    (by rw [hs]; omega)
  rw [hs] at hQv hQp
  have htake : ∀ rest : List Bool,
      ((GetBinaryPathFromIPv4Addr P).take P.ones ++ a :: rest).take (P.ones + 1)
        = (GetBinaryPathFromIPv4Addr P).take P.ones ++ [a] := by
    intro rest
    have : (GetBinaryPathFromIPv4Addr P).take P.ones ++ a :: rest
        = ((GetBinaryPathFromIPv4Addr P).take P.ones ++ [a]) ++ rest := by simp
    rw [this, ← hs, List.take_left']
    rfl
  have hQtake : (GetBinaryPathFromIPv4Addr
      (IPNet.mk (binaryValue (((GetBinaryPathFromIPv4Addr P).take P.ones ++ [a])
        ++ List.replicate (32 - (P.ones + 1)) false)) (P.ones + 1))).take (P.ones + 1)
      = (GetBinaryPathFromIPv4Addr P).take P.ones ++ [a] := by
    rw [hQp, ← hs, List.take_left']
    rfl
  have := hmin _ hQv ⟨by show P.ones + 1 ≤ A.ones; omega, by
      show List.take (P.ones + 1) _ = List.take (P.ones + 1) _
      rw [hQtake, eA, htake]⟩
    ⟨by show P.ones + 1 ≤ B.ones; omega, by
      show List.take (P.ones + 1) _ = List.take (P.ones + 1) _
      rw [hQtake, eB, htake]⟩
  simp at this

theorem Supernet_NewIPv4Tree (Q : IPNet) : NewIPv4Tree.Supernet Q = IPv4TreeNode.nil := by
  obtain ⟨b, rest, hp⟩ := path_cons Q
  unfold IPv4Tree.Supernet
  rw [hp]
  cases b <;> rfl

theorem SmallestCover_of_next_bit (A B P : IPNet) (hP : P.Valid) (hA : P.Contains A)
    (hB : P.Contains B)
    (hdiff : (GetBinaryPathFromIPv4Addr A).take (P.ones + 1)
      ≠ (GetBinaryPathFromIPv4Addr B).take (P.ones + 1)) : P.SmallestCover A B := by
  refine ⟨hP, hA, hB, ?_⟩
  intro q _ hqA hqB
  by_contra hlt
  apply hdiff
  have e : (GetBinaryPathFromIPv4Addr A).take q.ones = (GetBinaryPathFromIPv4Addr B).take q.ones := by
    rw [hqA.2, hqB.2]
  have := congrArg (List.take (P.ones + 1)) e
  rw [List.take_take, List.take_take, Nat.min_eq_left (by omega)] at this
  exact this

/-! ## The codec, digit by digit -/

theorem binaryDigits_get? (w v i : Nat) (hi : i < w) :
    (binaryDigits w v).get? i = some (v.testBit (w - 1 - i)) := by
  induction w generalizing i with
  | zero => omega
  | succ w ih =>
    cases i with
    | zero =>
      simp only [binaryDigits, List.get?_cons_zero, Nat.add_sub_cancel, Nat.sub_zero,
        Nat.testBit_to_div_mod]
      congr 1
    | succ i =>
      simp only [binaryDigits, List.get?_cons_succ]
      rw [ih i (by omega)]
      congr 2
      omega

theorem GetIPv4FromBinaryString_digits (a : Nat) (ha : a < 2 ^ 32) :
    GetIPv4FromBinaryString (binaryDigits 32 a) = a := by
  unfold GetIPv4FromBinaryString
  rw [binaryValue_binaryDigits, Nat.mod_eq_of_lt ha, if_pos ha]

/-! ## Aggregate changes nothing -/

theorem Aggregate_of_IsLast (n : IPv4TreeNode) (f : Float64) (h : n.IsLast = true) :
    n.Aggregate f = n := by
  unfold IPv4TreeNode.Aggregate
  split_ifs
  · cases n with
    | nil => rfl
    | mk k l s t c0 c1 p par =>
      simp only [IPv4TreeNode.IsLast] at h
      subst h
      rfl
  · rfl

theorem aggregateSubnets_eq (f : Float64) (n : IPv4TreeNode) : aggregateSubnets f n = n := by
  induction n with
  | nil => rfl
  | mk k l s t c0 c1 p par ih0 ih1 =>
    cases t
    · simp only [aggregateSubnets, Bool.false_eq_true, if_false, ih0, ih1]
    · simp only [aggregateSubnets, if_true]
      exact Aggregate_of_IsLast _ f rfl

theorem Aggregate_eq (t : IPv4Tree) (f : Float64) : t.Aggregate f = t := by
  unfold IPv4Tree.Aggregate
  rw [aggregateSubnets_eq]

/-! ## What Supernet returns -/

theorem supernetLoop_covers (L : Nat) (bs : List Bool) :
    ∀ (n : IPv4TreeNode) (p : List Bool), WFAt n p → p.length < L → L ≤ p.length + bs.length →
      (supernetLoop L bs n).isNil = false →
      (supernetLoop L bs n).PrefixLen ≤ L ∧
      (supernetLoop L bs n).Prefix.length = (supernetLoop L bs n).PrefixLen ∧
      (supernetLoop L bs n).Prefix <+: p ++ bs ∧
      ((supernetLoop L bs n).IsLast = true ∨ (supernetLoop L bs n).PrefixLen = L) := by
  induction bs with
  | nil => intro n p _ h1 h2; simp at h2; omega
  | cons b rest ih =>
    intro n p hwf hlt hle hnil
    rw [supernetLoop] at hnil ⊢
    by_cases h1 : (n.Child b).isNil = true
    · rw [if_pos h1] at hnil
      simp at hnil
    · rw [if_neg h1] at hnil ⊢
      simp only [Bool.not_eq_true] at h1
      have hcwf := WFAt_Child n p b hwf
      have hcl : (n.Child b).PrefixLen = p.length + 1 := by
        rw [WFAt_PrefixLen _ _ hcwf h1]; simp
      have hcp : (n.Child b).Prefix = p ++ [b] := WFAt_Prefix _ _ hcwf h1
      by_cases hst : ((n.Child b).IsLast || decide ((n.Child b).PrefixLen = L)) = true
      · rw [if_pos hst]
        refine ⟨by omega, by rw [hcp, hcl]; simp, by rw [hcp]; exact ⟨rest, by simp⟩, ?_⟩
        simpa using hst
      · rw [if_neg hst] at hnil ⊢
        simp only [Bool.or_eq_true, decide_eq_true_eq, not_or, Bool.not_eq_true] at hst
        have := ih (n.Child b) (p ++ [b]) hcwf
          (by simp only [List.length_append, List.length_singleton]; omega)
          (by simp only [List.length_append, List.length_singleton, List.length_cons] at hle ⊢
              omega) hnil
        simpa using this

/-! ## One network, then a network inside it -/

theorem insertLoop_node_PrefixLen (size : ℤ) (L : Nat) (bs : List Bool) (m : IPv4TreeNode) :
    (insertLoop size L bs m).node.PrefixLen = m.PrefixLen := by
  cases bs with
  | nil => simp [insertLoop]
  | cons b rest => exact (insertLoop_node_top size L (b :: rest) (by simp) m).2

theorem sizeofLoop_insertLoop_fresh (size : ℤ) (L : Nat) (h0 : 0 < size) (h1 : size < 2 ^ 63)
    (bs : List Bool) :
    ∀ (m : IPv4TreeNode), m.isNil = false → m.Size = size → (∀ b, (m.Child b).isNil = true) →
      m.PrefixLen < L → sizeofLoop L bs (insertLoop size L bs m).node = size := by
  induction bs with
  | nil =>
    intro m hm hsz hch _
    rw [sizeofLoop]
    exact Sizeof_insertLoop_fresh size L h0 h1 [] m hm hsz hch
  | cons b rest ih =>
    intro m hm hsz hch hlt
    by_cases hL : m.PrefixLen + 1 = L
    · have e : (insertLoop size L (b :: rest) m).node
          = m.NewChild b ((IPv4TreeNode.newChildOf m b size false).setIsLast true) := by
        simp only [insertLoop, if_pos (hch b)]
        rw [if_pos (by simp [hL])]
      rw [e, sizeofLoop, IPv4TreeNode.Child_NewChild_same m b _ hm]
      rw [if_neg (by simp), if_pos (by simpa using hL)]
      rw [Sizeof_of_last (IPv4TreeNode.setIsLast (IPv4TreeNode.newChildOf m b size false) true)
        rfl rfl (by simpa using h0)]
      rfl
    · rw [insertLoop_step_new size L b rest m (hch b) hL, sizeofLoop,
        IPv4TreeNode.Child_NewChild_same m b _ hm]
      rw [if_neg (by rw [insertLoop_node_isNil]; simp),
        if_neg (by rw [insertLoop_node_PrefixLen]; simpa using hL)]
      exact ih _ rfl rfl (by intro c; simp) (by simp; omega)

theorem length_subnetsDfs_insertLoop_fresh (size : ℤ) (L : Nat) (bs : List Bool) :
    ∀ (m : IPv4TreeNode), m.isNil = false → (∀ b, (m.Child b).isNil = true) →
      (subnetsDfs (insertLoop size L bs m).node).length = 1 := by
  induction bs with
  | nil =>
    intro m hm _
    simp only [insertLoop]
    rw [subnetsDfs_of_last _ (by simpa using hm) (IPv4TreeNode.IsLast_setIsLast m true hm)]
    rfl
  | cons b rest ih =>
    intro m hm hch
    -- the subtree below the new child lists one node
    have key : ∀ x : IPv4TreeNode, (subnetsDfs x).length = 1 →
        (subnetsDfs (m.NewChild b x)).length = 1 := by
      intro x hx
      by_cases hl : m.IsLast = true
      · rw [subnetsDfs_of_last _ (by simpa using hm) (by simpa using hl)]
        rfl
      · simp only [Bool.not_eq_true] at hl
        rw [subnetsDfs_of_not_last _ (by simpa using hl), List.length_append]
        cases b
        · rw [IPv4TreeNode.Child_NewChild_same m false x hm,
            IPv4TreeNode.Child_NewChild_ne m false true x (by simp),
            isNil_eq_true _ (hch true), hx]
          rfl
        · rw [IPv4TreeNode.Child_NewChild_same m true x hm,
            IPv4TreeNode.Child_NewChild_ne m true false x (by simp),
            isNil_eq_true _ (hch false), hx]
          rfl
    simp only [insertLoop, if_pos (hch b)]
    split_ifs
    · apply key
      rw [subnetsDfs_of_last (IPv4TreeNode.setIsLast (IPv4TreeNode.newChildOf m b size false) true)
        rfl rfl]
      rfl
    · exact key _ (ih _ rfl (by intro c; simp))

/-- Two paths that share `common`: where Supernet finds a terminal node for the shorter
network, it finds the same node for the longer one. -/
theorem supernetLoop_common (LA LB : Nat) (hlt : LA < LB) (restA restB : List Bool) :
    ∀ (common : List Bool) (n : IPv4TreeNode) (p : List Bool), common ≠ [] → WFAt n p →
      p.length + common.length = LA →
      (supernetLoop LA (common ++ restA) n).isNil = false →
      (supernetLoop LA (common ++ restA) n).IsLast = true →
      supernetLoop LB (common ++ restB) n = supernetLoop LA (common ++ restA) n := by
  intro common
  induction common with
  | nil => intro n p h; exact absurd rfl h
  | cons b common1 ih =>
    intro n p _ hwf hlen hnil hlast
    simp only [List.cons_append] at hnil hlast ⊢
    rw [supernetLoop] at hnil hlast ⊢
    rw [supernetLoop]
    by_cases h1 : (n.Child b).isNil = true
    · rw [if_pos h1] at hnil
      simp at hnil
    · rw [if_neg h1] at hnil hlast ⊢
      rw [if_neg h1]
      simp only [Bool.not_eq_true] at h1
      have hcwf := WFAt_Child n p b hwf
      have hcl : (n.Child b).PrefixLen = p.length + 1 := by
        rw [WFAt_PrefixLen _ _ hcwf h1]; simp
      simp only [List.length_cons] at hlen
      by_cases hcLast : (n.Child b).IsLast = true
      · simp [hcLast]
      · simp only [Bool.not_eq_true] at hcLast
        by_cases hcL : (n.Child b).PrefixLen = LA
        · rw [if_pos (by simp [hcL])] at hlast
          rw [hcLast] at hlast
          simp at hlast
        · have hA : ¬ ((n.Child b).IsLast || decide ((n.Child b).PrefixLen = LA)) = true := by
            simp [hcLast, hcL]
          have hB : ¬ ((n.Child b).IsLast || decide ((n.Child b).PrefixLen = LB)) = true := by
            simp only [hcLast, Bool.false_or, decide_eq_true_eq]; omega
          rw [if_neg hA] at hnil hlast ⊢
          rw [if_neg hB]
          cases common1 with
          | nil => simp at hlen; omega
          | cons b1 common2 =>
            exact ih (n.Child b) (p ++ [b]) (by simp) hcwf
              (by simp only [List.length_append, List.length_singleton]; omega) hnil hlast

/-- Where Supernet already finds a terminal node, Insert keeps the structure and the
flags of the tree. -/
theorem eraseSizes_Insert_of_covered (t t1 : IPv4Tree) (c : IPNet)
    (hroot : t.Root.isNil = false) (h1 : t.Insert c = some t1)
    (hnil : (t.Supernet c).isNil = false) (hlast : (t.Supernet c).IsLast = true) :
    eraseSizes t1.Root = eraseSizes t.Root := by
  obtain ⟨b, rest, hp⟩ := path_cons c
  rw [Insert_eq t c hroot] at h1
  split_ifs at h1
  · cases h1; rfl
  · cases h1
    unfold IPv4Tree.Supernet at hnil hlast
    rw [hp] at hnil hlast
    rw [insertFresh_Root, hp, eraseSizes_insertLoop _ _ _ _ (by simp)
        (by rw [supernetLoop_cons_congr c.ones b rest t.Root _ (by simp)]; exact hnil)
        (by rw [supernetLoop_cons_congr c.ones b rest t.Root _ (by simp)]; exact hlast),
      eraseSizes_Update _ _ _ (by omega)]

theorem paths_of_Contains (A B : IPNet) (hB : B.Valid) (hAB : A.Contains B) :
    ∃ common restA restB,
      GetBinaryPathFromIPv4Addr A = common ++ restA ∧
      GetBinaryPathFromIPv4Addr B = common ++ restB ∧ common.length = A.ones := by
  refine ⟨(GetBinaryPathFromIPv4Addr A).take A.ones, (GetBinaryPathFromIPv4Addr A).drop A.ones,
    (GetBinaryPathFromIPv4Addr B).drop A.ones, (List.take_append_drop _ _).symm, ?_, ?_⟩
  · rw [← hAB.2, List.take_append_drop]
  · rw [List.length_take, path_length]
    have := hB.1
    have := hAB.1
    omega

/-! ## Keys, parents and depth -/

namespace IPv4TreeNode

@[simp] theorem Key_newChildOf (n b s t) : Key (newChildOf n b s t) = [b] := rfl
@[simp] theorem Parent_newChildOf (n b s t) : Parent (newChildOf n b s t) = some n.Prefix := rfl
@[simp] theorem Key_setIsLast (n b) : Key (setIsLast n b) = Key n := by cases n <;> rfl
@[simp] theorem Parent_setIsLast (n b) : Parent (setIsLast n b) = Parent n := by cases n <;> rfl
@[simp] theorem Key_Update (n l s) : Key (Update n l s) = Key n := by cases n <;> rfl
@[simp] theorem Parent_Update (n l s) : Parent (Update n l s) = Parent n := by cases n <;> rfl
@[simp] theorem Key_NewChild (n b c) : Key (NewChild n b c) = Key n := by
  cases n <;> cases b <;> rfl
@[simp] theorem Parent_NewChild (n b c) : Parent (NewChild n b c) = Parent n := by
  cases n <;> cases b <;> rfl

end IPv4TreeNode

theorem Tidy_setIsLast (h : Nat) (p : List Bool) (n : IPv4TreeNode) (b : Bool)
    (ht : Tidy h p n) : Tidy h p (n.setIsLast b) := by
  cases n with
  | nil => trivial
  | mk => exact ht

theorem Tidy_Update (h : Nat) (p : List Bool) (n : IPv4TreeNode) (l s : ℤ)
    (ht : Tidy h p n) : Tidy h p (n.Update l s) := by
  cases n with
  | nil => trivial
  | mk => exact ht

theorem Tidy_Child (h : Nat) (p : List Bool) (n : IPv4TreeNode) (b : Bool)
    (ht : Tidy h p n) : Tidy (h - 1) (p ++ [b]) (n.Child b) := by
  cases n with
  | nil => trivial
  | mk k l s t c0 c1 q par =>
    cases b
    · exact ht.2.2.1
    · exact ht.2.2.2

theorem Tidy_child_fields (h : Nat) (p : List Bool) (n : IPv4TreeNode) (b : Bool)
    (ht : Tidy h p n) (hc : (n.Child b).isNil = false) :
    0 < h ∧ (n.Child b).Key = [b] ∧ (n.Child b).Parent = some p := by
  cases n with
  | nil => simp [IPv4TreeNode.Child] at hc
  | mk k l s t c0 c1 q par =>
    cases b
    · exact ht.1 hc
    · exact ht.2.1 hc

theorem Tidy_NewChild (h : Nat) (p : List Bool) (n c : IPv4TreeNode) (b : Bool)
    (ht : Tidy h p n) (hc : Tidy (h - 1) (p ++ [b]) c)
    (hf : c.isNil = false → 0 < h ∧ c.Key = [b] ∧ c.Parent = some p) :
    Tidy h p (n.NewChild b c) := by
  cases n with
  | nil => trivial
  | mk k l s t c0 c1 q par =>
    cases b
    · exact ⟨hf, ht.2.1, hc, ht.2.2.2⟩
    · exact ⟨ht.1, hf, ht.2.2.1, hc⟩

theorem Tidy_newChildOf (h : Nat) (p : List Bool) (n : IPv4TreeNode) (b : Bool) (s : ℤ)
    (t : Bool) : Tidy h p (IPv4TreeNode.newChildOf n b s t) :=
  ⟨fun hc => by simp at hc, fun hc => by simp at hc, trivial, trivial⟩

theorem insertLoop_node_Key_Parent (size : ℤ) (L : Nat) (bs : List Bool) (m : IPv4TreeNode) :
    (insertLoop size L bs m).node.Key = m.Key ∧
      (insertLoop size L bs m).node.Parent = m.Parent := by
  cases bs with
  | nil => simp [insertLoop]
  | cons b rest =>
    obtain ⟨c, hc⟩ := insertLoop_cons_node size L b rest m
    rw [hc]
    simp

theorem insertLoop_Tidy (size : ℤ) (L : Nat) (bs : List Bool) :
    ∀ (n : IPv4TreeNode) (p : List Bool) (h : Nat), n.isNil = false → WFAt n p → Tidy h p n →
      bs.length ≤ h → Tidy h p (insertLoop size L bs n).node := by
  induction bs with
  | nil =>
    intro n p h _ _ ht _
    simpa [insertLoop] using Tidy_setIsLast h p n true ht
  | cons bit rest ih =>
    intro n p h hn hwf ht hlen
    simp only [List.length_cons] at hlen
    have hpos : 0 < h := by omega
    have hnp : n.Prefix = p := WFAt_Prefix n p hwf hn
    have hnew := WFAt_newChildOf n p bit size false hwf hn
    have hupd := WFAt_Update (n.Child bit) (p ++ [bit]) (n.Child bit).PrefixLen size
      (WFAt_Child n p bit hwf)
    simp only [insertLoop]
    split_ifs with h1 h2 h3
    · exact Tidy_NewChild h p n _ bit ht (Tidy_setIsLast _ _ _ _ (Tidy_newChildOf _ _ _ _ _ _))
        (fun _ => ⟨hpos, by simp, by simp [hnp]⟩)
    · refine Tidy_NewChild h p n _ bit ht
        (ih _ _ _ rfl hnew (Tidy_newChildOf _ _ _ _ _ _) (by omega)) (fun _ => ⟨hpos, ?_, ?_⟩)
      · rw [(insertLoop_node_Key_Parent size L rest _).1]; rfl
      · rw [(insertLoop_node_Key_Parent size L rest _).2]; simp [hnp]
    · have hc : (n.Child bit).isNil = false := by simpa using h1
      obtain ⟨_, hk, hpar⟩ := Tidy_child_fields h p n bit ht hc
      exact Tidy_NewChild h p n _ bit ht
        (Tidy_setIsLast _ _ _ _ (Tidy_Update _ _ _ _ _ (Tidy_Child h p n bit ht)))
        (fun _ => ⟨hpos, by simpa using hk, by simpa using hpar⟩)
    · have hc : (n.Child bit).isNil = false := by simpa using h1
      obtain ⟨_, hk, hpar⟩ := Tidy_child_fields h p n bit ht hc
      refine Tidy_NewChild h p n _ bit ht
        (ih _ _ _ (by simpa using hc) hupd (Tidy_Update _ _ _ _ _ (Tidy_Child h p n bit ht))
          (by omega)) (fun _ => ⟨hpos, ?_, ?_⟩)
      · rw [(insertLoop_node_Key_Parent size L rest _).1]; simpa using hk
      · rw [(insertLoop_node_Key_Parent size L rest _).2]; simpa using hpar

/-! ## The walk of Delete keeps the tree well formed -/

theorem deleteLoop_cons_node (size : ℤ) (L : Nat) (inLast : Bool) (bit : Bool)
    (rest : List Bool) (prev : IPv4TreeNode) :
    (deleteLoop size L inLast (bit :: rest) prev).node =
      if (deleteStepNode prev bit).PrefixLen = L then deleteStepPrev prev bit inLast
      else
        match rest with
        | [] => (deleteAfterLoop (deleteStepPrev prev bit inLast) size).1
        | _ :: _ =>
          if ((prev.Child bit).isNil && bit == false) = true then deleteStepPrev prev bit inLast
          else (deleteStepPrev prev bit inLast).NewChild bit
            (deleteLoop size L (deleteStepInLast prev inLast) rest
              (deleteStepNode prev bit)).node := by
  cases rest with
  | nil =>
    show (deleteLoop size L inLast [bit] prev).node =
      if (deleteStepNode prev bit).PrefixLen = L then deleteStepPrev prev bit inLast
      else (deleteAfterLoop (deleteStepPrev prev bit inLast) size).1
    rw [deleteLoop]
    by_cases h : (deleteStepNode prev bit).PrefixLen = L
    · rw [if_pos h]
      unfold deleteStepNode at h
      rw [if_pos h]
      rfl
    · rw [if_neg h]
      unfold deleteStepNode at h
      rw [if_neg h]
      rfl
  | cons b1 rest1 =>
    rw [deleteLoop]
    by_cases h : (deleteStepNode prev bit).PrefixLen = L
    · rw [if_pos h]
      unfold deleteStepNode at h
      rw [if_pos h]
      rfl
    · rw [if_neg h]
      unfold deleteStepNode at h
      rw [if_neg h]
      rfl

theorem deleteStepNode_inv (prev : IPv4TreeNode) (bit : Bool) (p : List Bool) (h : Nat)
    (hn : prev.isNil = false) (hwf : WFAt prev p) (ht : Tidy h p prev) :
    (deleteStepNode prev bit).isNil = false ∧ WFAt (deleteStepNode prev bit) (p ++ [bit]) ∧
      Tidy (h - 1) (p ++ [bit]) (deleteStepNode prev bit) ∧
      (deleteStepNode prev bit).Key = [bit] ∧ (deleteStepNode prev bit).Parent = some p := by
  unfold deleteStepNode
  by_cases h1 : (prev.Child bit).isNil = true
  · rw [if_pos h1]
    exact ⟨rfl, WFAt_newChildOf prev p bit _ false hwf hn, Tidy_newChildOf _ _ _ _ _ _, rfl,
      by simp [WFAt_Prefix prev p hwf hn]⟩
  · rw [if_neg h1]
    simp only [Bool.not_eq_true] at h1
    obtain ⟨_, hk, hpar⟩ := Tidy_child_fields h p prev bit ht h1
    exact ⟨h1, WFAt_Child prev p bit hwf, Tidy_Child h p prev bit ht, hk, hpar⟩

theorem deleteStepPrev_inv (prev : IPv4TreeNode) (bit inLast : Bool) (p : List Bool) (h : Nat)
    (hn : prev.isNil = false) (hwf : WFAt prev p) (ht : Tidy h p prev) (hpos : 0 < h) :
    (deleteStepPrev prev bit inLast).isNil = false ∧ WFAt (deleteStepPrev prev bit inLast) p ∧
      Tidy h p (deleteStepPrev prev bit inLast) ∧
      (deleteStepPrev prev bit inLast).Key = prev.Key ∧
      (deleteStepPrev prev bit inLast).Parent = prev.Parent ∧
      (deleteStepPrev prev bit inLast).IsLast = false := by
  obtain ⟨n1, n2, n3, n4, n5⟩ := deleteStepNode_inv prev bit p h hn hwf ht
  -- the node walked from once the path child is in place
  have hA : ∀ prevA : IPv4TreeNode,
      prevA = (if (prev.Child bit).isNil then prev.NewChild bit (deleteStepNode prev bit)
        else prev) →
      prevA.isNil = false ∧ WFAt prevA p ∧ Tidy h p prevA ∧ prevA.Key = prev.Key ∧
        prevA.Parent = prev.Parent := by
    intro prevA e
    subst e
    split_ifs
    · exact ⟨by simpa using hn, WFAt_NewChild _ _ _ _ hwf n2,
        Tidy_NewChild h p prev _ bit ht n3 (fun _ => ⟨hpos, n4, n5⟩), by simp, by simp⟩
    · exact ⟨hn, hwf, ht, rfl, rfl⟩
  obtain ⟨a1, a2, a3, a4, a5⟩ := hA _ rfl
  unfold deleteStepPrev
  generalize (if (prev.Child bit).isNil then prev.NewChild bit (deleteStepNode prev bit)
    else prev) = prevA at a1 a2 a3 a4 a5 ⊢
  by_cases hinv : (prev.Child false).isNil = true
  all_goals simp only [hinv, if_true, if_false, Bool.false_eq_true]
  · refine ⟨by simpa using a1, WFAt_setIsLast _ _ _ (WFAt_NewChild _ _ _ _ a2
        (WFAt_setIsLast _ _ _ (WFAt_newChildOf _ p false _ false a2 a1))),
      Tidy_setIsLast _ _ _ _ (Tidy_NewChild h p _ _ false a3
        (Tidy_setIsLast _ _ _ _ (Tidy_newChildOf _ _ _ _ _ _))
        (fun _ => ⟨hpos, by simp, by simp [WFAt_Prefix _ p a2 a1]⟩)),
      by simpa using a4, by simpa using a5, ?_⟩
    exact IPv4TreeNode.IsLast_setIsLast _ false (by simpa using a1)
  · exact ⟨by simpa using a1, WFAt_setIsLast _ _ _ a2, Tidy_setIsLast _ _ _ _ a3,
      by simpa using a4, by simpa using a5,
      IPv4TreeNode.IsLast_setIsLast _ false a1⟩

theorem deleteAfterLoop_inv (prev : IPv4TreeNode) (size : ℤ) (p : List Bool) (h : Nat)
    (hn : prev.isNil = false) (hwf : WFAt prev p) (ht : Tidy h p prev) :
    (deleteAfterLoop prev size).1.isNil = false ∧ WFAt (deleteAfterLoop prev size).1 p ∧
      Tidy h p (deleteAfterLoop prev size).1 ∧ (deleteAfterLoop prev size).1.Key = prev.Key ∧
      (deleteAfterLoop prev size).1.Parent = prev.Parent := by
  unfold deleteAfterLoop
  simp only []
  split_ifs
  · exact ⟨by simpa using hn, WFAt_setIsLast _ _ _ hwf, Tidy_setIsLast _ _ _ _ ht, by simp,
      by simp⟩
  · exact ⟨hn, hwf, ht, rfl, rfl⟩

theorem deleteLoop_inv (size : ℤ) (L : Nat) (bs : List Bool) :
    ∀ (inLast : Bool) (prev : IPv4TreeNode) (p : List Bool) (h : Nat), prev.isNil = false →
      WFAt prev p → Tidy h p prev → bs.length ≤ h →
      (deleteLoop size L inLast bs prev).node.isNil = false ∧
      WFAt (deleteLoop size L inLast bs prev).node p ∧
      Tidy h p (deleteLoop size L inLast bs prev).node ∧
      (deleteLoop size L inLast bs prev).node.Key = prev.Key ∧
      (deleteLoop size L inLast bs prev).node.Parent = prev.Parent ∧
      (2 ≤ bs.length → (deleteLoop size L inLast bs prev).node.IsLast = false) := by
  induction bs with
  | nil =>
    intro inLast prev p h hn hwf ht _
    obtain ⟨a1, a2, a3, a4, a5⟩ := deleteAfterLoop_inv prev size p h hn hwf ht
    exact ⟨a1, a2, a3, a4, a5, fun hl => by simp at hl⟩
  | cons bit rest ih =>
    intro inLast prev p h hn hwf ht hlen
    simp only [List.length_cons] at hlen
    have hpos : 0 < h := by omega
    obtain ⟨n1, n2, n3, n4, n5⟩ := deleteStepNode_inv prev bit p h hn hwf ht
    obtain ⟨c1, c2, c3, c4, c5, c6⟩ := deleteStepPrev_inv prev bit inLast p h hn hwf ht hpos
    rw [deleteLoop_cons_node]
    by_cases hL : (deleteStepNode prev bit).PrefixLen = L
    · rw [if_pos hL]
      exact ⟨c1, c2, c3, c4, c5, fun _ => c6⟩
    · rw [if_neg hL]
      cases rest with
      | nil =>
        obtain ⟨a1, a2, a3, a4, a5⟩ := deleteAfterLoop_inv _ size p h c1 c2 c3
        exact ⟨a1, a2, a3, a4.trans c4, a5.trans c5, fun hl => by simp at hl⟩
      | cons b1 rest1 =>
        simp only []
        obtain ⟨r1, r2, r3, r4, r5, _⟩ := ih (deleteStepInLast prev inLast)
          (deleteStepNode prev bit) (p ++ [bit]) (h - 1) n1 n2 n3 (by omega)
        split_ifs
        · exact ⟨c1, c2, c3, c4, c5, fun _ => c6⟩
        · exact ⟨by simpa using c1, WFAt_NewChild _ _ _ _ c2 r2,
            Tidy_NewChild h p _ _ bit c3 r3 (fun _ => ⟨hpos, r4.trans n4, r5.trans n5⟩),
            by simpa using c4, by simpa using c5, fun _ => by simpa using c6⟩

/-! ## Reachable trees are well formed -/

theorem Delete_inv (t t1 : IPv4Tree) (n : IPNet) (hroot : t.Root.isNil = false)
    (hwf : WFAt t.Root []) (ht : Tidy 32 [] t.Root) (hl : t.Root.IsLast = false)
    (h : t.Delete n = some t1) :
    t1.Root.isNil = false ∧ WFAt t1.Root [] ∧ Tidy 32 [] t1.Root ∧ t1.Root.IsLast = false := by
  unfold IPv4Tree.Delete at h
  rw [if_neg (by simp [hroot])] at h
  by_cases h1 : (!t.Intree n) = true
  · rw [if_pos h1] at h
    cases h; exact ⟨hroot, hwf, ht, hl⟩
  · rw [if_neg h1] at h
    simp only [] at h
    by_cases h2 : (deleteLoop (t.Sizeof n) n.ones false (GetBinaryPathFromIPv4Addr n)
        t.Root).failed = true
    · rw [if_pos h2] at h; cases h
    rw [if_neg h2] at h
    cases h
    obtain ⟨r1, r2, r3, _, _, r6⟩ := deleteLoop_inv (t.Sizeof n) n.ones
      (GetBinaryPathFromIPv4Addr n) false t.Root [] 32 hroot hwf ht (by rw [path_length])
    exact ⟨r1, r2, r3, r6 (by rw [path_length]; decide)⟩

theorem Reachable_inv {t : IPv4Tree} (h : Reachable t) :
    t.Root.isNil = false ∧ WFAt t.Root [] ∧ Tidy 32 [] t.Root ∧ t.Root.IsLast = false := by
  induction h with
  | empty =>
    exact ⟨rfl, ⟨rfl, rfl, trivial, trivial⟩,
      ⟨fun hc => by simp at hc, fun hc => by simp at hc, trivial, trivial⟩, rfl⟩
  | @insert t t1 n _ _ hins ih =>
    obtain ⟨hroot, hwf, ht, hl⟩ := ih
    rw [Insert_eq t n hroot] at hins
    split_ifs at hins
    · cases hins; exact ⟨hroot, hwf, ht, hl⟩
    · cases hins
      have hroot1 : (t.Root.Update (-1) (CalculateTotalHosts n)).isNil = false := by
        simpa using hroot
      refine ⟨?_, ?_, ?_, ?_⟩
      · rw [insertFresh_Root, insertLoop_node_isNil]; exact hroot1
      · rw [insertFresh_Root]
        exact insertLoop_wf _ _ _ _ _ (WFAt_Update _ _ _ _ hwf) hroot1
      · rw [insertFresh_Root]
        exact insertLoop_Tidy _ _ _ _ _ 32 hroot1 (WFAt_Update _ _ _ _ hwf)
          (Tidy_Update _ _ _ _ _ ht) (by rw [path_length])
      · obtain ⟨b, rest, hp⟩ := path_cons n
        obtain ⟨c, hc⟩ := insertLoop_cons_node (CalculateTotalHosts n) n.ones b rest
          (t.Root.Update (-1) (CalculateTotalHosts n))
        rw [insertFresh_Root, hp, hc]
        simpa using hl
  | @delete t t1 n _ _ hdel ih =>
    exact Delete_inv t t1 n ih.1 ih.2.1 ih.2.2.1 ih.2.2.2 hdel
  | aggregate f _ ih =>
    rw [Aggregate_eq]
    exact ih

theorem nodeAt_nil (path : List Bool) : nodeAt IPv4TreeNode.nil path = IPv4TreeNode.nil := by
  induction path with
  | nil => rfl
  | cons b rest ih => exact ih

theorem nodeAt_append (path : List Bool) :
    ∀ (n : IPv4TreeNode) (b : Bool), nodeAt n (path ++ [b]) = (nodeAt n path).Child b := by
  induction path with
  | nil => intro n b; rfl
  | cons a rest ih => intro n b; exact ih (n.Child a) b

theorem nodeAt_inv (path : List Bool) :
    ∀ (n : IPv4TreeNode) (p : List Bool) (h : Nat), WFAt n p → Tidy h p n →
      WFAt (nodeAt n path) (p ++ path) ∧ Tidy (h - path.length) (p ++ path) (nodeAt n path) := by
  induction path with
  | nil => intro n p h hwf ht; simpa using ⟨hwf, ht⟩
  | cons a rest ih =>
    intro n p h hwf ht
    have := ih (n.Child a) (p ++ [a]) (h - 1) (WFAt_Child n p a hwf) (Tidy_Child h p n a ht)
    simp only [List.append_assoc, List.singleton_append, List.length_cons] at this ⊢
    rw [show h - (rest.length + 1) = h - 1 - rest.length by omega]
    exact this

theorem Child_isNil_of_isNil (n : IPv4TreeNode) (b : Bool) (h : n.isNil = true) :
    (n.Child b).isNil = true := by
  cases n with
  | nil => rfl
  | mk => simp at h

/-! ## What Subnets lists, and in which order -/

theorem not_Topmost_nil (p : List Bool) : ¬ Topmost IPv4TreeNode.nil p := by
  intro h
  have := h.1
  rw [nodeAt_nil] at this
  exact absurd this (by decide)

theorem Topmost_of_last (n : IPv4TreeNode) (hn : n.isNil = false) (hl : n.IsLast = true)
    (p : List Bool) : Topmost n p ↔ p = [] := by
  constructor
  · intro h
    by_contra hp
    have := h.2.2 [] (List.nil_prefix) (fun e => hp e.symm)
    rw [show nodeAt n [] = n from rfl, hl] at this
    exact absurd this (by decide)
  · intro hp
    subst hp
    refine ⟨hn, hl, ?_⟩
    intro q hq hne
    exact absurd (List.prefix_nil.mp hq) hne

theorem Topmost_cons (n : IPv4TreeNode) (hl : n.IsLast = false) (b : Bool) (q : List Bool) :
    Topmost n (b :: q) ↔ Topmost (n.Child b) q := by
  constructor
  · intro h
    refine ⟨h.1, h.2.1, ?_⟩
    intro r hr hne
    exact h.2.2 (b :: r) ((List.prefix_cons_inj b).mpr hr) (fun e => hne (List.cons.inj e).2)
  · intro h
    refine ⟨h.1, h.2.1, ?_⟩
    intro r hr hne
    cases r with
    | nil => exact hl
    | cons a r1 =>
      obtain ⟨e, hr1⟩ := List.cons_prefix_cons.mp hr
      subst e
      exact h.2.2 r1 hr1 (fun e => hne (by rw [e]))

theorem not_Topmost_of_not_last (n : IPv4TreeNode) (hl : n.IsLast = false) :
    ¬ Topmost n [] := by
  intro h
  have := h.2.1
  rw [show nodeAt n [] = n from rfl, hl] at this
  exact absurd this (by decide)

theorem mem_subnetsDfs_iff (n : IPv4TreeNode) :
    ∀ x, x ∈ subnetsDfs n ↔ ∃ p, Topmost n p ∧ nodeAt n p = x := by
  induction n with
  | nil =>
    intro x
    simp only [subnetsDfs, List.not_mem_nil, false_iff]
    rintro ⟨p, hp, _⟩
    exact not_Topmost_nil p hp
  | mk k l s t c0 c1 q par ih0 ih1 =>
    intro x
    cases t with
    | true =>
      simp only [subnetsDfs, if_true, List.mem_singleton]
      constructor
      · intro e
        exact ⟨[], (Topmost_of_last (IPv4TreeNode.mk k l s true c0 c1 q par) rfl rfl []).mpr rfl,
          e.symm⟩
      · rintro ⟨p, hp, e⟩
        rw [(Topmost_of_last (IPv4TreeNode.mk k l s true c0 c1 q par) rfl rfl p).mp hp] at e
        exact e.symm
    | false =>
      simp only [subnetsDfs, Bool.false_eq_true, if_false, List.mem_append, ih0 x, ih1 x]
      constructor
      · rintro (⟨p, hp, e⟩ | ⟨p, hp, e⟩)
        · exact ⟨false :: p, (Topmost_cons (IPv4TreeNode.mk k l s false c0 c1 q par) rfl false p).mpr hp, e⟩
        · exact ⟨true :: p, (Topmost_cons (IPv4TreeNode.mk k l s false c0 c1 q par) rfl true p).mpr hp, e⟩
      · rintro ⟨p, hp, e⟩
        cases p with
        | nil => exact absurd hp (not_Topmost_of_not_last (IPv4TreeNode.mk k l s false c0 c1 q par) rfl)
        | cons b p1 =>
          have h1 := (Topmost_cons (IPv4TreeNode.mk k l s false c0 c1 q par) rfl b p1).mp hp
          cases b
          · exact Or.inl ⟨p1, h1, e⟩
          · exact Or.inr ⟨p1, h1, e⟩

theorem nodeAt_depth (s : List Bool) :
    ∀ (n : IPv4TreeNode) (p : List Bool) (h : Nat), Tidy h p n →
      (nodeAt n s).isNil = false → s.length ≤ h := by
  induction s with
  | nil => intro n p h _ _; exact Nat.zero_le _
  | cons b rest ih =>
    intro n p h ht hs
    have hc : (n.Child b).isNil = false := by
      cases hn : (n.Child b).isNil
      · rfl
      · have e : n.Child b = IPv4TreeNode.nil := isNil_eq_true _ hn
        rw [show nodeAt n (b :: rest) = nodeAt (n.Child b) rest from rfl, e, nodeAt_nil] at hs
        exact absurd hs (by decide)
    obtain ⟨hpos, _, _⟩ := Tidy_child_fields h p n b ht hc
    have := ih (n.Child b) (p ++ [b]) (h - 1) (Tidy_Child h p n b ht) hs
    simp only [List.length_cons]
    omega

theorem binaryValue_pad_lt (p s1 s2 : List Bool) (h1 : (p ++ false :: s1).length ≤ 32)
    (h2 : (p ++ true :: s2).length ≤ 32) :
    binaryValue ((p ++ false :: s1) ++ List.replicate (32 - (p ++ false :: s1).length) false) <
      binaryValue ((p ++ true :: s2) ++ List.replicate (32 - (p ++ true :: s2).length) false) := by
  simp only [List.length_append, List.length_cons] at h1 h2
  have e1 : (p ++ false :: s1) ++ List.replicate (32 - (p ++ false :: s1).length) false =
      p ++ false :: (s1 ++ List.replicate (32 - (p ++ false :: s1).length) false) := by simp
  have e2 : (p ++ true :: s2) ++ List.replicate (32 - (p ++ true :: s2).length) false =
      p ++ true :: (s2 ++ List.replicate (32 - (p ++ true :: s2).length) false) := by simp
  rw [e1, e2, binaryValue_append, binaryValue_append, binaryValue_cons, binaryValue_cons]
  have l1 : (s1 ++ List.replicate (32 - (p ++ false :: s1).length) false).length
      = 31 - p.length := by
    simp only [List.length_append, List.length_cons, List.length_replicate]; omega
  have l2 : (s2 ++ List.replicate (32 - (p ++ true :: s2).length) false).length
      = 31 - p.length := by
    simp only [List.length_append, List.length_cons, List.length_replicate]; omega
  have b1 := binaryValue_lt (s1 ++ List.replicate (32 - (p ++ false :: s1).length) false)
  simp only [List.length_cons, l1, l2] at b1 ⊢
  simp only [Bool.false_eq_true, if_false, if_true, zero_mul, zero_add, one_mul]
  omega

theorem subnetsDfs_fields (n : IPv4TreeNode) (p : List Bool) (h : Nat) (hwf : WFAt n p)
    (ht : Tidy h p n) (x : IPv4TreeNode) (hx : x ∈ subnetsDfs n) :
    ∃ s, s.length ≤ h ∧ x.Prefix = p ++ s ∧ x.isNil = false ∧ x.IsLast = true := by
  obtain ⟨s, hs, e⟩ := (mem_subnetsDfs_iff n x).mp hx
  subst e
  refine ⟨s, nodeAt_depth s n p h ht hs.1, ?_, hs.1, hs.2.1⟩
  exact WFAt_Prefix _ _ (nodeAt_inv s n p h hwf ht).1 hs.1

theorem subnetsDfs_sorted (n : IPv4TreeNode) :
    ∀ (p : List Bool) (h : Nat), WFAt n p → Tidy h p n → p.length + h ≤ 32 →
      (subnetsDfs n).Pairwise (fun a b => a.Int < b.Int) := by
  induction n with
  | nil => intro p h _ _ _; exact List.Pairwise.nil
  | mk k l s t c0 c1 q par ih0 ih1 =>
    intro p h hwf ht hle
    cases t with
    | true => simp [subnetsDfs]
    | false =>
      simp only [subnetsDfs, Bool.false_eq_true, if_false]
      have hw0 : WFAt c0 (p ++ [false]) := hwf.2.2.1
      have hw1 : WFAt c1 (p ++ [true]) := hwf.2.2.2
      have ht0 : Tidy (h - 1) (p ++ [false]) c0 := ht.2.2.1
      have ht1 : Tidy (h - 1) (p ++ [true]) c1 := ht.2.2.2
      rw [List.pairwise_append]
      by_cases hpos : 0 < h
      · refine ⟨ih0 _ _ hw0 ht0 (by simp; omega), ih1 _ _ hw1 ht1 (by simp; omega), ?_⟩
        intro a ha b hb
        obtain ⟨sa, la, pa, _, _⟩ := subnetsDfs_fields c0 _ _ hw0 ht0 a ha
        obtain ⟨sb, lb, pb, _, _⟩ := subnetsDfs_fields c1 _ _ hw1 ht1 b hb
        unfold IPv4TreeNode.Int
        rw [pa, pb]
        simp only [List.append_assoc, List.singleton_append]
        have := binaryValue_pad_lt p sa sb (by simp; omega) (by simp; omega)
        simpa only [List.append_assoc, List.cons_append] using this
      · have e0 : c0 = IPv4TreeNode.nil := by
          cases hc : c0.isNil
          · exact absurd (ht.1 hc).1 hpos
          · exact isNil_eq_true _ hc
        have e1 : c1 = IPv4TreeNode.nil := by
          cases hc : c1.isNil
          · exact absurd (ht.2.1 hc).1 hpos
          · exact isNil_eq_true _ hc
        subst e0 e1
        simp [subnetsDfs]

theorem Subnets_eq_dfs (t : IPv4Tree) (hwf : WFAt t.Root []) (ht : Tidy 32 [] t.Root) :
    t.Subnets = subnetsDfs t.Root := by
  unfold IPv4Tree.Subnets
  apply List.Sorted.insertionSort_eq
  exact (subnetsDfs_sorted t.Root [] 32 hwf ht (by simp)).imp (fun h => Nat.le_of_lt h)

/-! ## SpecialTree: what Insert marks, and the terminal strings -/

theorem insertTarget_nil (k : Nat) : insertTarget k [] = [] := by
  unfold insertTarget
  split_ifs <;> simp

theorem insertTarget_cons (k : Nat) (bit : Bool) (rest : List Bool) :
    insertTarget k (bit :: rest) =
      if k = 1 then [bit] else bit :: insertTarget (k - 1) rest := by
  unfold insertTarget
  by_cases h1 : k = 1
  · subst h1
    simp
  · rw [if_neg h1]
    by_cases h0 : k = 0
    · subst h0
      simp
    · obtain ⟨j, rfl⟩ : ∃ j, k = j + 2 := ⟨k - 2, by omega⟩
      simp only [List.length_cons, Nat.add_sub_cancel, List.take_succ_cons]
      by_cases h2 : j + 1 ≤ rest.length
      · rw [if_pos ⟨by omega, by omega⟩, if_pos ⟨by omega, h2⟩]
        rfl
      · rw [if_neg (by omega), if_neg (by omega)]

theorem specialInsertLoop_cons_node (size : ℤ) (L : Nat) (bit : Bool) (rest : List Bool)
    (n : IPv4TreeNode) :
    ∃ c, (specialInsertLoop size L (bit :: rest) n).1 = n.NewChild bit c := by
  simp only [specialInsertLoop]
  split_ifs <;> exact ⟨_, rfl⟩

theorem specialInsertLoop_isNil (size : ℤ) (L : Nat) (bs : List Bool) (n : IPv4TreeNode) :
    (specialInsertLoop size L bs n).1.isNil = n.isNil := by
  cases bs with
  | nil => simp [specialInsertLoop]
  | cons bit rest =>
    obtain ⟨c, hc⟩ := specialInsertLoop_cons_node size L bit rest n
    rw [hc]
    simp

theorem specialInsertLoop_Key_Parent (size : ℤ) (L : Nat) (bs : List Bool)
    (m : IPv4TreeNode) :
    (specialInsertLoop size L bs m).1.Key = m.Key ∧
      (specialInsertLoop size L bs m).1.Parent = m.Parent := by
  cases bs with
  | nil => simp [specialInsertLoop]
  | cons b rest =>
    obtain ⟨c, hc⟩ := specialInsertLoop_cons_node size L b rest m
    rw [hc]
    simp

theorem specialInsertLoop_inv (size : ℤ) (L : Nat) (bs : List Bool) :
    ∀ (n : IPv4TreeNode) (p : List Bool) (h : Nat), n.isNil = false → WFAt n p → Tidy h p n →
      bs.length ≤ h →
      WFAt (specialInsertLoop size L bs n).1 p ∧ Tidy h p (specialInsertLoop size L bs n).1 := by
  induction bs with
  | nil =>
    intro n p h _ hwf ht _
    exact ⟨WFAt_setIsLast n p true hwf, Tidy_setIsLast h p n true ht⟩
  | cons bit rest ih =>
    intro n p h hn hwf ht hlen
    simp only [List.length_cons] at hlen
    have hpos : 0 < h := by omega
    have hnp : n.Prefix = p := WFAt_Prefix n p hwf hn
    have hnew := WFAt_newChildOf n p bit size false hwf hn
    have hupd := WFAt_Update (n.Child bit) (p ++ [bit]) (n.Child bit).PrefixLen size
      (WFAt_Child n p bit hwf)
    have tnew : Tidy (h - 1) (p ++ [bit]) (IPv4TreeNode.newChildOf n bit size false) :=
      Tidy_newChildOf _ _ _ _ _ _
    have tupd := Tidy_Update (h - 1) (p ++ [bit]) (n.Child bit) (n.Child bit).PrefixLen size
      (Tidy_Child h p n bit ht)
    simp only [specialInsertLoop]
    split_ifs with h1 h2 h3
    · exact ⟨WFAt_NewChild _ _ _ _ hwf (WFAt_setIsLast _ _ _ hnew),
        Tidy_NewChild h p n _ bit ht (Tidy_setIsLast _ _ _ _ tnew)
          (fun _ => ⟨hpos, by simp, by simp [hnp]⟩)⟩
    · obtain ⟨w, t⟩ := ih (IPv4TreeNode.newChildOf n bit size false) (p ++ [bit]) (h - 1) rfl
        hnew tnew (by omega)
      obtain ⟨k1, k2⟩ := specialInsertLoop_Key_Parent size L rest
        (IPv4TreeNode.newChildOf n bit size false)
      exact ⟨WFAt_NewChild _ _ _ _ hwf w,
        Tidy_NewChild h p n _ bit ht t (fun _ => ⟨hpos, by rw [k1]; rfl, by rw [k2]; simp [hnp]⟩)⟩
    · have hc : (n.Child bit).isNil = false := by simpa using h1
      obtain ⟨_, f1, f2⟩ := Tidy_child_fields h p n bit ht hc
      exact ⟨WFAt_NewChild _ _ _ _ hwf (WFAt_setIsLast _ _ _ hupd),
        Tidy_NewChild h p n _ bit ht (Tidy_setIsLast _ _ _ _ tupd)
          (fun _ => ⟨hpos, by simpa using f1, by simpa using f2⟩)⟩
    · have hc : (n.Child bit).isNil = false := by simpa using h1
      obtain ⟨_, f1, f2⟩ := Tidy_child_fields h p n bit ht hc
      obtain ⟨w, t⟩ := ih ((n.Child bit).Update (n.Child bit).PrefixLen size) (p ++ [bit])
        (h - 1) (by simpa using hc) hupd tupd (by omega)
      obtain ⟨k1, k2⟩ := specialInsertLoop_Key_Parent size L rest
        ((n.Child bit).Update (n.Child bit).PrefixLen size)
      exact ⟨WFAt_NewChild _ _ _ _ hwf w,
        Tidy_NewChild h p n _ bit ht t
          (fun _ => ⟨hpos, by rw [k1]; simpa using f1, by rw [k2]; simpa using f2⟩)⟩

theorem nodeAt_cons (n : IPv4TreeNode) (b : Bool) (r : List Bool) :
    nodeAt n (b :: r) = nodeAt (n.Child b) r := rfl

theorem IsLast_nodeAt_setIsLast (n : IPv4TreeNode) (hn : n.isNil = false) (s : List Bool) :
    (nodeAt (n.setIsLast true) s).IsLast = ((nodeAt n s).IsLast || decide (s = [])) := by
  cases s with
  | nil => simp [nodeAt, IPv4TreeNode.IsLast_setIsLast n true hn]
  | cons b r => simp [nodeAt_cons]

theorem IsLast_nodeAt_Update (n : IPv4TreeNode) (size : ℤ) (s : List Bool) :
    (nodeAt (n.Update n.PrefixLen size) s).IsLast = (nodeAt n s).IsLast := by
  cases s with
  | nil => simp [nodeAt]
  | cons b r => simp [nodeAt_cons]

theorem IsLast_nodeAt_newChildOf (n : IPv4TreeNode) (b : Bool) (size : ℤ) (s : List Bool) :
    (nodeAt (IPv4TreeNode.newChildOf n b size false) s).IsLast = false := by
  cases s with
  | nil => rfl
  | cons c r => simp [nodeAt_cons, nodeAt_nil]; rfl

/-- The walk of `SpecialTree.Insert` marks exactly one more position terminal. -/
theorem specialInsertLoop_IsLast (size : ℤ) (L : Nat) (bs : List Bool) :
    ∀ (prev : IPv4TreeNode) (p : List Bool), WFAt prev p → prev.isNil = false →
      ∀ s, (nodeAt (specialInsertLoop size L bs prev).1 s).IsLast =
        ((nodeAt prev s).IsLast || decide (s = insertTarget (L - p.length) bs)) := by
  induction bs with
  | nil =>
    intro prev p _ hn s
    rw [insertTarget_nil]
    exact IsLast_nodeAt_setIsLast prev hn s
  | cons bit rest ih =>
    intro prev p hwf hn s
    rw [insertTarget_cons]
    have hnewL : (IPv4TreeNode.newChildOf prev bit size false).PrefixLen = p.length + 1 := by
      simp [WFAt_PrefixLen prev p hwf hn]
    have hnew := WFAt_newChildOf prev p bit size false hwf hn
    have hupd := WFAt_Update (prev.Child bit) (p ++ [bit]) (prev.Child bit).PrefixLen size
      (WFAt_Child prev p bit hwf)
    cases s with
    | nil =>
      obtain ⟨c, hc⟩ := specialInsertLoop_cons_node size L bit rest prev
      rw [hc]
      have : ¬ ([] : List Bool) = if L - p.length = 1 then [bit]
          else bit :: insertTarget (L - p.length - 1) rest := by
        split_ifs <;> simp
      simp [nodeAt, this]
    | cons b r =>
      by_cases hb : b = bit
      · subst hb
        simp only [specialInsertLoop]
        by_cases h1 : (prev.Child b).isNil = true
        · have hnil : prev.Child b = IPv4TreeNode.nil := isNil_eq_true _ h1
          rw [if_pos h1, hnewL]
          by_cases h2 : p.length + 1 = L
          · rw [if_pos h2, if_pos (by omega)]
            simp only [nodeAt_cons, IPv4TreeNode.Child_NewChild_same prev b _ hn]
            rw [IsLast_nodeAt_setIsLast (IPv4TreeNode.newChildOf prev b size false) rfl,
              IsLast_nodeAt_newChildOf, hnil, nodeAt_nil]
            simp [IPv4TreeNode.IsLast]
          · rw [if_neg h2, if_neg (by omega)]
            simp only [nodeAt_cons, IPv4TreeNode.Child_NewChild_same prev b _ hn]
            rw [ih _ (p ++ [b]) hnew rfl r, IsLast_nodeAt_newChildOf, hnil, nodeAt_nil]
            simp only [List.length_append, List.length_singleton]
            rw [show L - (p.length + 1) = L - p.length - 1 by omega]
            simp [IPv4TreeNode.IsLast]
        · have hc : (prev.Child b).isNil = false := by simpa using h1
          have hcL : ((prev.Child b).Update (prev.Child b).PrefixLen size).PrefixLen
              = p.length + 1 := by
            rw [IPv4TreeNode.PrefixLen_Update, WFAt_PrefixLen _ _ (WFAt_Child prev p b hwf) hc]
            simp
          rw [if_neg h1, hcL]
          by_cases h2 : p.length + 1 = L
          · rw [if_pos h2, if_pos (by omega)]
            simp only [nodeAt_cons, IPv4TreeNode.Child_NewChild_same prev b _ hn]
            rw [IsLast_nodeAt_setIsLast _ (by simpa using hc), IsLast_nodeAt_Update]
            simp
          · rw [if_neg h2, if_neg (by omega)]
            simp only [nodeAt_cons, IPv4TreeNode.Child_NewChild_same prev b _ hn]
            rw [ih _ (p ++ [b]) hupd (by simpa using hc) r, IsLast_nodeAt_Update]
            simp only [List.length_append, List.length_singleton]
            rw [show L - (p.length + 1) = L - p.length - 1 by omega]
            simp
      · obtain ⟨c, hc⟩ := specialInsertLoop_cons_node size L bit rest prev
        rw [hc]
        simp only [nodeAt_cons, IPv4TreeNode.Child_NewChild_ne prev bit b c hb]
        have : ¬ (b :: r) = if L - p.length = 1 then [bit]
            else bit :: insertTarget (L - p.length - 1) rest := by
          split_ifs <;> simp [hb]
        simp [this]

theorem mem_specialDfs_iff (n : IPv4TreeNode) :
    ∀ x, x ∈ specialDfs n ↔ ∃ s, (nodeAt n s).isNil = false ∧ nodeAt n s = x := by
  induction n with
  | nil =>
    intro x
    simp only [specialDfs, List.not_mem_nil, false_iff]
    rintro ⟨s, hs, _⟩
    rw [nodeAt_nil] at hs
    exact absurd hs (by decide)
  | mk k l sz t c0 c1 q par ih0 ih1 =>
    intro x
    simp only [specialDfs, List.mem_append, List.mem_singleton, ih0 x, ih1 x]
    constructor
    · rintro ((⟨s, hs, e⟩ | ⟨s, hs, e⟩) | e)
      · exact ⟨false :: s, hs, e⟩
      · exact ⟨true :: s, hs, e⟩
      · exact ⟨[], rfl, e.symm⟩
    · rintro ⟨s, hs, e⟩
      cases s with
      | nil => exact Or.inr e.symm
      | cons b r =>
        cases b
        · exact Or.inl (Or.inl ⟨r, hs, e⟩)
        · exact Or.inl (Or.inr ⟨r, hs, e⟩)

theorem isNil_of_IsLast (n : IPv4TreeNode) (h : n.IsLast = true) : n.isNil = false := by
  cases n with
  | nil => exact absurd h (by decide)
  | mk => rfl

theorem String_nodeAt (root : IPv4TreeNode) (s : List Bool) (hwf : WFAt root [])
    (ht : Tidy 32 [] root) (hs : (nodeAt root s).isNil = false) (h1 : s ≠ []) :
    (nodeAt root s).String = bitsString s := by
  obtain ⟨w, _⟩ := nodeAt_inv s root [] 32 hwf ht
  rw [List.nil_append] at w
  have hl := WFAt_PrefixLen _ _ w hs
  have hp := WFAt_Prefix _ _ w hs
  have hpos : 0 < s.length := List.length_pos.mpr h1
  unfold IPv4TreeNode.String bitsString
  rw [hl, hp, if_pos hpos]

theorem Good_terminal_bounds (t : SpecialTree) (hg : t.Good) (s : List Bool)
    (hl : (nodeAt t.Root s).IsLast = true) : s ≠ [] ∧ s.length ≤ 32 := by
  obtain ⟨_, _, ht, hr⟩ := hg
  refine ⟨?_, nodeAt_depth s t.Root [] 32 ht (isNil_of_IsLast _ hl)⟩
  intro e
  subst e
  rw [show nodeAt t.Root [] = t.Root from rfl, hr] at hl
  exact absurd hl (by decide)

theorem mem_terminalStrings_Subnets (sortSlice : List IPv4TreeNode → List IPv4TreeNode)
    (hperm : ∀ l, (sortSlice l).Perm l) (t : SpecialTree) (hg : t.Good) (c : CIDRString) :
    c ∈ terminalStrings (t.Subnets sortSlice) ↔ t.HasTerminal c := by
  unfold terminalStrings SpecialTree.Subnets SpecialTree.HasTerminal
  simp only [List.mem_map, List.mem_filter, (hperm _).mem_iff, mem_specialDfs_iff]
  constructor
  · rintro ⟨x, ⟨⟨s, hs, e⟩, hl⟩, hc⟩
    subst e
    obtain ⟨h1, _⟩ := Good_terminal_bounds t hg s hl
    exact ⟨s, hl, by rw [← hc, String_nodeAt t.Root s hg.2.1 hg.2.2.1 hs h1]⟩
  · rintro ⟨s, hl, hc⟩
    obtain ⟨h1, _⟩ := Good_terminal_bounds t hg s hl
    have hs := isNil_of_IsLast _ hl
    exact ⟨nodeAt t.Root s, ⟨⟨s, hs, rfl⟩, hl⟩,
      by rw [hc, String_nodeAt t.Root s hg.2.1 hg.2.2.1 hs h1]⟩

theorem SpecialInsert_spec (t : SpecialTree) (hg : t.Good) (n : IPNet) :
    ∃ t1, t.Insert n = some t1 ∧ t1.Good ∧
      ∀ s, (nodeAt t1.Root s).IsLast =
        ((nodeAt t.Root s).IsLast ||
          decide (s = insertTarget n.ones (GetBinaryPathFromIPv4Addr n))) := by
  obtain ⟨hroot, hwf, ht, hr⟩ := hg
  refine ⟨_, by unfold SpecialTree.Insert; rw [if_neg (by simp [hroot])], ?_, ?_⟩
  · obtain ⟨w, td⟩ := specialInsertLoop_inv (CalculateTotalHosts n) n.ones
      (GetBinaryPathFromIPv4Addr n) t.Root [] 32 hroot hwf ht (by rw [path_length])
    refine ⟨?_, w, td, ?_⟩
    · show (specialInsertLoop _ _ _ _).1.isNil = false
      rw [specialInsertLoop_isNil]; exact hroot
    · obtain ⟨b, rest, hp⟩ := path_cons n
      obtain ⟨c, hc⟩ := specialInsertLoop_cons_node (CalculateTotalHosts n) n.ones b rest t.Root
      show (specialInsertLoop _ _ _ _).1.IsLast = false
      rw [hp, hc]
      simpa using hr
  · intro s
    exact specialInsertLoop_IsLast (CalculateTotalHosts n) n.ones (GetBinaryPathFromIPv4Addr n)
      t.Root [] hwf hroot s

theorem ParseCIDR_bitsString (s : List Bool) (h1 : s ≠ []) (h2 : s.length ≤ 32) :
    ∃ n, ParseCIDR (Text.cidr (bitsString s)) = some n ∧
      insertTarget n.ones (GetBinaryPathFromIPv4Addr n) = s := by
  obtain ⟨hv, hpath⟩ := network_of_bits s h2
  have hlen : (s ++ List.replicate (32 - s.length) false).length = 32 := by
    simp only [List.length_append, List.length_replicate]; omega
  have hlt : binaryValue (s ++ List.replicate (32 - s.length) false) < 2 ^ 32 := by
    have := binaryValue_lt (s ++ List.replicate (32 - s.length) false)
    rwa [hlen] at this
  have hip : GetIPv4FromBinaryString (s ++ List.replicate (32 - s.length) false)
      = binaryValue (s ++ List.replicate (32 - s.length) false) := by
    unfold GetIPv4FromBinaryString; rw [if_pos hlt]
  have hmod : binaryValue (s ++ List.replicate (32 - s.length) false) % 2 ^ (32 - s.length)
      = 0 := hv.2.2
  have hpos : 0 < s.length := List.length_pos.mpr h1
  refine ⟨IPNet.mk (binaryValue (s ++ List.replicate (32 - s.length) false)) s.length, ?_, ?_⟩
  · unfold bitsString ParseCIDR
    rw [hip]
    simp only []
    rw [if_pos ⟨h2, hlt⟩, Nat.div_mul_cancel (Nat.dvd_of_mod_eq_zero hmod)]
  · rw [hpath]
    unfold insertTarget
    rw [if_pos ⟨hpos, by rw [hlen]; exact h2⟩]
    simp

theorem InsertString_spec (t : SpecialTree) (hg : t.Good) (s0 : List Bool) (h1 : s0 ≠ [])
    (h2 : s0.length ≤ 32) :
    ∃ t1, t.InsertString (Text.cidr (bitsString s0)) = some t1 ∧ t1.Good ∧
      ∀ d, t1.HasTerminal d ↔ t.HasTerminal d ∨ d = bitsString s0 := by
  obtain ⟨n, hn, htar⟩ := ParseCIDR_bitsString s0 h1 h2
  obtain ⟨t1, hins, hg1, hl⟩ := SpecialInsert_spec t hg n
  refine ⟨t1, by unfold SpecialTree.InsertString; rw [hn]; exact hins, hg1, ?_⟩
  intro d
  rw [htar] at hl
  unfold SpecialTree.HasTerminal
  constructor
  · rintro ⟨s, hs, e⟩
    rw [hl s] at hs
    simp only [Bool.or_eq_true, decide_eq_true_eq] at hs
    rcases hs with hs | hs
    · exact Or.inl ⟨s, hs, e⟩
    · exact Or.inr (by rw [e, hs])
  · rintro (⟨s, hs, e⟩ | e)
    · exact ⟨s, by rw [hl s, hs]; rfl, e⟩
    · exact ⟨s0, by rw [hl s0]; simp, e⟩

theorem insertStrings_spec (l : List CIDRString) :
    ∀ t : SpecialTree, t.Good →
      (∀ c ∈ l, ∃ s : List Bool, s ≠ [] ∧ s.length ≤ 32 ∧ c = bitsString s) →
      ∃ t1, insertStrings l t = some t1 ∧ t1.Good ∧
        ∀ d, t1.HasTerminal d ↔ t.HasTerminal d ∨ d ∈ l := by
  induction l with
  | nil =>
    intro t hg _
    exact ⟨t, rfl, hg, fun d => by simp⟩
  | cons c rest ih =>
    intro t hg hl
    obtain ⟨s, h1, h2, e⟩ := hl c (List.mem_cons_self _ _)
    subst e
    obtain ⟨t1, hins, hg1, hd1⟩ := InsertString_spec t hg s h1 h2
    obtain ⟨t2, hins2, hg2, hd2⟩ := ih t1 hg1 (fun c hc => hl c (List.mem_cons_of_mem _ hc))
    refine ⟨t2, ?_, hg2, ?_⟩
    · simp only [insertStrings, hins]
      exact hins2
    · intro d
      rw [hd2 d, hd1 d, List.mem_cons]
      tauto

theorem NewSpecialTree_Good : NewSpecialTree.Good :=
  ⟨rfl, ⟨rfl, rfl, trivial, trivial⟩,
    ⟨fun hc => by simp at hc, fun hc => by simp at hc, trivial, trivial⟩, rfl⟩

theorem NewSpecialTree_HasTerminal (c : CIDRString) : ¬ NewSpecialTree.HasTerminal c := by
  rintro ⟨s, hs, _⟩
  cases s with
  | nil => exact absurd hs (by decide)
  | cons b r =>
    have : NewSpecialTree.Root.Child b = IPv4TreeNode.nil := by cases b <;> rfl
    rw [nodeAt_cons, this, nodeAt_nil] at hs
    exact absurd hs (by decide)

theorem SpecialBuilt_Good {t : SpecialTree} (h : SpecialBuilt t) : t.Good := by
  induction h with
  | empty => exact NewSpecialTree_Good
  | @insert t t1 n _ _ hins ih =>
    obtain ⟨t2, h2, hg2, _⟩ := SpecialInsert_spec t ih n
    rw [hins] at h2
    cases h2
    exact hg2

theorem mem_difference (a b : List CIDRString) (v : CIDRString) :
    v ∈ difference a b ↔ v ∈ a ∧ v ∉ b := by
  unfold difference
  simp

theorem HasTerminal_form (t : SpecialTree) (hg : t.Good) (c : CIDRString)
    (h : t.HasTerminal c) : ∃ s : List Bool, s ≠ [] ∧ s.length ≤ 32 ∧ c = bitsString s := by
  obtain ⟨s, hs, e⟩ := h
  obtain ⟨h1, h2⟩ := Good_terminal_bounds t hg s hs
  exact ⟨s, h1, h2, e⟩

/-! ## What a repeated Insert keeps -/

/-- In every tree built from the empty tree by Insert calls, for every valid network
c, Insert(c) and a second Insert(c) both succeed, and the second call creates no node
and changes no terminal flag, so the terminal nodes and the networks listed by
Subnets() are those after the first call; when moreover c has prefix length at least
1 and does not lie strictly inside a registered network (Supernet(c) before the calls
is nil or a node of the prefix length of c), the second call changes nothing at all,
node sizes included. -/
theorem insert_twice_same {ns : List IPNet} {t : IPv4Tree} (hb : Built ns t)
    (c : IPNet) (hv : c.Valid) :
    ∃ t1 t2, t.Insert c = some t1 ∧ t1.Insert c = some t2 ∧
      eraseSizes t2.Root = eraseSizes t1.Root ∧
      t2.Subnets.map IPv4TreeNode.String = t1.Subnets.map IPv4TreeNode.String ∧
      (1 ≤ c.ones →
        ((t.Supernet c).isNil = true ∨ (t.Supernet c).PrefixLen = c.ones) → t2 = t1) := by
  obtain ⟨hroot, hwf⟩ := Built_inv hb
  obtain ⟨t1, ht1⟩ := Insert_isSome t c hroot
  obtain ⟨hroot1, _⟩ := Insert_inv t t1 c hroot hwf ht1
  obtain ⟨t2, ht2⟩ := Insert_isSome t1 c hroot1
  have he := eraseSizes_Insert_again t t1 t2 c hroot ht1 hroot1 ht2
  refine ⟨t1, t2, ht1, ht2, he, Subnets_map_String_of_eraseSizes t1 t2 he, ?_⟩
  intro hL hfree
  have := Insert_again_same hb c hv hL hfree t1 ht1
  rw [ht2] at this
  exact Option.some.inj this

set_option maxRecDepth 100000

/-- An instance of `insert_twice_same`: 10.1.0.0/16 inserted twice into the tree that holds
192.168.0.0/24; it is not inside a registered network, so the second call changes
nothing. -/
theorem insert_twice_same_witness :
    (cidr 10 1 0 0 16).Valid ∧ 1 ≤ (cidr 10 1 0 0 16).ones ∧
    ((insertFresh NewIPv4Tree (cidr 192 168 0 0 24)).Supernet (cidr 10 1 0 0 16)).isNil = true ∧
    ∃ t1 t2,
      (insertFresh NewIPv4Tree (cidr 192 168 0 0 24)).Insert (cidr 10 1 0 0 16) = some t1 ∧
      t1.Insert (cidr 10 1 0 0 16) = some t2 ∧
      eraseSizes t2.Root = eraseSizes t1.Root ∧
      t2.Subnets.map IPv4TreeNode.String = t1.Subnets.map IPv4TreeNode.String ∧
      t2 = t1 := by
  refine ⟨by decide, by decide, by decide, ?_⟩
  obtain ⟨t1, t2, h1, h2, h3, h4, h5⟩ := insert_twice_same
    (Built.insert (cidr 192 168 0 0 24) Built.empty (by decide) (by rfl))
    (cidr 10 1 0 0 16) (by decide)
  exact ⟨t1, t2, h1, h2, h3, h4, h5 (by decide) (Or.inl (by decide))⟩

/-! ## The properties, claim by claim -/

set_option maxRecDepth 100000

/-- C1 (defect shown at the example of the specification): after Insert(10.0.0.0/8)
and Delete(10.1.0.0/16) on the empty tree, Supernet(10.1.0.0/16) and
Supernet(10.1.5.0/24) both return the terminal node 10.0.0.0/9, which covers the
deleted block. -/
theorem delete_leaves_deleted_block_covered :
    ∃ t1 t2, NewIPv4Tree.Insert (cidr 10 0 0 0 8) = some t1 ∧
      t1.Delete (cidr 10 1 0 0 16) = some t2 ∧
      (t2.Supernet (cidr 10 1 0 0 16)).IsLast = true ∧
      (t2.Supernet (cidr 10 1 0 0 16)).Covers (cidr 10 1 0 0 16) ∧
      (t2.Supernet (cidr 10 1 0 0 16)).Network = cidr 10 0 0 0 9 ∧
      (t2.Supernet (cidr 10 1 5 0 24)).IsLast = true ∧
      (t2.Supernet (cidr 10 1 5 0 24)).Covers (cidr 10 1 5 0 24) :=
  ⟨_, _, rfl, rfl, by decide⟩

/-- C2 (defect): after Insert(10.0.0.0/8) and Delete(10.1.0.0/16) on the empty
tree, the block 10.128.0.0/9 lies inside 10.0.0.0/8 and is disjoint from
10.1.0.0/16, yet Supernet(10.128.0.0/9) returns nil. -/
theorem delete_drops_remainder :
    (cidr 10 0 0 0 8).Contains (cidr 10 128 0 0 9) ∧
    (cidr 10 128 0 0 9).Disjoint (cidr 10 1 0 0 16) ∧
    ∃ t1 t2, NewIPv4Tree.Insert (cidr 10 0 0 0 8) = some t1 ∧
      t1.Delete (cidr 10 1 0 0 16) = some t2 ∧
      t2.Supernet (cidr 10 128 0 0 9) = IPv4TreeNode.nil :=
  ⟨by decide, by decide, _, _, rfl, rfl, by decide⟩

/-- C3 (defect): after Insert(10.0.0.0/8) and Delete(10.0.0.0/8) on the empty tree,
Supernet(10.0.0.0/8) still returns the terminal node of 10.0.0.0/8 and the
root reports Sizeof 2^24, not 0. -/
theorem delete_after_lone_insert_keeps_network :
    ∃ t1 t2, NewIPv4Tree.Insert (cidr 10 0 0 0 8) = some t1 ∧
      t1.Delete (cidr 10 0 0 0 8) = some t2 ∧
      (t2.Supernet (cidr 10 0 0 0 8)).IsLast = true ∧
      (t2.Supernet (cidr 10 0 0 0 8)).Network = cidr 10 0 0 0 8 ∧
      t2.Root.Sizeof = 2 ^ 24 :=
  ⟨_, _, rfl, rfl, by decide⟩

/-- C4 (defect): Insert(10.0.0.0/8) on the empty tree makes 10.0.0.0/8 present with
root size 2^24; after Delete(10.0.0.0/8) the root size is still 2^24 instead of
being decreased by 2^(32-8). -/
theorem delete_keeps_root_size :
    ∃ t1 t2, NewIPv4Tree.Insert (cidr 10 0 0 0 8) = some t1 ∧
      t1.Intree (cidr 10 0 0 0 8) = true ∧
      t1.Delete (cidr 10 0 0 0 8) = some t2 ∧
      t1.Root.Size = 2 ^ 24 ∧ t2.Root.Size = 2 ^ 24 :=
  ⟨_, _, rfl, by decide, rfl, by decide⟩

/-- C5 (defect): on the tree that holds 192.168.0.0/24, a first Insert(192.168.0.0/25)
leaves the root with size 384 and Sizeof(192.168.0.0/24) at 384, and a second
Insert(192.168.0.0/25) leaves them at 512: the sizes after Insert(c); Insert(c) are
not those after a single Insert(c). The same happens on the empty tree with
0.0.0.0/0: the root has size 2^32 after one Insert and 2^33 after two. -/
theorem insert_twice_changes_sizes :
    (cidr 192 168 0 0 24).Valid ∧ (cidr 192 168 0 0 25).Valid ∧ (cidr 0 0 0 0 0).Valid ∧
    (∃ t0 t1 t2, NewIPv4Tree.Insert (cidr 192 168 0 0 24) = some t0 ∧
      t0.Insert (cidr 192 168 0 0 25) = some t1 ∧
      t1.Insert (cidr 192 168 0 0 25) = some t2 ∧
      t0.Root.Size = 256 ∧ t1.Root.Size = 384 ∧ t2.Root.Size = 512 ∧
      t1.Sizeof (cidr 192 168 0 0 24) = 384 ∧ t2.Sizeof (cidr 192 168 0 0 24) = 512) ∧
    ∃ t1 t2, NewIPv4Tree.Insert (cidr 0 0 0 0 0) = some t1 ∧
      t1.Insert (cidr 0 0 0 0 0) = some t2 ∧
      t1.Root.Size = 2 ^ 32 ∧ t2.Root.Size = 2 ^ 33 :=
  ⟨by decide, by decide, by decide, ⟨_, _, _, rfl, rfl, rfl, by decide⟩,
    ⟨_, _, rfl, rfl, by decide⟩⟩

/-- C6 (defect): after Insert(192.168.0.0/24) and Insert(192.168.0.0/25) on the
empty tree, Sizeof(192.168.0.0/24) is 384 = 256 + 128 and the root size is 384,
while after the first insert alone both are 256. -/
theorem insert_inside_registration_adds_size :
    ∃ t1 t2, NewIPv4Tree.Insert (cidr 192 168 0 0 24) = some t1 ∧
      t1.Insert (cidr 192 168 0 0 25) = some t2 ∧
      t1.Sizeof (cidr 192 168 0 0 24) = 256 ∧ t1.Root.Size = 256 ∧
      t2.Sizeof (cidr 192 168 0 0 24) = 384 ∧ t2.Root.Size = 384 :=
  ⟨_, _, rfl, rfl, by decide⟩

/-- C7 (defect): after Insert(192.168.0.0/25) and Insert(192.168.0.0/24) on the
empty tree, the node of 192.168.0.0/24 is terminal with size 384 = 256 + 128,
Sizeof(192.168.0.0/24) is 384 and the root size is 384, not 256. -/
theorem insert_supernet_double_counts :
    ∃ t1 t2, NewIPv4Tree.Insert (cidr 192 168 0 0 25) = some t1 ∧
      t1.Insert (cidr 192 168 0 0 24) = some t2 ∧
      (t2.Supernet (cidr 192 168 0 0 24)).Network = cidr 192 168 0 0 24 ∧
      (t2.Supernet (cidr 192 168 0 0 24)).IsLast = true ∧
      (t2.Supernet (cidr 192 168 0 0 24)).Size = 384 ∧
      t2.Sizeof (cidr 192 168 0 0 24) = 384 ∧ t2.Root.Size = 384 :=
  ⟨_, _, rfl, rfl, by decide⟩

/-- C8 (counterexample): 0.0.0.0/1 and 128.0.0.0/1 are disjoint and their smallest
common block is 0.0.0.0/0, but after inserting both on the empty tree
Sizeof(0.0.0.0/0) is 0, not 2^31 + 2^31. -/
theorem sizeof_of_whole_space_is_zero :
    (cidr 0 0 0 0 1).Disjoint (cidr 128 0 0 0 1) ∧
    (cidr 0 0 0 0 0).Contains (cidr 0 0 0 0 1) ∧
    (cidr 0 0 0 0 0).Contains (cidr 128 0 0 0 1) ∧
    ∃ t1 t2, NewIPv4Tree.Insert (cidr 0 0 0 0 1) = some t1 ∧
      t1.Insert (cidr 128 0 0 0 1) = some t2 ∧
      t2.Sizeof (cidr 0 0 0 0 0) = 0 :=
  ⟨by decide, by decide, by decide, _, _, rfl, rfl, by decide⟩

/-- C8 (amended): for every two disjoint valid networks A and B whose smallest common
block P has prefix length at least 1, Insert(A) and Insert(B) on the empty tree
succeed and afterwards Sizeof(P) returns 2^(32-L_A) + 2^(32-L_B). -/
theorem sizeof_smallest_cover (A B P : IPNet) (hA : A.Valid) (hB : B.Valid)
    (hd : A.Disjoint B) (hP : P.SmallestCover A B) (hP1 : 1 ≤ P.ones) :
    ∃ t1 t2, NewIPv4Tree.Insert A = some t1 ∧ t1.Insert B = some t2 ∧
      t2.Sizeof P = 2 ^ (32 - A.ones) + 2 ^ (32 - B.ones) := by
  obtain ⟨common, a, b, restA, restB, restP, hab, eA, eB, eP, hclen, hkA, hkB⟩ :=
    paths_of_SmallestCover A B P hA hB hd hP
  have hroot : NewIPv4Tree.Root.isNil = false := rfl
  have hwf : WFAt NewIPv4Tree.Root [] := ⟨rfl, rfl, trivial, trivial⟩
  have h1 : NewIPv4Tree.Insert A = some (insertFresh NewIPv4Tree A) := by
    rw [Insert_eq _ A hroot, if_neg]
    simp [NewIPv4Tree, subnetsDfs]
  obtain ⟨hroot1, hwf1⟩ := Insert_inv _ _ A hroot hwf h1
  have hnil1 : (insertFresh NewIPv4Tree A).Supernet B = IPv4TreeNode.nil :=
    Insert_keeps_supernet_nil _ _ A B hroot hwf h1 hd (Supernet_NewIPv4Tree B)
  have h2 : (insertFresh NewIPv4Tree A).Insert B
      = some (insertFresh (insertFresh NewIPv4Tree A) B) := by
    rw [Insert_eq _ B hroot1, if_neg]
    intro hany
    obtain ⟨x, hx, hs⟩ := List.any_eq_true.mp hany
    obtain ⟨e1, _, e3, _⟩ := supernet_of_listed _ B hB hwf1 x hx (by simpa using hs)
    rw [hnil1] at e1
    rw [← e1] at e3
    simp at e3
  refine ⟨_, _, h1, h2, ?_⟩
  unfold IPv4Tree.Sizeof
  rw [insertFresh_Root, insertFresh_Root, eA, eB, eP]
  have hne : common ≠ [] := by
    intro h
    rw [h] at hclen
    simp at hclen
    omega
  exact sizeofLoop_two_inserts (CalculateTotalHosts A) (CalculateTotalHosts B) A.ones B.ones
    P.ones (hosts_pos _) (hosts_le _) (hosts_pos _) (hosts_le _) a b hab restA restB restP
    hkA hkB common (NewIPv4Tree.Root.Update (-1) (CalculateTotalHosts A)) (-1) hne rfl
    (by simp [NewIPv4Tree, IPv4TreeNode.Update, IPv4TreeNode.PrefixLen]) rfl
    (by intro c; cases c <;> rfl)
    (by simpa [NewIPv4Tree, IPv4TreeNode.Update, IPv4TreeNode.PrefixLen] using hclen)

/-- Witness for C8 (amended): 10.0.0.0/9 and 10.128.0.0/10 with smallest common block
10.0.0.0/8. -/
theorem sizeof_smallest_cover_witness :
    (cidr 10 0 0 0 9).Valid ∧ (cidr 10 128 0 0 10).Valid ∧
    (cidr 10 0 0 0 9).Disjoint (cidr 10 128 0 0 10) ∧
    (cidr 10 0 0 0 8).SmallestCover (cidr 10 0 0 0 9) (cidr 10 128 0 0 10) ∧
    ∃ t1 t2, NewIPv4Tree.Insert (cidr 10 0 0 0 9) = some t1 ∧
      t1.Insert (cidr 10 128 0 0 10) = some t2 ∧
      t2.Sizeof (cidr 10 0 0 0 8)
        = 2 ^ (32 - (cidr 10 0 0 0 9).ones) + 2 ^ (32 - (cidr 10 128 0 0 10).ones) :=
  ⟨by decide, by decide, by decide,
    SmallestCover_of_next_bit _ _ _ (by decide) (by decide) (by decide) (by decide),
    sizeof_smallest_cover (cidr 10 0 0 0 9) (cidr 10 128 0 0 10) (cidr 10 0 0 0 8)
      (by decide) (by decide) (by decide)
      (SmallestCover_of_next_bit _ _ _ (by decide) (by decide) (by decide) (by decide))
      (by decide)⟩

/-- C9 (counterexample): after Insert(0.0.0.0/0) on the empty tree,
Supernet(0.0.0.0/0) returns the node of 0.0.0.0/32, which does not contain
0.0.0.0/0. -/
theorem supernet_after_insert_whole_space :
    (cidr 0 0 0 0 0).Valid ∧
    ∃ t1, NewIPv4Tree.Insert (cidr 0 0 0 0 0) = some t1 ∧
      (t1.Supernet (cidr 0 0 0 0 0)).Network = cidr 0 0 0 0 32 ∧
      ¬ (t1.Supernet (cidr 0 0 0 0 0)).Covers (cidr 0 0 0 0 0) :=
  ⟨by decide, _, rfl, by decide⟩

/-- C9 (amended): in every tree built from the empty tree by Insert calls, for every
valid network N of prefix length 1 to 32, Insert(N) succeeds and afterwards
Supernet(N) returns a terminal node whose network is N or a broader network
containing N. -/
theorem supernet_after_insert_covers {ns : List IPNet} {t : IPv4Tree} (hb : Built ns t)
    (N : IPNet) (hv : N.Valid) (hL : 1 ≤ N.ones) :
    ∃ t1, t.Insert N = some t1 ∧ (t1.Supernet N).IsLast = true ∧ (t1.Supernet N).Covers N := by
  obtain ⟨hroot, hwf⟩ := Built_inv hb
  rw [Insert_eq t N hroot]
  by_cases hany : (subnetsDfs t.Root).any (fun n => n.String = N.String) = true
  · rw [if_pos hany]
    refine ⟨t, rfl, ?_⟩
    obtain ⟨n, hn, hs⟩ := List.any_eq_true.mp hany
    obtain ⟨e1, e2, e3, e4⟩ := supernet_of_listed t N hv hwf n hn (by simpa using hs)
    rw [e1]
    exact ⟨e2, e3, by rw [e4]; exact Contains_refl N⟩
  · rw [if_neg hany]
    refine ⟨_, rfl, ?_⟩
    have hne : GetBinaryPathFromIPv4Addr N ≠ [] := by
      intro h
      have := path_length N
      rw [h] at this
      simp at this
    obtain ⟨r1, r2, r3, r4, r5⟩ := supernetLoop_insertLoop (CalculateTotalHosts N) N.ones
      (GetBinaryPathFromIPv4Addr N) (t.Root.Update (-1) (CalculateTotalHosts N)) []
      (by simpa using hroot) (WFAt_Update _ _ _ _ hwf) (by simpa using hL) hne
    unfold IPv4Tree.Supernet
    rw [insertFresh_Root]
    exact ⟨r2, Covers_of_Prefix _ N r1 r4 r3 hv.1 (by simpa using r5)⟩

/-- Witness for C9 (amended): inserting 10.1.0.0/16 into the tree that holds
10.0.0.0/8. -/
theorem supernet_after_insert_covers_witness :
    (cidr 10 1 0 0 16).Valid ∧ 1 ≤ (cidr 10 1 0 0 16).ones ∧
    ∃ t1, (insertFresh NewIPv4Tree (cidr 10 0 0 0 8)).Insert (cidr 10 1 0 0 16) = some t1 ∧
      (t1.Supernet (cidr 10 1 0 0 16)).IsLast = true ∧
      (t1.Supernet (cidr 10 1 0 0 16)).Covers (cidr 10 1 0 0 16) :=
  ⟨by decide, by decide,
    supernet_after_insert_covers
      (Built.insert (cidr 10 0 0 0 8) Built.empty (by decide) (by rfl))
      (cidr 10 1 0 0 16) (by decide) (by decide)⟩

/-- C10: in every tree built from the empty tree by Insert calls, for every valid
network Q such that no inserted network contains Q or is contained in Q, Supernet(Q)
returns nil. -/
theorem supernet_of_disjoint_is_nil {ns : List IPNet} {t : IPv4Tree} (hb : Built ns t)
    (Q : IPNet) (_hq : Q.Valid) (hd : ∀ N ∈ ns, N.Disjoint Q) :
    t.Supernet Q = IPv4TreeNode.nil := by
  induction hb with
  | empty =>
    obtain ⟨b, rest, hp⟩ := path_cons Q
    unfold IPv4Tree.Supernet
    rw [hp]
    cases b <;> rfl
  | @insert ns t t1 n hbt _ hins ih =>
    obtain ⟨hroot, hwf⟩ := Built_inv hbt
    exact Insert_keeps_supernet_nil t t1 n Q hroot hwf hins (hd n (List.mem_cons_self n ns))
      (ih (fun N hN => hd N (List.mem_cons_of_mem n hN)))

/-- Witness for C10: the tree holding 10.0.0.0/8 and 192.168.0.0/24, queried for
11.0.0.0/8. -/
theorem supernet_of_disjoint_is_nil_witness :
    (cidr 11 0 0 0 8).Valid ∧
    (∀ N ∈ [cidr 192 168 0 0 24, cidr 10 0 0 0 8], N.Disjoint (cidr 11 0 0 0 8)) ∧
    (insertFresh (insertFresh NewIPv4Tree (cidr 10 0 0 0 8)) (cidr 192 168 0 0 24)).Supernet
      (cidr 11 0 0 0 8) = IPv4TreeNode.nil :=
  ⟨by decide, by decide,
    supernet_of_disjoint_is_nil
      (Built.insert (cidr 192 168 0 0 24)
        (Built.insert (cidr 10 0 0 0 8) Built.empty (by decide) (by rfl)) (by decide) (by rfl))
      (cidr 11 0 0 0 8) (by decide) (by decide)⟩

/-- C11 (counterexample): after Insert(10.0.0.0/16) on the empty tree,
Supernet(10.0.0.0/8) returns the node of 10.0.0.0/8, which exists on the path of the
inserted network but is not terminal. -/
theorem supernet_returns_structural_node :
    (cidr 10 0 0 0 8).Valid ∧
    ∃ t1, NewIPv4Tree.Insert (cidr 10 0 0 0 16) = some t1 ∧
      (t1.Supernet (cidr 10 0 0 0 8)).isNil = false ∧
      (t1.Supernet (cidr 10 0 0 0 8)).Network = cidr 10 0 0 0 8 ∧
      (t1.Supernet (cidr 10 0 0 0 8)).IsLast = false :=
  ⟨by decide, _, rfl, by decide⟩

/-- C11 (amended): in every tree built from the empty tree by Insert calls, for every
valid query Q of prefix length 1 to 32, Supernet(Q) returns nil or a node whose
network contains or equals Q, and that node is terminal or is the node of the prefix
length of Q itself, which Supernet returns whether it is terminal or not. -/
theorem supernet_answer {ns : List IPNet} {t : IPv4Tree} (hb : Built ns t)
    (Q : IPNet) (hq : Q.Valid) (hL : 1 ≤ Q.ones) :
    t.Supernet Q = IPv4TreeNode.nil ∨
      ((t.Supernet Q).Covers Q ∧
        ((t.Supernet Q).IsLast = true ∨ (t.Supernet Q).PrefixLen = Q.ones)) := by
  obtain ⟨_, hwf⟩ := Built_inv hb
  by_cases hnil : (t.Supernet Q).isNil = true
  · exact Or.inl (isNil_eq_true _ hnil)
  · simp only [Bool.not_eq_true] at hnil
    right
    unfold IPv4Tree.Supernet at hnil ⊢
    obtain ⟨r1, r2, r3, r4⟩ := supernetLoop_covers Q.ones (GetBinaryPathFromIPv4Addr Q) t.Root []
      hwf (by simpa using hL) (by rw [path_length]; simpa using hq.1) hnil
    exact ⟨Covers_of_Prefix _ Q hnil r2 r1 hq.1 (by simpa using r3), r4⟩

/-- Witness for C11 (amended): the tree holding 10.0.0.0/16, queried for 10.0.0.0/8. -/
theorem supernet_answer_witness :
    (cidr 10 0 0 0 8).Valid ∧ 1 ≤ (cidr 10 0 0 0 8).ones ∧
    ((insertFresh NewIPv4Tree (cidr 10 0 0 0 16)).Supernet (cidr 10 0 0 0 8)
        = IPv4TreeNode.nil ∨
      (((insertFresh NewIPv4Tree (cidr 10 0 0 0 16)).Supernet (cidr 10 0 0 0 8)).Covers
          (cidr 10 0 0 0 8) ∧
        (((insertFresh NewIPv4Tree (cidr 10 0 0 0 16)).Supernet (cidr 10 0 0 0 8)).IsLast = true ∨
          ((insertFresh NewIPv4Tree (cidr 10 0 0 0 16)).Supernet (cidr 10 0 0 0 8)).PrefixLen
            = (cidr 10 0 0 0 8).ones))) :=
  ⟨by decide, by decide,
    supernet_answer (Built.insert (cidr 10 0 0 0 16) Built.empty (by decide) (by rfl))
      (cidr 10 0 0 0 8) (by decide) (by decide)⟩

/-- C12: for every valid network A of prefix length 1 to 31 and every valid network B
strictly inside A, Insert(A) on the empty tree succeeds and Sizeof(A) then returns
2^(32-L_A); a further Insert(B) succeeds and Subnets() then has exactly one element,
whose String() is the canonical string of A. -/
theorem basic_scenario (A B : IPNet) (hA : A.Valid) (hB : B.Valid) (hA1 : 1 ≤ A.ones)
    (hAB : A.Contains B) (hlt : A.ones < B.ones) :
    ∃ t1 t2, NewIPv4Tree.Insert A = some t1 ∧ t1.Sizeof A = 2 ^ (32 - A.ones) ∧
      t1.Insert B = some t2 ∧ ∃ x, t2.Subnets = [x] ∧ x.String = A.String := by
  have hroot : NewIPv4Tree.Root.isNil = false := rfl
  have hwf : WFAt NewIPv4Tree.Root [] := ⟨rfl, rfl, trivial, trivial⟩
  have h1 : NewIPv4Tree.Insert A = some (insertFresh NewIPv4Tree A) := by
    rw [Insert_eq _ A hroot, if_neg]
    simp [NewIPv4Tree, subnetsDfs]
  obtain ⟨hroot1, hwf1⟩ := Insert_inv _ _ A hroot hwf h1
  obtain ⟨t2, h2⟩ := Insert_isSome (insertFresh NewIPv4Tree A) B hroot1
  have hs0 : (0 : ℤ) < CalculateTotalHosts A := hosts_pos _
  have hs1 : CalculateTotalHosts A < 2 ^ 63 := by
    have := hosts_le A.ones
    unfold CalculateTotalHosts
    norm_num at this ⊢
    omega
  have hfresh : ∀ b, ((NewIPv4Tree.Root.Update (-1) (CalculateTotalHosts A)).Child b).isNil
      = true := by
    intro b; cases b <;> rfl
  have hsz : (NewIPv4Tree.Root.Update (-1) (CalculateTotalHosts A)).Size
      = CalculateTotalHosts A := by
    rw [IPv4TreeNode.Size_Update NewIPv4Tree.Root _ _ rfl]
    show wrapInt (0 + _) = _
    rw [zero_add, wrapInt_of_bounds _ (by norm_num at hs1 ⊢; omega) hs1]
  -- the single listed node
  obtain ⟨bA, restA0, hpA⟩ := path_cons A
  obtain ⟨x, hx, hx1, hx2⟩ := insertLoop_lists_target (CalculateTotalHosts A) A.ones
    (GetBinaryPathFromIPv4Addr A) (NewIPv4Tree.Root.Update (-1) (CalculateTotalHosts A)) [] rfl
    (WFAt_Update _ _ _ _ hwf) (by rw [IPv4TreeNode.IsLast_Update_neg]; rfl) (by simpa using hA1)
    (by rw [path_length]; simpa using hA.1)
    (by rw [hpA]; left; cases bA <;> rfl)
  have hlen := length_subnetsDfs_insertLoop_fresh (CalculateTotalHosts A) A.ones
    (GetBinaryPathFromIPv4Addr A) (NewIPv4Tree.Root.Update (-1) (CalculateTotalHosts A)) rfl
    hfresh
  have hxs : x.String = A.String := String_of_target x A hA hA1 hx1 (by simpa using hx2)
  have hdfs : subnetsDfs (insertFresh NewIPv4Tree A).Root = [x] := by
    rw [insertFresh_Root]
    obtain ⟨y, hy⟩ := List.length_eq_one.mp hlen
    rw [hy] at hx ⊢
    rw [List.mem_singleton.mp hx]
  have hsub1 : (insertFresh NewIPv4Tree A).Subnets = [x] := by
    unfold IPv4Tree.Subnets
    rw [hdfs]
    rfl
  -- Supernet finds it for A and for B
  obtain ⟨e1, e2, e3, _⟩ := supernet_of_listed (insertFresh NewIPv4Tree A) A hA hwf1 x
    (by rw [hdfs]; exact List.mem_singleton_self x) hxs
  obtain ⟨common, restA, restB, epA, epB, hclen⟩ := paths_of_Contains A B hB hAB
  have hcne : common ≠ [] := by
    intro h
    rw [h] at hclen
    simp at hclen
    omega
  have hsupB : (insertFresh NewIPv4Tree A).Supernet B = x := by
    unfold IPv4Tree.Supernet at e1 ⊢
    rw [epA] at e1
    rw [epB, supernetLoop_common A.ones B.ones hlt restA restB common _ [] hcne hwf1
      (by simpa using hclen) (by rw [e1]; exact e3) (by rw [e1]; exact e2), e1]
  have he := eraseSizes_Insert_of_covered _ t2 B hroot1 h2 (by rw [hsupB]; exact e3)
    (by rw [hsupB]; exact e2)
  have hmap := Subnets_map_String_of_eraseSizes _ t2 he
  rw [hsub1] at hmap
  refine ⟨_, t2, h1, ?_, h2, ?_⟩
  · unfold IPv4Tree.Sizeof
    rw [insertFresh_Root]
    exact sizeofLoop_insertLoop_fresh _ A.ones hs0 hs1 _ _ rfl hsz hfresh (by simpa using hA1)
  · cases hsub2 : t2.Subnets with
    | nil => rw [hsub2] at hmap; simp at hmap
    | cons y rest =>
      rw [hsub2] at hmap
      simp only [List.map_cons, List.map_nil, List.cons.injEq] at hmap
      have hrest : rest = [] := List.map_eq_nil_iff.mp hmap.2
      exact ⟨y, by rw [hrest], by rw [hmap.1, hxs]⟩

/-- Witness for C12: A = 192.168.0.0/24 and B = 192.168.0.0/25. -/
theorem basic_scenario_witness :
    (cidr 192 168 0 0 24).Valid ∧ (cidr 192 168 0 0 25).Valid ∧
    (cidr 192 168 0 0 24).Contains (cidr 192 168 0 0 25) ∧
    ∃ t1 t2, NewIPv4Tree.Insert (cidr 192 168 0 0 24) = some t1 ∧
      t1.Sizeof (cidr 192 168 0 0 24) = 2 ^ (32 - (cidr 192 168 0 0 24).ones) ∧
      t1.Insert (cidr 192 168 0 0 25) = some t2 ∧
      ∃ x, t2.Subnets = [x] ∧ x.String = (cidr 192 168 0 0 24).String :=
  ⟨by decide, by decide, by decide,
    basic_scenario (cidr 192 168 0 0 24) (cidr 192 168 0 0 25) (by decide) (by decide)
      (by decide) (by decide) (by decide)⟩

/-- C13: in every tree reachable from the empty tree by Insert, Delete and Aggregate
calls with valid networks, Subnets() holds exactly the nodes that are terminal and
have no terminal proper ancestor (each found at the position its Prefix spells), no
node twice, in strictly increasing order of Int(). -/
theorem subnets_enumeration {t : IPv4Tree} (h : Reachable t) :
    (∀ x, x ∈ t.Subnets ↔ ∃ p, Topmost t.Root p ∧ nodeAt t.Root p = x) ∧
      (∀ p, Topmost t.Root p → (nodeAt t.Root p).Prefix = p) ∧
      t.Subnets.Nodup ∧ t.Subnets.Pairwise (fun a b => a.Int < b.Int) := by
  obtain ⟨_, hwf, ht, _⟩ := Reachable_inv h
  have hs := subnetsDfs_sorted t.Root [] 32 hwf ht (by simp)
  rw [Subnets_eq_dfs t hwf ht]
  refine ⟨mem_subnetsDfs_iff t.Root, ?_, ?_, hs⟩
  · intro p hp
    simpa using WFAt_Prefix _ _ (nodeAt_inv p t.Root [] 32 hwf ht).1 hp.1
  · exact hs.imp (fun hab e => by rw [e] at hab; exact absurd hab (lt_irrefl _))

/-- Witness for C13: the tree after Insert(192.168.0.0/24), Insert(10.0.0.0/8) and
Delete(10.255.0.0/16). -/
theorem subnets_enumeration_witness :
    ∃ t1 t2 t3, NewIPv4Tree.Insert (cidr 192 168 0 0 24) = some t1 ∧
      t1.Insert (cidr 10 0 0 0 8) = some t2 ∧ t2.Delete (cidr 10 255 0 0 16) = some t3 ∧
      t3.Subnets.Nodup ∧ t3.Subnets.Pairwise (fun a b => a.Int < b.Int) :=
  ⟨_, _, _, rfl, rfl, rfl,
    (subnets_enumeration
      (Reachable.delete (cidr 10 255 0 0 16)
        (Reachable.insert (cidr 10 0 0 0 8)
          (Reachable.insert (cidr 192 168 0 0 24) Reachable.empty (by decide) rfl)
          (by decide) rfl)
        (by decide) rfl)).2.2⟩

/-- C14 (defect): after Insert(10.0.0.0/8), Delete(10.255.0.0/16) and Aggregate(1.0)
on the empty tree, the node of 10.255.0.0/16 has no children and size 65536, its
whole capacity, so its fullness is at least 1.0, and it is still not terminal. -/
theorem aggregate_skips_full_leaf :
    ∃ t1 t2, NewIPv4Tree.Insert (cidr 10 0 0 0 8) = some t1 ∧
      t1.Delete (cidr 10 255 0 0 16) = some t2 ∧
      (nodeAt (t2.Aggregate (Float64.finite 1)).Root
        ((GetBinaryPathFromIPv4Addr (cidr 10 255 0 0 16)).take 16)).Network
          = cidr 10 255 0 0 16 ∧
      (nodeAt (t2.Aggregate (Float64.finite 1)).Root
        ((GetBinaryPathFromIPv4Addr (cidr 10 255 0 0 16)).take 16)).TrueLastNode = true ∧
      (nodeAt (t2.Aggregate (Float64.finite 1)).Root
        ((GetBinaryPathFromIPv4Addr (cidr 10 255 0 0 16)).take 16)).Size = 65536 ∧
      ((nodeAt (t2.Aggregate (Float64.finite 1)).Root
        ((GetBinaryPathFromIPv4Addr (cidr 10 255 0 0 16)).take 16)).Fullness).ge
          (Float64.finite 1) = true ∧
      (nodeAt (t2.Aggregate (Float64.finite 1)).Root
        ((GetBinaryPathFromIPv4Addr (cidr 10 255 0 0 16)).take 16)).IsLast = false := by
  refine ⟨_, _, rfl, rfl, ?_⟩
  rw [Aggregate_eq]
  refine ⟨by decide, by decide, by decide, ?_, by decide⟩
  have h : nodeAt
      (((NewIPv4Tree.Insert (cidr 10 0 0 0 8)).bind
        (fun t => t.Delete (cidr 10 255 0 0 16))).getD NewIPv4Tree).Root
      ((GetBinaryPathFromIPv4Addr (cidr 10 255 0 0 16)).take 16)
      = IPv4TreeNode.mk [true] 16 65536 false IPv4TreeNode.nil IPv4TreeNode.nil
          ((GetBinaryPathFromIPv4Addr (cidr 10 255 0 0 16)).take 16)
          (some ((GetBinaryPathFromIPv4Addr (cidr 10 255 0 0 16)).take 15)) := by decide
  exact (congrArg (fun n => (IPv4TreeNode.Fullness n).ge (Float64.finite 1)) h).trans
    (by norm_num [IPv4TreeNode.Fullness, IPv4TreeNode.PrefixLen, IPv4TreeNode.Size,
      Float64.quot, Float64.ge])

/-- C15: for special trees A and B built by SpecialTree.Insert from valid networks,
and any sorting of node lists that permutes them, TreeSub(A, B), TreeMerge of that
result with B, and TreeMerge(A, B) all return; the terminal strings of
TreeMerge(TreeSub(A, B), B) are those of TreeMerge(A, B), and the terminal strings of
TreeSub(A, B) are the terminal strings of A that are not terminal strings of B. -/
theorem difference_then_union (sortSlice : List IPv4TreeNode → List IPv4TreeNode)
    (hperm : ∀ l, (sortSlice l).Perm l) {A B : SpecialTree} (hA : SpecialBuilt A)
    (hB : SpecialBuilt B) :
    ∃ S M1 M2, TreeSub sortSlice A B = some S ∧ TreeMerge sortSlice S B = some M1 ∧
      TreeMerge sortSlice A B = some M2 ∧
      (∀ c, c ∈ terminalStrings (M1.Subnets sortSlice) ↔
        c ∈ terminalStrings (M2.Subnets sortSlice)) ∧
      (∀ c, c ∈ terminalStrings (S.Subnets sortSlice) ↔
        c ∈ terminalStrings (A.Subnets sortSlice) ∧
          c ∉ terminalStrings (B.Subnets sortSlice)) := by
  have gA := SpecialBuilt_Good hA
  have gB := SpecialBuilt_Good hB
  have mA := mem_terminalStrings_Subnets sortSlice hperm A gA
  have mB := mem_terminalStrings_Subnets sortSlice hperm B gB
  have fB : ∀ c ∈ terminalStrings (B.Subnets sortSlice),
      ∃ s : List Bool, s ≠ [] ∧ s.length ≤ 32 ∧ c = bitsString s :=
    fun c hc => HasTerminal_form B gB c ((mB c).mp hc)
  obtain ⟨S, hS, gS, dS⟩ := insertStrings_spec
    (difference (terminalStrings (A.Subnets sortSlice)) (terminalStrings (B.Subnets sortSlice)))
    NewSpecialTree NewSpecialTree_Good
    (fun c hc => HasTerminal_form A gA c ((mA c).mp ((mem_difference _ _ c).mp hc).1))
  obtain ⟨M1, hM1, gM1, dM1⟩ := insertStrings_spec (terminalStrings (B.Subnets sortSlice)) S gS fB
  obtain ⟨M2, hM2, gM2, dM2⟩ := insertStrings_spec (terminalStrings (B.Subnets sortSlice)) A gA fB
  refine ⟨S, M1, M2, hS, hM1, hM2, ?_, ?_⟩
  · intro c
    rw [mem_terminalStrings_Subnets sortSlice hperm M1 gM1,
      mem_terminalStrings_Subnets sortSlice hperm M2 gM2, dM1 c, dM2 c, dS c, mem_difference,
      mA c]
    have := NewSpecialTree_HasTerminal c
    tauto
  · intro c
    rw [mem_terminalStrings_Subnets sortSlice hperm S gS, dS c, mem_difference]
    have := NewSpecialTree_HasTerminal c
    tauto

/-- Witness for C15: A holds 10.0.0.0/8 and 192.168.0.0/24, B holds 10.0.0.0/8 and
172.16.0.0/12, and node lists are left in the order of the traversal. -/
theorem difference_then_union_witness :
    ∃ A B, (NewSpecialTree.Insert (cidr 10 0 0 0 8)).bind
        (fun t => t.Insert (cidr 192 168 0 0 24)) = some A ∧
      (NewSpecialTree.Insert (cidr 10 0 0 0 8)).bind
        (fun t => t.Insert (cidr 172 16 0 0 12)) = some B ∧
      ∃ S M1 M2, TreeSub id A B = some S ∧ TreeMerge id S B = some M1 ∧
        TreeMerge id A B = some M2 ∧
        (∀ c, c ∈ terminalStrings (M1.Subnets id) ↔ c ∈ terminalStrings (M2.Subnets id)) ∧
        (∀ c, c ∈ terminalStrings (S.Subnets id) ↔
          c ∈ terminalStrings (A.Subnets id) ∧ c ∉ terminalStrings (B.Subnets id)) :=
  ⟨_, _, rfl, rfl,
    difference_then_union id (fun l => List.Perm.refl l)
      (SpecialBuilt.insert (cidr 192 168 0 0 24)
        (SpecialBuilt.insert (cidr 10 0 0 0 8) SpecialBuilt.empty (by decide) rfl)
        (by decide) rfl)
      (SpecialBuilt.insert (cidr 172 16 0 0 12)
        (SpecialBuilt.insert (cidr 10 0 0 0 8) SpecialBuilt.empty (by decide) rfl)
        (by decide) rfl)⟩

/-- C16: for every IPv4 address a (a 32-bit number), GetBinaryPathFromIPv4Addr(a) has
exactly 32 binary digits, digit i being bit 31 - i of a (most significant first), and
GetIPv4FromBinaryString of it is a; for every string s of 32 binary digits,
GetBinaryPathFromIPv4Addr(GetIPv4FromBinaryString(s)) is s. The network form of the
encoder gives the same digits. -/
theorem codec_round_trip (a : Nat) (ha : a < 2 ^ 32) (s : List Bool) (hs : s.length = 32) :
    (GetBinaryPathFromIP a).length = 32 ∧
    (∀ i, i < 32 → (GetBinaryPathFromIP a).get? i = some (a.testBit (31 - i))) ∧
    GetIPv4FromBinaryString (GetBinaryPathFromIP a) = a ∧
    GetBinaryPathFromIP (GetIPv4FromBinaryString s) = s ∧
    (∀ ones, GetBinaryPathFromIPv4Addr { IP := a, ones := ones } = GetBinaryPathFromIP a) :=
  ⟨binaryDigits_length 32 a, fun i hi => binaryDigits_get? 32 a i hi,
    GetIPv4FromBinaryString_digits a ha, path_of_binaryString s hs, fun _ => rfl⟩

/-- Witness for C16: the address 192.168.0.1 and the string of 32 ones. -/
theorem codec_round_trip_witness :
    ipv4 192 168 0 1 < 2 ^ 32 ∧ (List.replicate 32 true).length = 32 ∧
    (GetBinaryPathFromIP (ipv4 192 168 0 1)).length = 32 ∧
    (∀ i, i < 32 →
      (GetBinaryPathFromIP (ipv4 192 168 0 1)).get? i
        = some ((ipv4 192 168 0 1).testBit (31 - i))) ∧
    GetIPv4FromBinaryString (GetBinaryPathFromIP (ipv4 192 168 0 1)) = ipv4 192 168 0 1 ∧
    GetBinaryPathFromIP (GetIPv4FromBinaryString (List.replicate 32 true))
      = List.replicate 32 true ∧
    (∀ ones, GetBinaryPathFromIPv4Addr { IP := ipv4 192 168 0 1, ones := ones }
      = GetBinaryPathFromIP (ipv4 192 168 0 1)) :=
  ⟨by decide, by decide, codec_round_trip (ipv4 192 168 0 1) (by decide)
    (List.replicate 32 true) (by decide)⟩

/-- C17 (defect): on a freshly constructed CIDRTree, Insert fails with a nil
dereference for every network: the scan over `t.Root.IteratorIPv4Tree()` dereferences
the root's nil child. -/
theorem cidr_insert_on_fresh_tree_fails (c : IPNet) : NewCIDRTree.Insert c = none := rfl

/-- C18 (defect): with `other` holding 10.0.0.0/8, whose Subnets() is that one node,
Add on an empty tree fails: it inserts the node's Key "0", which is no CIDR. -/
theorem add_fails_on_node_key :
    ∃ other, NewIPv4Tree.Insert (cidr 10 0 0 0 8) = some other ∧
      other.Subnets.map IPv4TreeNode.String = [(cidr 10 0 0 0 8).String] ∧
      other.Subnets.map IPv4TreeNode.Key = [[false]] ∧
      NewIPv4Tree.Add other = none :=
  ⟨_, rfl, by decide⟩

/-- C19: in every tree reachable from the empty tree by Insert, Delete and Aggregate
calls with valid networks, the root is a node of PrefixLen 0 that is not terminal, and
every node found from the root through a chain of Child lookups ending with bit b has
the PrefixLen of the node it hangs from plus one, Key b, the Prefix of that node with b
appended, and that node as Parent. -/
theorem reachable_tree_well_formed {t : IPv4Tree} (h : Reachable t) :
    t.Root.isNil = false ∧ t.Root.PrefixLen = 0 ∧ t.Root.IsLast = false ∧
      ∀ (path : List Bool) (b : Bool), (nodeAt t.Root (path ++ [b])).isNil = false →
        ChildLinked (nodeAt t.Root path) b (nodeAt t.Root (path ++ [b])) := by
  obtain ⟨hroot, hwf, ht, hl⟩ := Reachable_inv h
  refine ⟨hroot, WFAt_PrefixLen _ _ hwf hroot, hl, ?_⟩
  intro path b hc
  obtain ⟨pw, pt⟩ := nodeAt_inv path t.Root [] 32 hwf ht
  rw [List.nil_append] at pw pt
  rw [nodeAt_append] at hc ⊢
  have hp : (nodeAt t.Root path).isNil = false := by
    cases hn : (nodeAt t.Root path).isNil
    · rfl
    · rw [Child_isNil_of_isNil _ b hn] at hc; exact absurd hc (by decide)
  have hcw := WFAt_Child _ _ b pw
  obtain ⟨_, hk, hpar⟩ := Tidy_child_fields _ _ _ b pt hc
  refine ⟨?_, hk, ?_, ?_⟩
  · rw [WFAt_PrefixLen _ _ hcw hc, WFAt_PrefixLen _ _ pw hp, List.length_append]; rfl
  · rw [WFAt_Prefix _ _ hcw hc, WFAt_Prefix _ _ pw hp]
  · rw [hpar, WFAt_Prefix _ _ pw hp]

/-- Witness for C19: the tree after Insert(10.0.0.0/8), Delete(10.255.0.0/16) and
Aggregate(1.0), at the node reached through the bits 0, 0. -/
theorem reachable_tree_well_formed_witness :
    ∃ t1 t2, NewIPv4Tree.Insert (cidr 10 0 0 0 8) = some t1 ∧
      t1.Delete (cidr 10 255 0 0 16) = some t2 ∧
      (t2.Aggregate (Float64.finite 1)).Root.PrefixLen = 0 ∧
      ChildLinked (nodeAt (t2.Aggregate (Float64.finite 1)).Root [false]) false
        (nodeAt (t2.Aggregate (Float64.finite 1)).Root [false, false]) :=
  ⟨_, _, rfl, rfl,
    (reachable_tree_well_formed
      (Reachable.aggregate (Float64.finite 1)
        (Reachable.delete (cidr 10 255 0 0 16)
          (Reachable.insert (cidr 10 0 0 0 8) Reachable.empty (by decide) rfl)
          (by decide) rfl))).2.1,
    (reachable_tree_well_formed
      (Reachable.aggregate (Float64.finite 1)
        (Reachable.delete (cidr 10 255 0 0 16)
          (Reachable.insert (cidr 10 0 0 0 8) Reachable.empty (by decide) rfl)
          (by decide) rfl))).2.2.2 [false] false (by decide)⟩

/-- C20: for every IPv4Tree and every threshold, Aggregate leaves the tree as it is:
every node keeps its terminal flag, its Size and its children; in particular no
non-terminal node becomes terminal. -/
theorem aggregate_is_identity (t : IPv4Tree) (fullness : Float64) :
    t.Aggregate fullness = t ∧
    ∀ p, (nodeAt (t.Aggregate fullness).Root p).IsLast = (nodeAt t.Root p).IsLast :=
  ⟨Aggregate_eq t fullness, fun p => by rw [Aggregate_eq]⟩

end IpTrees
